import Mathlib

/-!
# abpre: secure content resolution, notes, quizzes and admin content

A shallow embedding of the following pieces of the application:

* `verifyAndFetch` (`WatchVideo.jsx` lines 76-123), the access check that
  decides whether the video player receives a URL, together with the render
  switch of the video area (lines 186-204);
* `extractNoteContent` (`WatchVideo.jsx` lines 49-70), the recursive normaliser
  of note payloads, together with the JavaScript built-ins it calls
  (`String.prototype.trim`, `startsWith`, `JSON.parse`), the classifier
  `isPdfUrl` and the notes loader;
* the AI calls of `geminiService.js` and `QuizSection.jsx` with their two fence
  strippers, and the quiz of `QuizSection.jsx` as a state machine;
* the sheet reads and writes of `sheetService.js`;
* the admin operations of `BatchContent.jsx` and `courseService.js` on the
  syllabus and the `secure_videos` collection;
* the offline notes that `NotebookView.jsx` stores and `Downloads.jsx` lists.

Asynchronous reads are modelled by their three possible results (the read
rejects, the document does not exist, the document exists with some data);
React state is an explicit record that `verifyAndFetch` transforms.
-/

set_option autoImplicit false

namespace Abpre

/-! ## Entitlement store -/

/-- Result of one `await getDoc(ref)`: the promise rejects, or it resolves to a
snapshot whose `exists()` is false, or to a snapshot with data. -/
inductive Lookup (α : Type) where
  | threw : Lookup α
  | missing : Lookup α
  | found (d : α) : Lookup α
  deriving Repr, DecidableEq

/-- Data of a `secure_videos/{id}` document. A field that is absent from the
document reads as `undefined`, modelled by `none`. -/
structure SecureVideo where
  url : Option String
  batchId : Option String
  title : Option String
  createdAt : Option String := none
  deriving Repr, DecidableEq

/-- Data of a `users/{uid}` document; only `enrolledBatches` is read. -/
structure UserDoc where
  enrolledBatches : Option (List String)
  deriving Repr, DecidableEq

/-- The two collections read by the resolver. -/
structure Store where
  secure_videos : String → Lookup SecureVideo
  users : String → Lookup UserDoc

/-- The React state touched by `verifyAndFetch`. `secureUrl = none` stands for
`null` or `undefined`. -/
structure ViewState where
  videoTitle : String
  secureUrl : Option String
  loadingUrl : Bool
  accessDenied : Bool
  deriving Repr, DecidableEq

/-- JavaScript truthiness of a value that is a string, `null` or `undefined`. -/
def truthyStr : Option String → Bool
  | some s => s != ""
  | none => false

/-- JavaScript `a || b` for an optional string `a` and a string `b`. -/
def orElseStr (a : Option String) (b : String) : String :=
  match a with
  | some s => if s != "" then s else b
  | none => b

/-- JavaScript `enrolledBatches.includes(requiredBatchId)` on an array of
strings; an `undefined` batch id is in no such array. -/
def includes (enrolledBatches : List String) (requiredBatchId : Option String) : Bool :=
  match requiredBatchId with
  | some b => enrolledBatches.contains b
  | none => false

/-- The body of `verifyAndFetch` (WatchVideo.jsx lines 76-123): the state after
the function has run to completion from state `st`. `fallbackUrl` is
`videoState?.url`, `uid` is `user.uid`. -/
def verifyAndFetch (store : Store) (videoId uid userRole : String)
    (fallbackUrl : Option String) (st : ViewState) : ViewState :=
  -- setLoadingUrl(true); setAccessDenied(false);
  let st0 := { st with loadingUrl := true, accessDenied := false }
  match store.secure_videos videoId with
  | Lookup.threw =>
      -- catch: setAccessDenied(true); then setLoadingUrl(false)
      { st0 with accessDenied := true, loadingUrl := false }
  | Lookup.missing =>
      if truthyStr fallbackUrl then
        { st0 with secureUrl := fallbackUrl, loadingUrl := false }
      else
        { st0 with accessDenied := true, loadingUrl := false }
  | Lookup.found secureData =>
      -- setVideoTitle(secureData.title || videoTitle)
      let st1 := { st0 with videoTitle := orElseStr secureData.title st.videoTitle }
      let requiredBatchId := secureData.batchId
      if userRole = "admin" then
        { st1 with secureUrl := secureData.url, loadingUrl := false }
      else
        match store.users uid with
        | Lookup.threw =>
            { st1 with accessDenied := true, loadingUrl := false }
        | Lookup.found userData =>
            let enrolledBatches := userData.enrolledBatches.getD []
            if includes enrolledBatches requiredBatchId then
              { st1 with secureUrl := secureData.url, loadingUrl := false }
            else
              { st1 with accessDenied := true, loadingUrl := false }
        | Lookup.missing =>
            { st1 with accessDenied := true, loadingUrl := false }

/-- What the video area renders (WatchVideo.jsx lines 186-204). -/
inductive Outcome where
  | loading : Outcome
  | accessDenied : Outcome
  | playable (url : String) : Outcome
  | unavailable : Outcome
  deriving Repr, DecidableEq

/-- The render switch `loadingUrl ? .. : accessDenied ? .. : secureUrl ? .. : ..`. -/
def render (st : ViewState) : Outcome :=
  if st.loadingUrl then Outcome.loading
  else if st.accessDenied then Outcome.accessDenied
  else match st.secureUrl with
    | some u => if u != "" then Outcome.playable u else Outcome.unavailable
    | none => Outcome.unavailable

/-- The outcome of one resolution: what is rendered once `verifyAndFetch` is done. -/
def resolve (store : Store) (videoId uid userRole : String)
    (fallbackUrl : Option String) (st : ViewState) : Outcome :=
  render (verifyAndFetch store videoId uid userRole fallbackUrl st)

/-- A store given by finite tables; an id that is in neither table has no document. -/
def tableStore (videos : List (String × SecureVideo)) (users : List (String × UserDoc)) : Store where
  secure_videos := fun id =>
    match videos.lookup id with
    | some v => Lookup.found v
    | none => Lookup.missing
  users := fun id =>
    match users.lookup id with
    | some u => Lookup.found u
    | none => Lookup.missing

/-- The component's state when it mounts: `useState` initial values. -/
def initialState : ViewState :=
  { videoTitle := "Loading...", secureUrl := none, loadingUrl := true, accessDenied := false }

/-- The record of the spec's scenario: `secure_videos/v1 = {url: "u1", batchId: "b1"}`. -/
def sampleVideo : SecureVideo :=
  { url := some "u1", batchId := some "b1", title := none }

/-- A store whose every `secure_videos` read rejects. -/
def videosReadFails : Store :=
  { secure_videos := fun _ => Lookup.threw, users := fun _ => Lookup.missing }

/-- A store that holds `sampleVideo` under every id and whose every `users` read rejects. -/
def usersReadFails : Store :=
  { secure_videos := fun _ => Lookup.found sampleVideo, users := fun _ => Lookup.threw }

/-! ## JavaScript values and built-ins used by the note normaliser -/

/-- A value that can arrive as a note payload: the sheet backend's response is
read with `response.json()`, so it is a JSON value. A number is kept as the
decimal `(-1)^neg * mant * 10^exp` that its literal denotes. -/
inductive JVal where
  | null : JVal
  | bool (b : Bool) : JVal
  | num (neg : Bool) (mant : Nat) (exp : Int) : JVal
  | str (s : String) : JVal
  | arr (xs : List JVal) : JVal
  | obj (kvs : List (String × JVal)) : JVal
  deriving Repr, Inhabited

/-- Whether the decimal `mant * 10^exp` converts to the double `0`: it is zero,
or it is at most `2^(-1075)`, half of the least positive double (round to
nearest, ties to even). -/
def numIsZero (mant : Nat) (exp : Int) : Bool :=
  if mant = 0 then true
  else if 0 ≤ exp then false
  else decide (mant * 2 ^ 1075 ≤ 10 ^ exp.natAbs)

/-- JavaScript `ToBoolean`. -/
def truthy : JVal → Bool
  | JVal.null => false
  | JVal.bool b => b
  | JVal.num _ mant exp => !(numIsZero mant exp)
  | JVal.str s => s != ""
  | JVal.arr _ => true
  | JVal.obj _ => true

/-- Property read `o.k` on an object given by its members in source order: the
last member named `k` is the one that is kept, an absent one is `undefined`. -/
def getProp : List (String × JVal) → String → Option JVal
  | [], _ => none
  | (k1, v) :: kvs, k =>
    match getProp kvs k with
    | some w => some w
    | none => if k1 = k then some v else none

/-- The double quote character. -/
def quoteChar : Char := Char.ofNat 34

/-- The backslash character. -/
def backslash : Char := Char.ofNat 92

/-- White space and line terminators stripped by `String.prototype.trim`. -/
def isJsWhitespace (c : Char) : Bool :=
  let n := c.toNat
  n = 9 || n = 10 || n = 11 || n = 12 || n = 13 || n = 32 || n = 160 || n = 5760 ||
  (8192 ≤ n && n ≤ 8202) || n = 8232 || n = 8233 || n = 8239 || n = 8287 ||
  n = 12288 || n = 65279

/-- The built-in `String.prototype.trim` on the list of characters. -/
def trimChars (cs : List Char) : List Char :=
  ((cs.dropWhile isJsWhitespace).reverse.dropWhile isJsWhitespace).reverse

/-- The call `s.trim()`. -/
def trim (s : String) : String := String.mk (trimChars s.data)

/-- The call `s.startsWith(c)` for a one-character search string. -/
def startsWithChar (s : String) (c : Char) : Bool :=
  match s.data with
  | d :: _ => d = c
  | [] => false

/-! ### `JSON.parse` -/

/-- JSON insignificant white space: space, tab, line feed, carriage return. -/
def isJsonWs (c : Char) : Bool :=
  c = ' ' || c.toNat = 9 || c.toNat = 10 || c.toNat = 13

/-- Drop leading JSON white space. -/
def skipWs : List Char → List Char
  | [] => []
  | c :: cs => if isJsonWs c then skipWs cs else c :: cs

/-- Value of a hexadecimal digit. -/
def hexVal (c : Char) : Option Nat :=
  let n := c.toNat
  if 48 ≤ n ∧ n ≤ 57 then some (n - 48)
  else if 97 ≤ n ∧ n ≤ 102 then some (n - 87)
  else if 65 ≤ n ∧ n ≤ 70 then some (n - 55)
  else none

/-- The code unit written by the four hexadecimal digits of a `\u` escape. -/
def hex4 (a b c d : Char) : Option Nat :=
  match hexVal a, hexVal b, hexVal c, hexVal d with
  | some x, some y, some z, some w => some (((x * 16 + y) * 16 + z) * 16 + w)
  | _, _, _, _ => none

/-- The character of a single-character escape `\c`. -/
def escapeChar (c : Char) : Option Char :=
  if c = quoteChar then some quoteChar
  else if c = backslash then some backslash
  else if c = '/' then some '/'
  else if c = 'b' then some (Char.ofNat 8)
  else if c = 'f' then some (Char.ofNat 12)
  else if c = 'n' then some (Char.ofNat 10)
  else if c = 'r' then some (Char.ofNat 13)
  else if c = 't' then some (Char.ofNat 9)
  else none

/-- The character of one UTF-16 code unit (or of a code point above U+FFFF
that was written literally); a surrogate that is not part of a pair has no
character of its own and is shown as U+FFFD. -/
def unitChar (n : Nat) : Char :=
  if 55296 ≤ n ∧ n ≤ 57343 then Char.ofNat 65533 else Char.ofNat n

/-- The character of a surrogate pair. -/
def pairChar (hi lo : Nat) : Char :=
  Char.ofNat (65536 + (hi - 55296) * 1024 + (lo - 56320))

/-- Characters of a sequence of code units: a high surrogate followed by a low
surrogate is one character. `pending` is a high surrogate that was just read
and still waits for its low half. -/
def unitsToCharsFrom (pending : Option Nat) : List Nat → List Char
  | [] =>
    match pending with
    | some hi => [unitChar hi]
    | none => []
  | n :: rest =>
    match pending with
    | some hi =>
      if 56320 ≤ n ∧ n ≤ 57343 then pairChar hi n :: unitsToCharsFrom none rest
      else if 55296 ≤ n ∧ n ≤ 56319 then unitChar hi :: unitsToCharsFrom (some n) rest
      else unitChar hi :: unitChar n :: unitsToCharsFrom none rest
    | none =>
      if 55296 ≤ n ∧ n ≤ 56319 then unitsToCharsFrom (some n) rest
      else unitChar n :: unitsToCharsFrom none rest

/-- Characters of a sequence of code units. -/
def unitsToChars (units : List Nat) : List Char := unitsToCharsFrom none units

/-- Scan a JSON string after its opening quote: the code units decoded so far
are `acc` (reversed); returns the string and the input after the closing
quote. A raw control character, an unknown escape or a missing closing quote
is an error. -/
def parseStringBody : List Char → List Nat → Option (String × List Char)
  | [], _ => none
  | c :: cs, acc =>
    if c = quoteChar then some (String.mk (unitsToChars acc.reverse), cs)
    else if c = backslash then
      match cs with
      | [] => none
      | 'u' :: h1 :: h2 :: h3 :: h4 :: rest =>
        match hex4 h1 h2 h3 h4 with
        | some n => parseStringBody rest (n :: acc)
        | none => none
      | e :: rest =>
        match escapeChar e with
        | some ch => parseStringBody rest (ch.toNat :: acc)
        | none => none
    else if c.toNat < 32 then none
    else parseStringBody cs (c.toNat :: acc)

/-- The longest run of leading decimal digits, and the input after it. -/
def takeDigits : List Char → List Char × List Char
  | [] => ([], [])
  | c :: cs =>
    if 48 ≤ c.toNat ∧ c.toNat ≤ 57 then ((takeDigits cs).1.cons c, (takeDigits cs).2)
    else ([], c :: cs)

/-- The number written by a run of decimal digits. -/
def digitsVal (ds : List Char) : Nat :=
  ds.foldl (fun n c => 10 * n + (c.toNat - 48)) 0

/-- The integer part of a JSON number: a single `0`, or a run of digits that
does not start with `0`. -/
def takeInt : List Char → List Char × List Char
  | '0' :: cs => (['0'], cs)
  | cs => takeDigits cs

/-- The optional fraction `.digits` of a JSON number: its digits and the input
after it; `none` when a `.` is not followed by a digit. -/
def takeFrac : List Char → Option (List Char × List Char)
  | '.' :: cs =>
    match takeDigits cs with
    | ([], _) => none
    | (ds, rest) => some (ds, rest)
  | cs => some ([], cs)

/-- The digits of an exponent after `e` and its optional sign. -/
def takeExpDigits (negative : Bool) (cs : List Char) : Option (Int × List Char) :=
  match takeDigits cs with
  | ([], _) => none
  | (ds, rest) => some (if negative then - (digitsVal ds : Int) else (digitsVal ds : Int), rest)

/-- The optional exponent of a JSON number: its value (`0` when absent) and the
input after it. -/
def takeExp : List Char → Option (Int × List Char)
  | 'e' :: '-' :: cs => takeExpDigits true cs
  | 'e' :: '+' :: cs => takeExpDigits false cs
  | 'e' :: cs => takeExpDigits false cs
  | 'E' :: '-' :: cs => takeExpDigits true cs
  | 'E' :: '+' :: cs => takeExpDigits false cs
  | 'E' :: cs => takeExpDigits false cs
  | cs => some (0, cs)

/-- The unsigned part of a JSON number. -/
def parseUnsigned (neg : Bool) (cs : List Char) : Option (JVal × List Char) :=
  match takeInt cs with
  | ([], _) => none
  | (ids, cs1) =>
    match takeFrac cs1 with
    | none => none
    | some (fds, cs2) =>
      match takeExp cs2 with
      | none => none
      | some (e, cs3) => some (JVal.num neg (digitsVal (ids ++ fds)) (e - fds.length), cs3)

/-- A JSON number. -/
def parseNumber : List Char → Option (JVal × List Char)
  | '-' :: cs => parseUnsigned true cs
  | cs => parseUnsigned false cs

/-- Result of a parser that is run with a bound on its recursion. -/
inductive Parsed (α : Type) where
  | ok (a : α) (rest : List Char) : Parsed α
  | malformed : Parsed α
  | outOfFuel : Parsed α
  deriving Repr

/-- Lift the result of a scanner that needs no recursion bound. -/
def Parsed.ofOption {α : Type} : Option (α × List Char) → Parsed α
  | some (a, rest) => Parsed.ok a rest
  | none => Parsed.malformed

mutual
/-- A JSON value at the head of the input (after optional white space). -/
def parseValue : Nat → List Char → Parsed JVal
  | 0, _ => Parsed.outOfFuel
  | fuel + 1, cs =>
    match skipWs cs with
    | '{' :: rest =>
      match skipWs rest with
      | '}' :: rest1 => Parsed.ok (JVal.obj []) rest1
      | rest1 =>
        match parseMembers fuel rest1 [] with
        | Parsed.ok kvs rest2 => Parsed.ok (JVal.obj kvs) rest2
        | Parsed.malformed => Parsed.malformed
        | Parsed.outOfFuel => Parsed.outOfFuel
    | '[' :: rest =>
      match skipWs rest with
      | ']' :: rest1 => Parsed.ok (JVal.arr []) rest1
      | rest1 =>
        match parseElements fuel rest1 [] with
        | Parsed.ok xs rest2 => Parsed.ok (JVal.arr xs) rest2
        | Parsed.malformed => Parsed.malformed
        | Parsed.outOfFuel => Parsed.outOfFuel
    | 't' :: 'r' :: 'u' :: 'e' :: rest => Parsed.ok (JVal.bool true) rest
    | 'f' :: 'a' :: 'l' :: 's' :: 'e' :: rest => Parsed.ok (JVal.bool false) rest
    | 'n' :: 'u' :: 'l' :: 'l' :: rest => Parsed.ok JVal.null rest
    | c :: rest =>
      if c = quoteChar then
        match parseStringBody rest [] with
        | some (s, rest1) => Parsed.ok (JVal.str s) rest1
        | none => Parsed.malformed
      else Parsed.ofOption (parseNumber (c :: rest))
    | [] => Parsed.malformed
/-- The elements of a non-empty array after its `[`, up to and including the
closing `]`; `acc` holds the elements read so far, reversed. -/
def parseElements : Nat → List Char → List JVal → Parsed (List JVal)
  | 0, _, _ => Parsed.outOfFuel
  | fuel + 1, cs, acc =>
    match parseValue fuel cs with
    | Parsed.ok v rest =>
      match skipWs rest with
      | ',' :: rest1 => parseElements fuel rest1 (v :: acc)
      | ']' :: rest1 => Parsed.ok (v :: acc).reverse rest1
      | _ => Parsed.malformed
    | Parsed.malformed => Parsed.malformed
    | Parsed.outOfFuel => Parsed.outOfFuel
/-- The members of a non-empty object after its `{`, up to and including the
closing `}`; `acc` holds the members read so far, reversed. -/
def parseMembers : Nat → List Char → List (String × JVal) → Parsed (List (String × JVal))
  | 0, _, _ => Parsed.outOfFuel
  | fuel + 1, cs, acc =>
    match skipWs cs with
    | c :: rest =>
      if c = quoteChar then
        match parseStringBody rest [] with
        | some (k, rest1) =>
          match skipWs rest1 with
          | ':' :: rest2 =>
            match parseValue fuel rest2 with
            | Parsed.ok v rest3 =>
              match skipWs rest3 with
              | ',' :: rest4 => parseMembers fuel rest4 ((k, v) :: acc)
              | '}' :: rest4 => Parsed.ok ((k, v) :: acc).reverse rest4
              | _ => Parsed.malformed
            | Parsed.malformed => Parsed.malformed
            | Parsed.outOfFuel => Parsed.outOfFuel
          | _ => Parsed.malformed
        | none => Parsed.malformed
      else Parsed.malformed
    | [] => Parsed.malformed
end

/-- The built-in `JSON.parse(text)`: `none` when it throws a `SyntaxError`. The
recursion bound is never reached (`jsonParse_fuel`). -/
def jsonParse (text : String) : Option JVal :=
  match parseValue (2 * text.length + 2) text.data with
  | Parsed.ok v rest => if skipWs rest = [] then some v else none
  | _ => none

/-! ## The note normaliser -/

mutual
/-- An upper bound on how deep `extractNoteContent` can recurse into a value:
one per node, and one per character of a string (a string can hold JSON text,
whose every node takes at least one character). -/
def jsize : JVal → Nat
  | JVal.str s => s.length + 1
  | JVal.arr xs => jsizeList xs + 1
  | JVal.obj kvs => jsizeMembers kvs + 1
  | _ => 1
/-- Sum of `jsize` over the elements of an array. -/
def jsizeList : List JVal → Nat
  | [] => 0
  | x :: xs => jsize x + jsizeList xs
/-- Sum of `jsize` over the member values of an object. -/
def jsizeMembers : List (String × JVal) → Nat
  | [] => 0
  | (_, v) :: kvs => jsize v + jsizeMembers kvs
end

/-- The test `typeof parsed === 'object' && parsed !== null`. -/
def isObjectLike : JVal → Bool
  | JVal.arr _ => true
  | JVal.obj _ => true
  | _ => false

/-- The value of `o.k` when the test `o.k && typeof o.k === 'string'` passes. -/
def stringProp (kvs : List (String × JVal)) (k : String) : Option String :=
  match getProp kvs k with
  | some (JVal.str s) => if s != "" then some s else none
  | _ => none

/-- The value of `o.k` when the test `if (o.k)` passes. -/
def truthyProp (kvs : List (String × JVal)) (k : String) : Option JVal :=
  match getProp kvs k with
  | some v => if truthy v then some v else none
  | none => none

/-- The body of `extractNoteContent` (WatchVideo.jsx lines 49-70) with a bound
on the depth of its recursion; `none` means the bound was reached. -/
def extractFuel : Nat → JVal → Option String
  | 0, _ => none
  | fuel + 1, data =>
    -- if (!data) return '';
    if !(truthy data) then some ""
    else
      match data with
      | JVal.str s =>
        let trimmed := trim s
        if startsWithChar trimmed '{' || startsWithChar trimmed '[' then
          match jsonParse trimmed with
          | some parsed => if isObjectLike parsed then extractFuel fuel parsed else some s
          | none => some s
        else some s
      | JVal.arr xs =>
        match xs with
        | x :: _ => extractFuel fuel x
        | [] => some ""
      | JVal.obj kvs =>
        match stringProp kvs "content" with
        | some s => some s
        | none =>
          match stringProp kvs "text" with
          | some s => some s
          | none =>
            match stringProp kvs "note" with
            | some s => some s
            | none =>
              match truthyProp kvs "data" with
              | some v => extractFuel fuel v
              | none =>
                match truthyProp kvs "result" with
                | some v => extractFuel fuel v
                | none => some ""
      | _ => some ""

/-- The function `extractNoteContent(data)`: the recursion is run with the bound `jsize data`,
which it never reaches (`extractFuel_adequate`). -/
def extractNoteContent (data : JVal) : Option String :=
  extractFuel (jsize data) data

/-! ## String built-ins used by the classifier and the fence stripper -/

/-- Whether the list `cs` begins with the list `pat`. -/
def startsWithChars : List Char → List Char → Bool
  | [], _ => true
  | _ :: _, [] => false
  | p :: ps, c :: cs => p = c && startsWithChars ps cs

/-- Whether the list `pat` occurs somewhere in `cs` as a run of adjacent characters. -/
def includesChars (pat : List Char) : List Char → Bool
  | [] => pat.isEmpty
  | c :: cs => startsWithChars pat (c :: cs) || includesChars pat cs

/-- The call `s.startsWith(pre)`. -/
def startsWith (s pre : String) : Bool := startsWithChars pre.data s.data

/-- The call `s.includes(sub)` on strings. -/
def strIncludes (s sub : String) : Bool := includesChars sub.data s.data

/-- The call `s.endsWith(suf)`. -/
def endsWith (s suf : String) : Bool := startsWithChars suf.data.reverse s.data.reverse

/-! ## The document classifier and the notes loader -/

/-- The helper `isPdfUrl` (WatchVideo.jsx lines 43-46). -/
def isPdfUrl (data : JVal) : Bool :=
  -- if (!data) return false;
  if !(truthy data) then false
  else
    match data with
    | JVal.str s =>
      startsWith s "http" || strIncludes s "drive.google.com" || strIncludes s ".pdf"
    | _ => false

/-- The classifier in the words of the specification: the string starts with an
`http://` or `https://` scheme, or contains the token `drive.google.com`, or
ends with the token `.pdf`. -/
def specIsDocumentUrl (s : String) : Bool :=
  startsWith s "http://" || startsWith s "https://" || strIncludes s "drive.google.com" ||
    endsWith s ".pdf"

/-- The call `sheetService.getNotes(videoId)` (sheetService.js lines 20-29).
`response` is the body read by `fetch` and `response.json()`, `none` when
either of them rejects. The result is a JavaScript value or, as `none`,
`undefined`. -/
def getNotes (response : Option JVal) : Option JVal :=
  match response with
  | none => some JVal.null
  | some (JVal.obj kvs) =>
    -- result.status === 'success' ? result.data : null
    match getProp kvs "status" with
    | some (JVal.str status) => if status = "success" then getProp kvs "data" else some JVal.null
    | _ => some JVal.null
  -- `null.status` throws and is caught; a primitive or an array has no `status`
  | some _ => some JVal.null

/-- The optional property read `data?.k`; `none` is `undefined`. -/
def optProp (data : Option JVal) (k : String) : Option JVal :=
  match data with
  | some (JVal.obj kvs) => getProp kvs k
  | _ => none

/-- JavaScript `ToBoolean` of a value that may be `undefined`. -/
def truthyOpt : Option JVal → Bool
  | some v => truthy v
  | none => false

/-- JavaScript `a || b`. -/
def jsOr (a b : Option JVal) : Option JVal :=
  if truthyOpt a then a else b

/-- The body of `loadNotes` (WatchVideo.jsx lines 131-147): the `notesData`
state afterwards. `response` is what the sheet backend answered,
`notesContent` is `videoState?.notesContent`, and `notesData` is the state
before (`none` is `null`). -/
def loadNotes (response : Option JVal) (notesContent : Option JVal)
    (notesData : Option JVal) : Option JVal :=
  let data := getNotes response
  -- const actualContent = data?.content || data?.text;
  let actualContent := jsOr (optProp data "content") (optProp data "text")
  if truthyOpt actualContent then actualContent
  else if truthyOpt notesContent then notesContent
  else notesData

/-- What the notes tab shows once loading is over (WatchVideo.jsx lines 259-276). -/
inductive NotesView where
  | document (pdfUrl : String) : NotesView
  | inline (notesContent : String) : NotesView
  | noNotes : NotesView
  deriving Repr, DecidableEq

/-- The render switch of the notes tab; `none` only if the recursion bound of
the normaliser were reached. -/
def notesView (notesData : Option JVal) : Option NotesView :=
  if truthyOpt notesData then
    match notesData with
    | some d =>
      match extractNoteContent d with
      | some content =>
        if isPdfUrl (JVal.str content) then some (NotesView.document content)
        else some (NotesView.inline content)
      | none => none
    | none => some NotesView.noNotes
  else some NotesView.noNotes

/-- A sheet backend answer `{status: "success", data: d}`. -/
def successResponse (d : JVal) : Option JVal :=
  some (JVal.obj [("status", JVal.str "success"), ("data", d)])

/-! ## Fence stripping and quiz coercion -/

/-- The three backticks of a code fence. -/
def fence : List Char := "```".data

/-- The opening fence tagged `json`. -/
def fenceJson : List Char := "```json".data

/-- The call `text.replace(/pat/g, '')` for a literal, non-empty pattern: the
text is scanned from the left; where the pattern matches it is dropped and the
scan resumes after it. `skip` counts the characters of the current match that
are still to be dropped. -/
def removeAllFrom (pat : List Char) : Nat → List Char → List Char
  | _, [] => []
  | skip + 1, _ :: cs => removeAllFrom pat skip cs
  | 0, c :: cs =>
    if startsWithChars pat (c :: cs) then removeAllFrom pat (pat.length - 1) cs
    else c :: removeAllFrom pat 0 cs

/-- The call `text.replace(/```json|```/g, "")`: at each position the first
alternative is tried before the second. -/
def removeFencesFrom : Nat → List Char → List Char
  | _, [] => []
  | skip + 1, _ :: cs => removeFencesFrom skip cs
  | 0, c :: cs =>
    if startsWithChars fenceJson (c :: cs) then removeFencesFrom 6 cs
    else if startsWithChars fence (c :: cs) then removeFencesFrom 2 cs
    else c :: removeFencesFrom 0 cs

/-- The cleaning in `generateQuizFromAI` (geminiService.js line 140): two
replace passes, then `trim`. -/
def geminiCleanJson (text : String) : String :=
  trim (String.mk (removeAllFrom fence 0 (removeAllFrom fenceJson 0 text.data)))

/-- The cleaning in `QuizSection` (QuizSection.jsx lines 104 and 143): one
replace with an alternation, then `trim`. -/
def quizCleanJson (resText : String) : String :=
  trim (String.mk (removeFencesFrom 0 resText.data))

/-- A thrown JavaScript value, reduced to its `message` property (`none` when
it has none). -/
structure JsError where
  message : Option String
  deriving Repr, DecidableEq

/-- The `SyntaxError` thrown by `JSON.parse`; the wording of its message
depends on the engine. -/
def jsonSyntaxError : JsError := { message := some "SyntaxError: invalid JSON" }

/-- The function `generateQuizFromAI` (geminiService.js lines 94-147).
`configured` tells whether `genAI` was created (the API key is present);
`reply` is the outcome of the `try` block up to `response.text()`: the text of
the collaborator's reply, or the value it threw. -/
def generateQuizFromAI (configured : Bool) (reply : Except JsError String) :
    Except JsError JVal :=
  if !configured then Except.error { message := some "AI Service not configured" }
  else
    match reply with
    | Except.error e => Except.error e
    | Except.ok text =>
      match jsonParse (geminiCleanJson text) with
      | some v => Except.ok v
      | none => Except.error jsonSyntaxError

/-- The React state of `QuizSection` that its quiz starters write. -/
structure QuizState where
  loading : Bool
  currentStep : String
  quizMode : String
  questions : List JVal
  currentIndex : Nat
  userAnswers : List (Nat × String)
  score : Nat
  hint : String
  isGenerating : Bool
  uploadLoading : Bool
  aiFeedback : String := ""
  savingResult : Bool := false

/-- The helper `callGemini` (QuizSection.jsx lines 33-55): its result and the
alerts it raises. `apiKey` tells whether the key is present, `reply` is the
outcome of the collaborator call. -/
def callGemini (apiKey : Bool) (reply : Except JsError String) :
    Except JsError String × List String :=
  if !apiKey then
    (Except.error { message := some "Missing API Key" }, ["API Key missing! Check .env file"])
  else (reply, [])

/-- The state writes shared by the quiz starters once questions are accepted. -/
def startPlaying (st : QuizState) (questions : List JVal) (mode : String) : QuizState :=
  { st with questions := questions, quizMode := mode, currentIndex := 0, userAnswers := [],
            score := 0, hint := "", currentStep := "playing" }

/-- The function `startInfiniteQuiz` (QuizSection.jsx lines 95-120): the state
afterwards and the alerts raised. -/
def startInfiniteQuiz (apiKey : Bool) (reply : Except JsError String) (st : QuizState) :
    QuizState × List String :=
  match callGemini apiKey reply with
  | (Except.error _, alerts) =>
    ({ st with isGenerating := false },
      alerts ++ ["AI error: Unable to generate quiz. Please try again."])
  | (Except.ok resText, alerts) =>
    match jsonParse (quizCleanJson resText) with
    | some (JVal.arr (q :: qs)) =>
      ({ startPlaying st (q :: qs) "infinite" with isGenerating := false }, alerts)
    | _ =>
      -- a parse failure, or `throw new Error("Invalid AI response format")`: both are caught
      ({ st with isGenerating := false },
        alerts ++ ["AI error: Unable to generate quiz. Please try again."])

/-- The `reader.onload` handler of `handleDocumentUpload` (QuizSection.jsx lines
130-159): the state afterwards and the alerts raised. -/
def handleDocumentUpload (apiKey : Bool) (reply : Except JsError String) (st : QuizState) :
    QuizState × List String :=
  match callGemini apiKey reply with
  | (Except.error _, alerts) =>
    ({ st with uploadLoading := false }, alerts ++ ["Document error or AI quota exceeded."])
  | (Except.ok res, alerts) =>
    match jsonParse (quizCleanJson res) with
    | some (JVal.arr (q :: qs)) =>
      ({ startPlaying st (q :: qs) "document" with uploadLoading := false }, alerts)
    | some _ =>
      ({ st with uploadLoading := false },
        alerts ++ ["Could not extract questions from document."])
    | none =>
      ({ st with uploadLoading := false }, alerts ++ ["Document error or AI quota exceeded."])

/-- The React state of `AdminQuizzes` written by the AI builder. -/
structure AdminQuizState where
  questions : List JVal
  loading : Bool

/-- The alert of `handleAIUpload` that reports success. -/
def aiSuccessAlert : String := "AI ne quiz safaltapurvak generate kar liya!"

/-- The `reader.onload` handler of `handleAIUpload` (AdminQuizzes.jsx lines
63-80): the state afterwards and the alerts raised. -/
def handleAIUpload (configured : Bool) (reply : Except JsError String) (st : AdminQuizState) :
    AdminQuizState × List String :=
  match generateQuizFromAI configured reply with
  | Except.ok aiQuestions =>
    -- if (aiQuestions && Array.isArray(aiQuestions))
    match aiQuestions with
    | JVal.arr xs => ({ questions := st.questions ++ xs, loading := false }, [aiSuccessAlert])
    | _ =>
      ({ st with loading := false },
        ["AI quiz generate karne me asafal raha. Dobara koshish karein."])
  | Except.error e =>
    ({ st with loading := false },
      ["File process karne me error aaya: " ++ e.message.getD "undefined"])

/-- A `QuizSection` on its selection screen with the questions `qs` loaded. -/
def selectionState (qs : List JVal) : QuizState :=
  { loading := false, currentStep := "selection", quizMode := "regular", questions := qs,
    currentIndex := 0, userAnswers := [], score := 0, hint := "", isGenerating := false,
    uploadLoading := false }

/-- The backtick character. -/
def tick : Char := Char.ofNat 96

/-- The number of backticks at the head of a text. -/
def leadTicks : List Char → Nat
  | [] => 0
  | c :: cs => if c = tick then leadTicks cs + 1 else 0

/-! ## AI calls that return text -/

/-- The `TypeError` thrown by a property read on `undefined`. -/
def typeError : JsError :=
  { message := some "TypeError: Cannot read properties of undefined" }

/-- The function `askDoubts` (geminiService.js lines 16-46). `configured` tells
whether `genAI` was created; `reply` is the outcome of the `try` block: the text
of the collaborator's reply, or the value it threw. -/
def askDoubts (configured : Bool) (reply : Except JsError String) : Except JsError String :=
  if !configured then
    Except.ok
      "AI Service is not configured. Please add VITE_GEMINI_API_KEY to your .env.local file."
  else
    match reply with
    | Except.ok text => Except.ok text
    | Except.error e =>
      -- catch: error.message.includes("403")
      match e.message with
      | some m =>
        if strIncludes m "403" then
          Except.ok "Error: API Key is invalid or expired. Please update your API key."
        else Except.ok "Sorry, I am unable to answer right now. Please try again later."
      | none => Except.error typeError

/-- The function `generateNotesFromAI` (geminiService.js lines 53-87). -/
def generateNotesFromAI (configured : Bool) (reply : Except JsError String) :
    Except JsError String :=
  if !configured then Except.error { message := some "AI Service not configured" }
  else
    match reply with
    | Except.ok text => Except.ok text
    | Except.error e => Except.error e

/-! ## Saving notes to the sheet backend -/

/-- The properties that `JSON.stringify` keeps: those whose value is not `undefined`. -/
def definedProps : List (String × Option JVal) → List (String × JVal)
  | [] => []
  | (k, some v) :: rest => (k, v) :: definedProps rest
  | (_, none) :: rest => definedProps rest

/-- The JSON value written by `JSON.stringify(payload)` in `sheetService.saveNote`
(sheetService.js lines 68-81) for its three arguments, each of which may be
`undefined`. -/
def saveNoteBody (videoId videoTitle text : Option JVal) : JVal :=
  JVal.obj (definedProps
    [("type", some (JVal.str "note")), ("videoId", videoId), ("videoTitle", videoTitle),
      ("text", text)])

/-- The body posted by `handleSaveToSheet` (AdminUpload.jsx lines 103-112) for
the selected video `(id, title)` and the generated notes; `none` when the guard
returns early. The call passes one object as the first argument of `saveNote`. -/
def handleSaveToSheet (selectedVideo : Option (String × String)) (generatedNotes : String) :
    Option JVal :=
  match selectedVideo with
  | none => none
  | some (id, title) =>
    if generatedNotes = "" then none
    else
      some (saveNoteBody
        (some (JVal.obj [("videoId", JVal.str id), ("videoTitle", JVal.str title),
          ("content", JVal.str generatedNotes)]))
        none none)

/-! ## Admin content operations -/

/-- A content item of a syllabus chapter; a property that the item does not
have is `none`. -/
structure ContentItem where
  id : String
  title : Option String
  type : Option String
  url : Option String
  notesUrl : Option String
  createdAt : String
  deriving Repr, DecidableEq

/-- The chapters of a subject: chapter name to its ordered content items. -/
abbrev Chapters := List (String × List ContentItem)

/-- The syllabus of a batch: subject name to its chapters. -/
abbrev Syllabus := List (String × Chapters)

/-- Property read `o[k]` on an object given by its entries. -/
def lookupKey {α : Type} : List (String × α) → String → Option α
  | [], _ => none
  | (k1, v) :: rest, k => if k1 = k then some v else lookupKey rest k

/-- Assignment `o[k] = v`: an existing entry is replaced in place, a new key
is added after the existing ones. -/
def setKey {α : Type} : List (String × α) → String → α → List (String × α)
  | [], k, v => [(k, v)]
  | (k1, v1) :: rest, k, v => if k1 = k then (k, v) :: rest else (k1, v1) :: setKey rest k v

/-- The statement `delete o[k]`. -/
def eraseKey {α : Type} (m : List (String × α)) (k : String) : List (String × α) :=
  m.filter (fun e => e.1 != k)

/-- The read `syllabus[subject][chapter]`, `none` when either level is absent. -/
def chapterItems (syllabus : Syllabus) (subject chapter : String) : Option (List ContentItem) :=
  match lookupKey syllabus subject with
  | some chapters => lookupKey chapters chapter
  | none => none

/-- The documents that the admin operations write: the `secure_videos`
collection and the `syllabus` field of the `batches` documents (`none` where
the document does not exist). -/
structure Db where
  secure_videos : String → Option SecureVideo
  batches : String → Option Syllabus

/-- The form of `BatchContent` (BatchContent.jsx lines 19-22). -/
structure ContentForm where
  title : String
  type : String
  url : String
  notesUrl : String
  subject : String
  chapter : String
  deriving Repr, DecidableEq

/-- The write `setDoc(doc(db, "secure_videos", id), record)`. -/
def setSecureVideo (db : Db) (id : String) (record : SecureVideo) : Db :=
  { db with secure_videos := fun i => if i = id then some record else db.secure_videos i }

/-- The write `deleteDoc(doc(db, "secure_videos", id))`. -/
def deleteSecureVideo (db : Db) (id : String) : Db :=
  { db with secure_videos := fun i => if i = id then none else db.secure_videos i }

/-- The write `updateDoc(doc(db, "batches", batchId), { syllabus })`; it is
rejected when the document does not exist. -/
def updateSyllabus (db : Db) (batchId : String) (syllabus : Syllabus) : Db :=
  match db.batches batchId with
  | some _ => { db with batches := fun b => if b = batchId then some syllabus else db.batches b }
  | none => db

/-- The syllabus built by `handleAddContent` (BatchContent.jsx lines 104-109)
from the component's `syllabus` state. -/
def addToSyllabus (syllabus : Syllabus) (subject chapter : String) (newItem : ContentItem) :
    Syllabus :=
  -- if (!updatedSyllabus[subject]) updatedSyllabus[subject] = {};
  let chapters := (lookupKey syllabus subject).getD []
  -- if (!updatedSyllabus[subject][chapter]) updatedSyllabus[subject][chapter] = [];
  let items := (lookupKey chapters chapter).getD []
  setKey syllabus subject (setKey chapters chapter (items ++ [newItem]))

/-- The function `handleAddContent` (BatchContent.jsx lines 71-119): the store
afterwards. `syllabus` is the component's state, `contentId` the generated
UUID, `now1` and `now2` the two clock readings; `setDocOk` and `updateDocOk`
tell whether the network lets each write through. -/
def handleAddContent (batchId : String) (syllabus : Syllabus) (formData : ContentForm)
    (contentId now1 now2 : String) (setDocOk updateDocOk : Bool) (db : Db) : Db :=
  if formData.subject = "" || formData.chapter = "" then db
  else
    let secured : Option Db :=
      if formData.type = "video" then
        if setDocOk then
          some (setSecureVideo db contentId
            { url := some formData.url, batchId := some batchId, title := some formData.title,
              createdAt := some now1 })
        else none
      else some db
    match secured with
    | none => db
    | some db1 =>
      let newItem : ContentItem :=
        { id := contentId, title := some formData.title, type := some formData.type,
          url := none,
          notesUrl := some (if formData.type = "note" then formData.notesUrl else ""),
          createdAt := now2 }
      if updateDocOk then
        updateSyllabus db1 batchId (addToSyllabus syllabus formData.subject formData.chapter newItem)
      else db1

/-- The `data` argument of `courseService.addContent`: the place and the
properties that are copied into the new item. -/
structure ContentData where
  subject : String
  chapter : String
  id : Option String
  title : Option String
  type : Option String
  url : Option String
  notesUrl : Option String
  deriving Repr, DecidableEq

/-- The function `courseService.addContent` (courseService.js lines 21-44): the
store afterwards. The update of the field path `syllabus.<subject>.<chapter>`
with `arrayUnion` (subject and chapter being single path segments) creates the
missing levels and appends the item unless an equal one is there. -/
def addContent (batchId : String) (data : ContentData) (uuid now : String)
    (updateDocOk : Bool) (db : Db) : Db :=
  -- { id: crypto.randomUUID(), ...contentData, createdAt: new Date().toISOString() }
  let newContent : ContentItem :=
    { id := data.id.getD uuid, title := data.title, type := data.type, url := data.url,
      notesUrl := data.notesUrl, createdAt := now }
  match db.batches batchId with
  | some syllabus =>
    if updateDocOk then
      let chapters := (lookupKey syllabus data.subject).getD []
      let items := (lookupKey chapters data.chapter).getD []
      let items1 := if newContent ∈ items then items else items ++ [newContent]
      updateSyllabus db batchId (setKey syllabus data.subject (setKey chapters data.chapter items1))
    else db
  | none => db

/-- The syllabus built by `handleDelete` (BatchContent.jsx lines 135-139) from
the chapters of the subject and the items of the chapter. -/
def removeFromSyllabus (syllabus : Syllabus) (subject chapter : String) (chapters : Chapters)
    (items : List ContentItem) (itemId : String) : Syllabus :=
  let kept := items.filter (fun i => i.id != itemId)
  let chapters1 := if kept.length = 0 then eraseKey chapters chapter else setKey chapters chapter kept
  if chapters1.length = 0 then eraseKey syllabus subject else setKey syllabus subject chapters1

/-- The function `handleDelete` (BatchContent.jsx lines 128-142): the store
afterwards. `confirmed` is the answer to `window.confirm`; `deleteDocOk` and
`updateDocOk` tell whether the network lets each write through. -/
def handleDelete (batchId : String) (syllabus : Syllabus) (subject chapter itemId type : String)
    (confirmed deleteDocOk updateDocOk : Bool) (db : Db) : Db :=
  if !confirmed then db
  else
    -- try { await deleteDoc(...) } catch (e) {}
    let db1 := if type = "video" && deleteDocOk then deleteSecureVideo db itemId else db
    match lookupKey syllabus subject with
    | none => db1
    | some chapters =>
      match lookupKey chapters chapter with
      | none => db1
      | some items =>
        if updateDocOk then
          updateSyllabus db1 batchId (removeFromSyllabus syllabus subject chapter chapters items itemId)
        else db1

/-- The store invariant: every content item of type `video` that a syllabus
holds has a `secure_videos` record under its id. -/
def VideoItemsSecured (db : Db) : Prop :=
  ∀ (b : String) (syllabus : Syllabus) (subject chapter : String) (items : List ContentItem)
    (item : ContentItem),
    db.batches b = some syllabus → chapterItems syllabus subject chapter = some items →
    item ∈ items → item.type = some "video" → ∃ v, db.secure_videos item.id = some v

/-- A store with the single batch `b1`, whose syllabus is empty, and no secured video. -/
def emptyBatchDb : Db :=
  { secure_videos := fun _ => none, batches := fun b => if b = "b1" then some [] else none }

/-- A video handed to `courseService.addContent`. -/
def legacyVideoData : ContentData :=
  { subject := "Maths", chapter := "Algebra", id := none, title := some "Intro",
    type := some "video", url := some "https://cdn.example/intro.mp4", notesUrl := none }

/-- The form of `BatchContent` filled in for a video. -/
def videoForm : ContentForm :=
  { title := "Intro", type := "video", url := "https://cdn.example/intro.mp4", notesUrl := "",
    subject := "Maths", chapter := "Algebra" }

/-- The item that `handleAddContent` writes for `videoForm` under the id `id-1`. -/
def sampleItem : ContentItem :=
  { id := "id-1", title := some "Intro", type := some "video", url := none,
    notesUrl := some "", createdAt := "2024-01-01T00:00:00.001Z" }

/-- A syllabus with the single item `sampleItem`. -/
def sampleSyllabus : Syllabus := [("Maths", [("Algebra", [sampleItem])])]

/-- The store reached from `emptyBatchDb` when `handleAddContent` adds
`videoForm` under the id `id-1` and both writes succeed. -/
def sampleDb : Db :=
  handleAddContent "b1" [] videoForm "id-1" "2024-01-01T00:00:00.000Z"
    "2024-01-01T00:00:00.001Z" true true emptyBatchDb

/-! ## Fenced replies -/

/-- The line feed character. -/
def newline : Char := Char.ofNat 10

/-- The text `J` wrapped in a code fence tagged `json`, each fence on a line of
its own. -/
def wrapInFence (J : String) : String :=
  String.mk (fenceJson ++ newline :: J.data ++ newline :: fence)

/-- Whether a property holds a string. -/
def isStringProp (kvs : List (String × JVal)) (k : String) : Bool :=
  match getProp kvs k with
  | some (JVal.str _) => true
  | _ => false

/-- A well-formed quiz question: an object whose `question`, `optionA`,
`optionB`, `optionC` and `optionD` are strings and whose `correct` is one of
the letters `A`, `B`, `C`, `D`. -/
def isQuizQuestion : JVal → Bool
  | JVal.obj kvs =>
    isStringProp kvs "question" && isStringProp kvs "optionA" && isStringProp kvs "optionB" &&
      isStringProp kvs "optionC" && isStringProp kvs "optionD" &&
      (match getProp kvs "correct" with
        | some (JVal.str c) => c = "A" || c = "B" || c = "C" || c = "D"
        | _ => false)
  | _ => false

/-- Whether a text is empty or starts with a character that ends a JSON value:
white space, a comma, or a closing bracket or brace. -/
def delimStart : List Char → Bool
  | [] => true
  | c :: _ => isJsonWs c || c = ',' || c = ']' || c.toNat = 125

/-- Whether a character is a decimal digit. -/
def isDigitChar (c : Char) : Bool := decide (48 ≤ c.toNat ∧ c.toNat ≤ 57)

/-- Whether a text is empty or starts with a character that is not a digit. -/
def noDigitHead : List Char → Bool
  | [] => true
  | c :: _ => !isDigitChar c

/-- Whether a text is empty or starts with a character that cannot continue the
integer or fraction of a number. -/
def fracStop : List Char → Bool
  | [] => true
  | c :: _ => !isDigitChar c && c != '.'

/-- Whether a text is empty or starts with a character that cannot continue a number. -/
def numStop : List Char → Bool
  | [] => true
  | c :: _ => !isDigitChar c && c != '.' && c != 'e' && c != 'E'

/-- A text whose last character is not white space. -/
def EndsSolid (a : List Char) : Prop :=
  ∃ a0 c, a = a0 ++ [c] ∧ isJsWhitespace c = false

/-- A text whose first character is not white space. -/
def StartsSolid (a : List Char) : Prop :=
  ∃ c a1, a = c :: a1 ∧ isJsWhitespace c = false

/-- The JSON text of one well-formed question whose wording quotes code between
triple backticks:
`[{"question":"What does ```x``` print?","optionA":"1","optionB":"2","optionC":"3","optionD":"4","correct":"A"}]`. -/
def tickedQuizJson : String :=
  "[\x7b\"question\":\"What does ```x``` print?\",\"optionA\":\"1\",\"optionB\":\"2\",\"optionC\":\"3\",\"optionD\":\"4\",\"correct\":\"A\"\x7d]"

/-- The question object with the given wording and the options and answer of
`tickedQuizJson`. -/
def sampleQuestion (question : String) : JVal :=
  JVal.obj [("question", JVal.str question), ("optionA", JVal.str "1"),
    ("optionB", JVal.str "2"), ("optionC", JVal.str "3"), ("optionD", JVal.str "4"),
    ("correct", JVal.str "A")]


/-! ## Sheet reads -/

/-- What `fetch` and `response.json()` deliver to a sheet read: the request
fails, the body is not JSON, or the body is the JSON value `result`. -/
inductive FetchResult where
  | fetchFailed (e : JsError) : FetchResult
  | notJson (e : JsError) : FetchResult
  | json (result : JVal) : FetchResult

/-- The `try` block shared by `getQuiz` and `getNotes` (sheetService.js lines
9-12 and 21-24), with `dflt` the value after the colon: the value returned, or
the value thrown. An absent `data` is `undefined`, written `none`. -/
def sheetReadTry (dflt : JVal) : FetchResult → Except JsError (Option JVal)
  -- const response = await fetch(...)
  | FetchResult.fetchFailed e => Except.error e
  -- const result = await response.json()
  | FetchResult.notJson e => Except.error e
  -- return result.status === 'success' ? result.data : dflt
  | FetchResult.json JVal.null => Except.error typeError
  | FetchResult.json (JVal.obj kvs) =>
    match getProp kvs "status" with
    | some (JVal.str status) =>
      if status = "success" then Except.ok (getProp kvs "data") else Except.ok (some dflt)
    | _ => Except.ok (some dflt)
  | FetchResult.json _ => Except.ok (some dflt)

/-- A sheet read with its `catch` block, which returns `dflt`: how the promise
settles. -/
def sheetRead (dflt : JVal) (r : FetchResult) : Except JsError (Option JVal) :=
  match sheetReadTry dflt r with
  | Except.ok v => Except.ok v
  | Except.error _ => Except.ok (some dflt)

/-- The promise of `sheetService.getQuiz(videoId)` (sheetService.js lines 8-17). -/
def getQuiz (r : FetchResult) : Except JsError (Option JVal) := sheetRead (JVal.arr []) r

/-- The promise of `sheetService.getNotes(videoId)` (sheetService.js lines 20-29). -/
def getNotesPromise (r : FetchResult) : Except JsError (Option JVal) := sheetRead JVal.null r

/-- The body that `getNotes` reads, `none` when `fetch` or `response.json()`
rejects. -/
def fetchBody : FetchResult → Option JVal
  | FetchResult.json result => some result
  | _ => none

/-- Whether a response is an object whose `status` is the string `success`. -/
def statusIsSuccess : FetchResult → Bool
  | FetchResult.json (JVal.obj kvs) =>
    match getProp kvs "status" with
    | some (JVal.str status) => status = "success"
    | _ => false
  | _ => false

/-- The `data` of a response, `undefined` (`none`) when it has none. -/
def responseData : FetchResult → Option JVal
  | FetchResult.json (JVal.obj kvs) => getProp kvs "data"
  | _ => none

/-! ## The quiz: answering, finishing, starting again -/

/-- The `user` prop of `QuizSection`, as far as `saveToSheet` reads it. -/
structure QuizUser where
  displayName : Option String
  uid : Option String
  deriving Repr, DecidableEq

/-- The read `userAnswers[idx]`: the answer chosen last for that question. -/
def answerOf : List (Nat × String) → Nat → Option String
  | [], _ => none
  | (i, a) :: rest, idx => if i = idx then some a else answerOf rest idx

/-- The function `handleOptionSelect` (QuizSection.jsx lines 82-84): the new
entry shadows an earlier answer to the same question. -/
def handleOptionSelect (option : String) (st : QuizState) : QuizState :=
  { st with userAnswers := (st.currentIndex, option) :: st.userAnswers }

/-- The read `q.correct`: it throws on `null`, and is `undefined` where the
value has no such property. -/
def correctOf : JVal → Except JsError (Option JVal)
  | JVal.null => Except.error typeError
  | JVal.obj kvs => Except.ok (getProp kvs "correct")
  | _ => Except.ok none

/-- The test `userAnswers[idx] === q.correct` on a chosen option (a string, or
`undefined`) and the `correct` of a question. -/
def answerIsCorrect (answer : Option String) (correct : Option JVal) : Bool :=
  match answer, correct with
  | none, none => true
  | some a, some (JVal.str c) => a = c
  | _, _ => false

/-- The loop `questions.forEach((q, idx) => ...)` of `handleNext`
(QuizSection.jsx line 178) from index `idx` on: the number of increments of
`finalScore`, or the value thrown. -/
def scoreFrom (userAnswers : List (Nat × String)) : Nat → List JVal → Except JsError Nat
  | _, [] => Except.ok 0
  | idx, q :: qs =>
    match correctOf q with
    | Except.error e => Except.error e
    | Except.ok correct =>
      match scoreFrom userAnswers (idx + 1) qs with
      | Except.error e => Except.error e
      | Except.ok n =>
        Except.ok (if answerIsCorrect (answerOf userAnswers idx) correct then n + 1 else n)

/-- The methods of the object `sheetService`. -/
inductive SheetMethod where
  | getQuiz | getNotes | saveQuizQuestions | saveNote
  deriving Repr, DecidableEq

/-- The property read `sheetService[name]` (sheetService.js lines 6-90): the
object literal has four properties. -/
def sheetServiceProp (name : String) : Option SheetMethod :=
  if name = "getQuiz" then some SheetMethod.getQuiz
  else if name = "getNotes" then some SheetMethod.getNotes
  else if name = "saveQuizQuestions" then some SheetMethod.saveQuizQuestions
  else if name = "saveNote" then some SheetMethod.saveNote
  else none

/-- A request to the sheet backend issued from `saveToSheet`: the service
method that sends it (each method sends one `fetch`) and the five arguments
of the call. -/
structure SheetRequest where
  method : SheetMethod
  displayName : String
  uid : String
  videoTitle : String
  finalScore : Nat
  total : Nat
  deriving Repr, DecidableEq

/-- What a click on the Next / Finish button leaves behind: the state, the
alerts raised, the scores `saveToSheet` was called with, the requests sent to
the sheet backend and the errors logged by `saveToSheet`. -/
structure NextResult where
  state : QuizState
  alerts : List String
  saveCalls : List Nat
  sheetRequests : List SheetRequest
  errorsLogged : List JsError

/-- The value of `a || b` on an optional string and a string. -/
def strOr (a : Option String) (b : String) : String :=
  match a with
  | some s => if s = "" then b else s
  | none => b

/-- The function `saveToSheet` (QuizSection.jsx lines 193-205): the state
afterwards, the requests sent and the errors logged. Calling a property that
`sheetService` does not have throws a `TypeError` inside the `try`. -/
def saveToSheet (user : Option QuizUser) (videoTitle : String) (finalScore : Nat)
    (st : QuizState) : QuizState × List SheetRequest × List JsError :=
  -- setSavingResult(true); try { await sheetService.saveQuizScore(...) }
  match sheetServiceProp "saveQuizScore" with
  | some m =>
    ({ st with savingResult := false },
      [{ method := m,
         displayName := strOr (user.bind (fun u => u.displayName)) "Student",
         uid := strOr (user.bind (fun u => u.uid)) "anonymous",
         videoTitle := videoTitle, finalScore := finalScore, total := st.questions.length }],
      [])
  -- catch (err) { console.error(err) } finally { setSavingResult(false) }
  | none => ({ st with savingResult := false }, [], [typeError])

/-- The function `handleNext` (QuizSection.jsx lines 172-191). `apiKey` and
`feedbackReply` are the inputs of `callGemini`; the result is an error when the
scoring loop throws, which rejects the promise before any state is written. -/
def handleNext (apiKey : Bool) (feedbackReply : Except JsError String) (user : Option QuizUser)
    (videoTitle : String) (st : QuizState) : Except JsError NextResult :=
  -- if (currentIndex < questions.length - 1)
  if st.currentIndex + 1 < st.questions.length then
    Except.ok { state := { st with currentIndex := st.currentIndex + 1, hint := "" },
                alerts := [], saveCalls := [], sheetRequests := [], errorsLogged := [] }
  else
    match scoreFrom st.userAnswers 0 st.questions with
    | Except.error e => Except.error e
    | Except.ok finalScore =>
      let st1 := { st with score := finalScore, currentStep := "result" }
      let feedback := callGemini apiKey feedbackReply
      let st2 : QuizState :=
        match feedback.1 with
        | Except.ok text => { st1 with aiFeedback := text }
        | Except.error _ => { st1 with aiFeedback := "Excellent attempt! Keep learning." }
      -- if (quizMode === 'regular' && user) saveToSheet(finalScore)
      if st.quizMode = "regular" && user.isSome then
        let saved := saveToSheet user videoTitle finalScore st2
        Except.ok { state := saved.1, alerts := feedback.2, saveCalls := [finalScore],
                    sheetRequests := saved.2.1, errorsLogged := saved.2.2 }
      else
        Except.ok { state := st2, alerts := feedback.2, saveCalls := [], sheetRequests := [],
                    errorsLogged := [] }

/-- The number of questions for which an option was selected and that option
is the question's `correct` letter, counted from index `idx` on: the score in
the words of the specification. -/
def answeredCorrectly (userAnswers : List (Nat × String)) : Nat → List JVal → Nat
  | _, [] => 0
  | idx, q :: qs =>
    (match answerOf userAnswers idx, correctOf q with
      | some a, Except.ok (some (JVal.str c)) => if a = c then 1 else 0
      | _, _ => 0) + answeredCorrectly userAnswers (idx + 1) qs

/-- The state of `QuizSection` when it mounts (QuizSection.jsx lines 12-30). -/
def initialQuizState : QuizState :=
  { loading := true, currentStep := "selection", quizMode := "regular", questions := [],
    currentIndex := 0, userAnswers := [], score := 0, hint := "", isGenerating := false,
    uploadLoading := false, aiFeedback := "", savingResult := false }

/-- The effect `loadInitialData` (QuizSection.jsx lines 58-80). `sheetQs` is
the array that `getQuiz` resolved to, `none` when it resolved to `undefined`. -/
def loadInitialData (videoId : String) (sheetQs : Option (List JVal)) (st : QuizState) :
    QuizState :=
  -- if (!videoId) return;
  if videoId = "" then st
  -- setQuestions(sheetQs || []); finally setLoading(false)
  else { st with questions := sheetQs.getD [], loading := false }

/-- The function `startRegularQuiz` (QuizSection.jsx lines 86-93): the state
afterwards and the alerts raised. -/
def startRegularQuiz (st : QuizState) : QuizState × List String :=
  if st.questions.length > 0 then
    ({ st with quizMode := "regular", currentIndex := 0, userAnswers := [], score := 0,
               hint := "", currentStep := "playing" }, [])
  else (st, ["Is video ke liye Sheet mein koi quiz nahi mila."])

/-- The Play Again button (QuizSection.jsx lines 281-283). -/
def playAgain (st : QuizState) : QuizState := { st with currentStep := "selection" }

/-- What the user and the collaborators can do to a mounted `QuizSection`. -/
inductive QuizEvent where
  | startRegular : QuizEvent
  | startInfinite (reply : Except JsError String) : QuizEvent
  | upload (reply : Except JsError String) : QuizEvent
  | select (option : String) : QuizEvent
  | next (feedbackReply : Except JsError String) : QuizEvent
  | again : QuizEvent

/-- Whether the question card is rendered: `currentStep === 'playing' &&
questions[currentIndex]` (QuizSection.jsx line 247). -/
def questionShown (st : QuizState) : Bool :=
  st.currentStep = "playing" &&
    (match st.questions.get? st.currentIndex with
      | some q => truthy q
      | none => false)

/-- One event of the quiz. A button acts only while it is rendered: nothing is
while `loading`, the three starters on the selection screen, the options and
Next on the question card, Play Again on the result screen. -/
def stepQuiz (apiKey : Bool) (user : Option QuizUser) (videoTitle : String) (st : QuizState) :
    QuizEvent → QuizState
  | QuizEvent.startRegular =>
    if !st.loading && st.currentStep = "selection" then (startRegularQuiz st).1 else st
  | QuizEvent.startInfinite reply =>
    if !st.loading && st.currentStep = "selection" && !st.isGenerating then
      (startInfiniteQuiz apiKey reply st).1
    else st
  | QuizEvent.upload reply =>
    if !st.loading && st.currentStep = "selection" && !st.uploadLoading then
      (handleDocumentUpload apiKey reply st).1
    else st
  | QuizEvent.select option =>
    if !st.loading && questionShown st then handleOptionSelect option st else st
  | QuizEvent.next feedbackReply =>
    if !st.loading && questionShown st then
      match handleNext apiKey feedbackReply user videoTitle st with
      | Except.ok r => r.state
      | Except.error _ => st
    else st
  | QuizEvent.again =>
    if !st.loading && st.currentStep = "result" then playAgain st else st

/-- The state after the initial load of the sheet questions `sheetQs` and a
sequence of events. -/
def runQuiz (apiKey : Bool) (user : Option QuizUser) (videoId videoTitle : String)
    (sheetQs : Option (List JVal)) (events : List QuizEvent) : QuizState :=
  events.foldl (stepQuiz apiKey user videoTitle) (loadInitialData videoId sheetQs initialQuizState)

/-- A signed-in student. -/
def sampleUser : QuizUser := { displayName := some "Asha", uid := some "u1" }

/-- The JSON text of one well-formed question without backticks. -/
def plainQuizJson : String :=
  "[\x7b\"question\":\"What does x print?\",\"optionA\":\"1\",\"optionB\":\"2\",\"optionC\":\"3\",\"optionD\":\"4\",\"correct\":\"A\"\x7d]"

/-- Four backticks in a row. -/
def ticks4 : List Char := "````".data

/-! ## Offline notes in local storage -/

/-- A hexadecimal digit in lower case. -/
def hexDigit (n : Nat) : Char :=
  if n < 10 then Char.ofNat (48 + n) else Char.ofNat (87 + n)

/-- What `JSON.stringify` writes for one character of a string
(`QuoteJSONString`): the short escapes, `\u00xx` for the other control
characters, the character itself otherwise. -/
def quoteJsonChar (c : Char) : List Char :=
  if c = quoteChar then [backslash, quoteChar]
  else if c = backslash then [backslash, backslash]
  else if c.toNat = 8 then [backslash, 'b']
  else if c.toNat = 12 then [backslash, 'f']
  else if c.toNat = 10 then [backslash, 'n']
  else if c.toNat = 13 then [backslash, 'r']
  else if c.toNat = 9 then [backslash, 't']
  else if c.toNat < 32 then
    [backslash, 'u', '0', '0', hexDigit (c.toNat / 16), hexDigit (c.toNat % 16)]
  else [c]

/-- What `JSON.stringify` writes for a string. -/
def quoteJson (s : String) : List Char :=
  quoteChar :: (s.data.flatMap quoteJsonChar ++ [quoteChar])

/-- The text `JSON.stringify({ title, content: notesContent, date })` for three
strings (NotebookView.jsx lines 83-84). -/
def noteJson (title notesContent date : String) : String :=
  String.mk ('{' :: (quoteJson "title" ++ ':' :: quoteJson title ++ ',' ::
    quoteJson "content" ++ ':' :: quoteJson notesContent ++ ',' ::
    quoteJson "date" ++ ':' :: quoteJson date ++ ['}']))

/-- The entries of `localStorage` in the order of `localStorage.key(i)`. A key
occurs once. -/
abbrev LocalStorage := List (String × String)

/-- The start of the keys under which notes are kept. -/
def offlineTag : String := "offline_note_"

/-- The function `handleExportPDF` (NotebookView.jsx lines 81-90): the storage
afterwards. `date` is `new Date().toISOString()`; `stored` tells whether
`localStorage.setItem` goes through (it throws when the quota is exceeded). -/
def handleExportPDF (notesContent title videoId date : String) (stored : Bool)
    (ls : LocalStorage) : LocalStorage :=
  -- if (!notesContent) return;
  if notesContent = "" then ls
  else if stored then setKey ls (offlineTag ++ videoId) (noteJson title notesContent date)
  else ls

/-- The call `text.replace(pat, '')` for a literal, non-empty pattern: the first
occurrence is dropped. -/
def replaceFirst (pat : List Char) : List Char → List Char
  | [] => []
  | c :: cs =>
    if startsWithChars pat (c :: cs) then (c :: cs).drop pat.length
    else c :: replaceFirst pat cs

/-- An entry of the downloads list, `{ ...data, id }`: the parsed note that was
spread into it and the id. -/
structure DownloadItem where
  data : JVal
  id : String

/-- The read `item[k]` for a key that is not an array index: `id` is the id,
the other properties are those of the note that was spread. -/
def itemProp (item : DownloadItem) (k : String) : Option JVal :=
  if k = "id" then some (JVal.str item.id)
  else
    match item.data with
    | JVal.obj kvs => getProp kvs k
    | _ => none

/-- The body of the loop of `loadDownloads` for one key (Downloads.jsx lines
18-27): the item pushed, if any. -/
def downloadOf (ls : LocalStorage) (key : String) : Option DownloadItem :=
  if startsWith key offlineTag then
    -- JSON.parse(localStorage.getItem(key)); `getItem` gives `null` for an absent key
    match jsonParse ((lookupKey ls key).getD "null") with
    | some data =>
      some { data := data, id := String.mk (replaceFirst offlineTag.data key.data) }
    | none => none
  else none

/-- The function `loadDownloads` (Downloads.jsx lines 15-30): the list given to
`setDownloads`. -/
def loadDownloads (ls : LocalStorage) : List DownloadItem :=
  (ls.map Prod.fst).filterMap (downloadOf ls)

/-- The function `handleDelete` of `Downloads` (Downloads.jsx lines 32-35) on
the storage and the `downloads` state. -/
def Downloads.handleDelete (id : String) (st : LocalStorage × List DownloadItem) :
    LocalStorage × List DownloadItem :=
  (eraseKey st.1 (offlineTag ++ id), st.2.filter (fun item => item.id != id))

/-- A storage with an unrelated entry and an older note. -/
def sampleStorage : LocalStorage :=
  [("theme", "dark"), ("offline_note_v0", noteJson "Old" "old text" "2024-01-01T00:00:00.000Z")]

/-! ## The nesting of a note payload -/

mutual
/-- The nesting depth of a value: 1 for a scalar, one more than its deepest
element for a list or a keyed structure. A string counts its length plus one,
which bounds the nesting of any JSON text that it holds. -/
def jdepth : JVal → Nat
  | JVal.str s => s.length + 1
  | JVal.arr xs => jdepthList xs + 1
  | JVal.obj kvs => jdepthMembers kvs + 1
  | _ => 1
/-- The largest `jdepth` among the elements of an array. -/
def jdepthList : List JVal → Nat
  | [] => 0
  | x :: xs => max (jdepth x) (jdepthList xs)
/-- The largest `jdepth` among the member values of an object. -/
def jdepthMembers : List (String × JVal) → Nat
  | [] => 0
  | (_, v) :: kvs => max (jdepth v) (jdepthMembers kvs)
end

end Abpre

/-! ## Theorems: content resolver -/

namespace Abpre

/-- C1 (as stated, refuted): the viewer is a student whose enrolledBatches is
`["b2"]`, the video id has no SecureVideo record (so no batch id of the video
is among the enrolled batches), and a fallback URL is carried in navigation
state: the resolution is not access-denied, the fallback URL is released to the
player. -/
theorem verifyAndFetch_unenrolled_fallback_released :
    (tableStore [] [("u2", { enrolledBatches := some ["b2"] })]).secure_videos "v1"
        = Lookup.missing ∧
      resolve (tableStore [] [("u2", { enrolledBatches := some ["b2"] })])
        "v1" "u2" "student" (some "https://cdn.example/legacy.mp4") initialState
        = Outcome.playable "https://cdn.example/legacy.mp4" ∧
      resolve (tableStore [] [("u2", { enrolledBatches := some ["b2"] })])
        "v1" "u2" "student" (some "https://cdn.example/legacy.mp4") initialState
        ≠ Outcome.accessDenied := by
  decide

/-- C1 (amended): for a non-admin viewer, whenever the case "no SecureVideo
record but a fallback URL is carried" is excluded, and the record's batchId is
not in the viewer's enrolledBatches (if both documents are found), resolution
renders access-denied and does not touch the player URL. -/
theorem verifyAndFetch_unenrolled_denied (store : Store) (videoId uid userRole : String)
    (fallbackUrl : Option String) (st : ViewState)
    (hrole : userRole ≠ "admin")
    (hfallback : store.secure_videos videoId = Lookup.missing → truthyStr fallbackUrl = false)
    (hnot : ∀ v u, store.secure_videos videoId = Lookup.found v →
      store.users uid = Lookup.found u →
      includes (u.enrolledBatches.getD []) v.batchId = false) :
    resolve store videoId uid userRole fallbackUrl st = Outcome.accessDenied ∧
      (verifyAndFetch store videoId uid userRole fallbackUrl st).secureUrl = st.secureUrl := by
  unfold resolve render verifyAndFetch
  cases hv : store.secure_videos videoId with
  | threw => simp
  | missing => simp [hfallback hv]
  | found v =>
    cases hu : store.users uid with
    | threw => simp [hrole]
    | missing => simp [hrole]
    | found u => simp [hrole, hnot v u hv hu]

/-- Witness for C1 (amended): video `v1` of batch `b1`, student `u2` enrolled in `b2` only. -/
theorem verifyAndFetch_unenrolled_denied_witness :
    resolve (tableStore [("v1", sampleVideo)]
        [("u2", { enrolledBatches := some ["b2"] })]) "v1" "u2" "student" none initialState
      = Outcome.accessDenied ∧
    (verifyAndFetch (tableStore [("v1", sampleVideo)]
        [("u2", { enrolledBatches := some ["b2"] })]) "v1" "u2" "student" none initialState).secureUrl
      = initialState.secureUrl :=
  verifyAndFetch_unenrolled_denied
    (tableStore [("v1", sampleVideo)]
      [("u2", { enrolledBatches := some ["b2"] })]) "v1" "u2" "student" none initialState
    (by decide) (fun _ => rfl)
    (fun v u hv hu => by
      have h1 : v = sampleVideo := by
        have : Lookup.found sampleVideo = Lookup.found v := hv
        exact (Lookup.found.inj this).symm
      have h2 : u = { enrolledBatches := some ["b2"] } := by
        have : Lookup.found ({ enrolledBatches := some ["b2"] } : UserDoc) = Lookup.found u := hu
        exact (Lookup.found.inj this).symm
      subst h1; subst h2; decide)

/-- C2: when the `secure_videos` read rejects, or the record is found, the
viewer is not an admin and the `users` read rejects, resolution renders
access-denied and the player URL is left as it was. -/
theorem verifyAndFetch_lookup_failure_denied (store : Store) (videoId uid userRole : String)
    (fallbackUrl : Option String) (st : ViewState)
    (hfail : store.secure_videos videoId = Lookup.threw ∨
      ((∃ v, store.secure_videos videoId = Lookup.found v) ∧ userRole ≠ "admin" ∧
        store.users uid = Lookup.threw)) :
    resolve store videoId uid userRole fallbackUrl st = Outcome.accessDenied ∧
      (verifyAndFetch store videoId uid userRole fallbackUrl st).secureUrl = st.secureUrl ∧
      (verifyAndFetch store videoId uid userRole fallbackUrl st).accessDenied = true := by
  unfold resolve render verifyAndFetch
  rcases hfail with hv | ⟨⟨v, hv⟩, hrole, hu⟩
  · simp [hv]
  · simp [hv, hrole, hu]

/-- Witness for C2: both failure modes, on a store whose `secure_videos` read
rejects and on a store whose `users` read rejects. -/
theorem verifyAndFetch_lookup_failure_denied_witness :
    (resolve videosReadFails "v1" "u1" "student" (some "https://cdn.example/legacy.mp4")
        initialState = Outcome.accessDenied ∧
     (verifyAndFetch videosReadFails "v1" "u1" "student" (some "https://cdn.example/legacy.mp4")
        initialState).secureUrl = initialState.secureUrl ∧
     (verifyAndFetch videosReadFails "v1" "u1" "student" (some "https://cdn.example/legacy.mp4")
        initialState).accessDenied = true) ∧
    (resolve usersReadFails "v1" "u1" "student" none initialState = Outcome.accessDenied ∧
     (verifyAndFetch usersReadFails "v1" "u1" "student" none initialState).secureUrl
        = initialState.secureUrl ∧
     (verifyAndFetch usersReadFails "v1" "u1" "student" none initialState).accessDenied = true) :=
  ⟨verifyAndFetch_lookup_failure_denied videosReadFails "v1" "u1" "student"
      (some "https://cdn.example/legacy.mp4") initialState (Or.inl rfl),
   verifyAndFetch_lookup_failure_denied usersReadFails "v1" "u1" "student" none initialState
      (Or.inr ⟨⟨sampleVideo, rfl⟩, by decide, rfl⟩)⟩

/-- C3: when the video id has a SecureVideo record and the viewer's role is
admin, the player URL becomes the record's url and access is not denied; the
resulting state is the same whatever the `users` collection answers (it is not
read), and a non-empty url is what is rendered as playable. -/
theorem verifyAndFetch_admin_bypass (store : Store) (users' : String → Lookup UserDoc)
    (videoId uid : String) (fallbackUrl : Option String) (st : ViewState) (v : SecureVideo)
    (hv : store.secure_videos videoId = Lookup.found v) :
    (verifyAndFetch store videoId uid "admin" fallbackUrl st).secureUrl = v.url ∧
      (verifyAndFetch store videoId uid "admin" fallbackUrl st).accessDenied = false ∧
      (verifyAndFetch store videoId uid "admin" fallbackUrl st).loadingUrl = false ∧
      verifyAndFetch { store with users := users' } videoId uid "admin" fallbackUrl st
        = verifyAndFetch store videoId uid "admin" fallbackUrl st ∧
      (∀ u, v.url = some u → u ≠ "" →
        resolve store videoId uid "admin" fallbackUrl st = Outcome.playable u) := by
  unfold resolve render verifyAndFetch
  simp only [hv]
  refine ⟨by simp, by simp, by simp, by simp, ?_⟩
  intro u hu hne
  simp [hu, hne]

/-- Witness for C3: an admin with no user record at all. -/
theorem verifyAndFetch_admin_bypass_witness :
    (verifyAndFetch (tableStore [("v1", sampleVideo)] [])
        "v1" "root" "admin" none initialState).secureUrl = some "u1" ∧
    resolve (tableStore [("v1", sampleVideo)] [])
        "v1" "root" "admin" none initialState = Outcome.playable "u1" :=
  have h := verifyAndFetch_admin_bypass
    (tableStore [("v1", sampleVideo)] [])
    (fun _ => Lookup.threw) "v1" "root" none initialState
    sampleVideo rfl
  ⟨h.1, h.2.2.2.2 "u1" rfl (by decide)⟩

/-- C4: when the video id has a SecureVideo record `{url, batchId}`, the viewer
is a student whose user record exists and lists `batchId` in enrolledBatches,
the player URL becomes exactly the record's url and access is not denied; a
non-empty url is what is rendered as playable. -/
theorem verifyAndFetch_enrolled_released (store : Store) (videoId uid userRole : String)
    (fallbackUrl : Option String) (st : ViewState) (v : SecureVideo) (u : UserDoc)
    (url batchId : String) (enrolled : List String)
    (hrole : userRole ≠ "admin")
    (hv : store.secure_videos videoId = Lookup.found v)
    (hurl : v.url = some url) (hbatch : v.batchId = some batchId)
    (hu : store.users uid = Lookup.found u)
    (henr : u.enrolledBatches = some enrolled) (hmem : batchId ∈ enrolled) :
    (verifyAndFetch store videoId uid userRole fallbackUrl st).secureUrl = some url ∧
      (verifyAndFetch store videoId uid userRole fallbackUrl st).accessDenied = false ∧
      (verifyAndFetch store videoId uid userRole fallbackUrl st).loadingUrl = false ∧
      (url ≠ "" → resolve store videoId uid userRole fallbackUrl st = Outcome.playable url) := by
  have hinc : includes (u.enrolledBatches.getD []) v.batchId = true := by
    simp [includes, henr, hbatch, hmem]
  unfold resolve render verifyAndFetch
  simp only [hv, hu]
  refine ⟨by simp [hrole, hinc, hurl], by simp [hrole, hinc], by simp [hrole, hinc], ?_⟩
  intro hne
  simp [hrole, hinc, hurl, hne]

/-- Witness for C4, the spec's scenario: `secure_videos/v1 = {url: "u1",
batchId: "b1"}`, `users/u1 = {enrolledBatches: ["b1"]}`, resolving
`(v1, u1, student)` releases `"u1"`. -/
theorem verifyAndFetch_enrolled_released_witness :
    (verifyAndFetch (tableStore [("v1", sampleVideo)] [("u1", { enrolledBatches := some ["b1"] })])
        "v1" "u1" "student" none initialState).secureUrl = some "u1" ∧
    resolve (tableStore [("v1", sampleVideo)] [("u1", { enrolledBatches := some ["b1"] })])
        "v1" "u1" "student" none initialState = Outcome.playable "u1" :=
  have h := verifyAndFetch_enrolled_released
    (tableStore [("v1", sampleVideo)] [("u1", { enrolledBatches := some ["b1"] })])
    "v1" "u1" "student" none initialState sampleVideo { enrolledBatches := some ["b1"] }
    "u1" "b1" ["b1"] (by decide) rfl rfl rfl rfl rfl (by decide)
  ⟨h.1, h.2.2.2 (by decide)⟩

/-- C5 (as stated, refuted): with an empty store (no SecureVideo record for
`v1`) and no fallback URL carried, what is rendered is the access-denied view,
not the "unavailable" one. -/
theorem verifyAndFetch_no_record_not_unavailable :
    (tableStore [] []).secure_videos "v1" = Lookup.missing ∧
      resolve (tableStore [] []) "v1" "u1" "student" none initialState = Outcome.accessDenied ∧
      resolve (tableStore [] []) "v1" "u1" "student" none initialState ≠ Outcome.unavailable := by
  decide

/-- C5 (amended): for a video id with no SecureVideo record, when no fallback
URL is carried (absent or empty), resolution sets the access-denied flag and
renders access-denied, whatever the viewer, and leaves the player URL as it was. -/
theorem verifyAndFetch_no_record_no_fallback_denied (store : Store)
    (videoId uid userRole : String) (fallbackUrl : Option String) (st : ViewState)
    (hv : store.secure_videos videoId = Lookup.missing)
    (hfallback : truthyStr fallbackUrl = false) :
    resolve store videoId uid userRole fallbackUrl st = Outcome.accessDenied ∧
      (verifyAndFetch store videoId uid userRole fallbackUrl st).accessDenied = true ∧
      (verifyAndFetch store videoId uid userRole fallbackUrl st).secureUrl = st.secureUrl := by
  unfold resolve render verifyAndFetch
  simp [hv, hfallback]

/-- Witness for C5 (amended): the empty store and no navigation state. -/
theorem verifyAndFetch_no_record_no_fallback_denied_witness :
    resolve (tableStore [] []) "v1" "u1" "admin" none initialState = Outcome.accessDenied ∧
      (verifyAndFetch (tableStore [] []) "v1" "u1" "admin" none initialState).accessDenied = true ∧
      (verifyAndFetch (tableStore [] []) "v1" "u1" "admin" none initialState).secureUrl
        = initialState.secureUrl :=
  verifyAndFetch_no_record_no_fallback_denied (tableStore [] []) "v1" "u1" "admin" none
    initialState rfl rfl

/-- C6: for a video id with no SecureVideo record, when a non-empty fallback
URL is carried, the player URL becomes the fallback URL, access is not denied
and the fallback URL is rendered as playable, for every viewer and every answer
of the `users` collection. -/
theorem verifyAndFetch_fallback_released (store : Store) (videoId uid userRole : String)
    (fallback : String) (st : ViewState)
    (hv : store.secure_videos videoId = Lookup.missing)
    (hne : fallback ≠ "") :
    (verifyAndFetch store videoId uid userRole (some fallback) st).secureUrl = some fallback ∧
      (verifyAndFetch store videoId uid userRole (some fallback) st).accessDenied = false ∧
      resolve store videoId uid userRole (some fallback) st = Outcome.playable fallback := by
  unfold resolve render verifyAndFetch
  simp [hv, truthyStr, hne]

/-- Witness for C6: a student without a user record and a legacy URL. -/
theorem verifyAndFetch_fallback_released_witness :
    (verifyAndFetch (tableStore [] []) "v1" "u1" "student" (some "https://cdn.example/legacy.mp4")
        initialState).secureUrl = some "https://cdn.example/legacy.mp4" ∧
      (verifyAndFetch (tableStore [] []) "v1" "u1" "student"
        (some "https://cdn.example/legacy.mp4") initialState).accessDenied = false ∧
      resolve (tableStore [] []) "v1" "u1" "student" (some "https://cdn.example/legacy.mp4")
        initialState = Outcome.playable "https://cdn.example/legacy.mp4" :=
  verifyAndFetch_fallback_released (tableStore [] []) "v1" "u1" "student"
    "https://cdn.example/legacy.mp4" initialState rfl (by decide)

/-- C7: for a video id with a SecureVideo record and a non-admin viewer whose
uid has no user record, resolution sets the access-denied flag, renders
access-denied and leaves the player URL as it was. -/
theorem verifyAndFetch_no_user_denied (store : Store) (videoId uid userRole : String)
    (fallbackUrl : Option String) (st : ViewState) (v : SecureVideo)
    (hrole : userRole ≠ "admin")
    (hv : store.secure_videos videoId = Lookup.found v)
    (hu : store.users uid = Lookup.missing) :
    resolve store videoId uid userRole fallbackUrl st = Outcome.accessDenied ∧
      (verifyAndFetch store videoId uid userRole fallbackUrl st).accessDenied = true ∧
      (verifyAndFetch store videoId uid userRole fallbackUrl st).secureUrl = st.secureUrl := by
  unfold resolve render verifyAndFetch
  simp [hv, hu, hrole]

/-- Witness for C7: `v1` is recorded, the users collection is empty. -/
theorem verifyAndFetch_no_user_denied_witness :
    resolve (tableStore [("v1", sampleVideo)] []) "v1" "u9" "student" none initialState
        = Outcome.accessDenied ∧
      (verifyAndFetch (tableStore [("v1", sampleVideo)] []) "v1" "u9" "student" none
        initialState).accessDenied = true ∧
      (verifyAndFetch (tableStore [("v1", sampleVideo)] []) "v1" "u9" "student" none
        initialState).secureUrl = initialState.secureUrl :=
  verifyAndFetch_no_user_denied (tableStore [("v1", sampleVideo)] []) "v1" "u9" "student" none
    initialState sampleVideo (by decide) rfl rfl

/-! ## Theorems: note normaliser -/

open JVal

/-- C8: for every string `X`, `extractNoteContent` applied to `{content: X}`,
`{text: X}`, `{note: X}` and `{data: {content: X}}` returns exactly `X`, also
when `X` is empty or is itself JSON text. -/
theorem extractNoteContent_envelopes (X : String) :
    extractNoteContent (obj [("content", str X)]) = some X ∧
      extractNoteContent (obj [("text", str X)]) = some X ∧
      extractNoteContent (obj [("note", str X)]) = some X ∧
      extractNoteContent (obj [("data", obj [("content", str X)])]) = some X := by
  by_cases hX : X = ""
  · subst hX
    decide
  · simp [extractNoteContent, jsize, jsizeMembers, extractFuel, truthy, stringProp, getProp,
      truthyProp, hX]

/-! ## Lemmas: every parsed value is smaller than its text -/

theorem skipWs_length_le (cs : List Char) : (skipWs cs).length ≤ cs.length := by
  induction cs with
  | nil => simp [skipWs]
  | cons c cs ih =>
    unfold skipWs
    split
    · simp only [List.length_cons]; omega
    · exact le_refl _

theorem unitsToCharsFrom_length_le (units : List Nat) :
    ∀ pending : Option Nat,
      (unitsToCharsFrom pending units).length ≤ units.length + (if pending.isSome then 1 else 0) := by
  induction units with
  | nil => intro pending; cases pending <;> simp [unitsToCharsFrom]
  | cons n rest ih =>
    intro pending
    have h1 := ih none
    have h2 := ih (some n)
    simp only [Option.isSome_none, Option.isSome_some, if_true, if_false, Bool.false_eq_true] at h1 h2
    cases pending with
    | none =>
      simp only [unitsToCharsFrom]
      split <;> simp only [List.length_cons, Option.isSome_none, Bool.false_eq_true, if_false] <;> omega
    | some hi =>
      simp only [unitsToCharsFrom]
      split
      · simp only [List.length_cons, Option.isSome_some, if_true]; omega
      · split <;> simp only [List.length_cons, Option.isSome_some, if_true] <;> omega

theorem unitsToChars_length_le (units : List Nat) :
    (unitsToChars units).length ≤ units.length := by
  have h := unitsToCharsFrom_length_le units none
  simpa [unitsToChars] using h

theorem parseStringBody_size :
    ∀ (n : Nat) (cs : List Char) (acc : List Nat) (s : String) (rest : List Char),
      cs.length ≤ n → parseStringBody cs acc = some (s, rest) →
      s.length + rest.length + 1 ≤ cs.length + acc.length := by
  intro n
  induction n with
  | zero =>
    intro cs acc s rest hlen h
    have : cs = [] := List.length_eq_zero.mp (Nat.le_zero.mp hlen)
    subst this
    simp [parseStringBody] at h
  | succ n ih =>
    intro cs acc s rest hlen h
    cases cs with
    | nil => simp [parseStringBody] at h
    | cons c cs =>
      simp only [List.length_cons] at hlen ⊢
      unfold parseStringBody at h
      split at h
      · simp only [Option.some.injEq, Prod.mk.injEq] at h
        obtain ⟨hs, hr⟩ := h
        subst hs; subst hr
        have := unitsToChars_length_le acc.reverse
        simp only [List.length_reverse] at this
        simp only [String.length]
        omega
      · split at h
        · split at h
          · simp at h
          · split at h
            · rename_i rest0 _ n0 _
              have := ih _ _ _ _ (by simp only [List.length_cons] at hlen; omega) h
              simp only [List.length_cons] at this ⊢
              omega
            · simp at h
          · split at h
            · rename_i e rest0 _ ch _
              have := ih _ _ _ _ (by simp only [List.length_cons] at hlen; omega) h
              simp only [List.length_cons] at this ⊢
              omega
            · simp at h
        · split at h
          · simp at h
          · have := ih _ _ _ _ (by omega) h
            simp only [List.length_cons] at this
            omega

theorem takeDigits_length (cs : List Char) :
    (takeDigits cs).1.length + (takeDigits cs).2.length = cs.length := by
  induction cs with
  | nil => simp [takeDigits]
  | cons c cs ih =>
    unfold takeDigits
    split
    · simp only [List.cons, List.length_cons]; omega
    · simp

theorem takeInt_length (cs : List Char) :
    (takeInt cs).1.length + (takeInt cs).2.length = cs.length := by
  unfold takeInt
  split
  · simp only [List.length_cons, List.length_nil]; omega
  · exact takeDigits_length _

theorem takeFrac_length (cs fds rest : List Char) (h : takeFrac cs = some (fds, rest)) :
    rest.length ≤ cs.length := by
  unfold takeFrac at h
  split at h
  · rename_i cs0
    have hl := takeDigits_length cs0
    split at h
    · simp at h
    · rename_i ds r heq
      simp only [Option.some.injEq, Prod.mk.injEq] at h
      obtain ⟨_, hr⟩ := h
      subst hr
      rw [heq] at hl
      simp only [List.length_cons] at hl ⊢
      omega
  · simp only [Option.some.injEq, Prod.mk.injEq] at h
    rw [h.2]

theorem takeExpDigits_length (b : Bool) (cs : List Char) (e : Int) (rest : List Char)
    (h : takeExpDigits b cs = some (e, rest)) : rest.length ≤ cs.length := by
  unfold takeExpDigits at h
  have hl := takeDigits_length cs
  split at h
  · simp at h
  · rename_i ds r heq
    simp only [Option.some.injEq, Prod.mk.injEq] at h
    obtain ⟨_, hr⟩ := h
    subst hr
    rw [heq] at hl
    simp only at hl
    omega

theorem takeExp_length (cs : List Char) (e : Int) (rest : List Char)
    (h : takeExp cs = some (e, rest)) : rest.length ≤ cs.length := by
  unfold takeExp at h
  split at h
  all_goals first
    | exact Nat.le_trans (takeExpDigits_length _ _ _ _ h) (by simp only [List.length_cons]; omega)
    | (simp only [Option.some.injEq, Prod.mk.injEq] at h; rw [h.2])

theorem parseUnsigned_size (neg : Bool) (cs : List Char) (v : JVal) (rest : List Char)
    (h : parseUnsigned neg cs = some (v, rest)) :
    jsize v = 1 ∧ rest.length + 1 ≤ cs.length := by
  unfold parseUnsigned at h
  have hi := takeInt_length cs
  split at h
  · simp at h
  · rename_i ids cs1 hne heq
    rw [heq] at hi
    simp only at hi
    have hpos : 0 < ids.length := by
      cases ids with
      | nil => exact (hne rfl).elim
      | cons _ _ => simp
    split at h
    · simp at h
    · rename_i fds cs2 hf
      have h2 := takeFrac_length _ _ _ hf
      split at h
      · simp at h
      · rename_i e cs3 he
        have h3 := takeExp_length _ _ _ he
        simp only [Option.some.injEq, Prod.mk.injEq] at h
        obtain ⟨hv, hr⟩ := h
        subst hv; subst hr
        refine ⟨by simp [jsize], by omega⟩

theorem parseNumber_size (cs : List Char) (v : JVal) (rest : List Char)
    (h : parseNumber cs = some (v, rest)) :
    jsize v = 1 ∧ rest.length + 1 ≤ cs.length := by
  unfold parseNumber at h
  split at h
  · have := parseUnsigned_size _ _ _ _ h
    simp only [List.length_cons]
    omega
  · exact parseUnsigned_size _ _ _ _ h

theorem jsize_pos (d : JVal) : 0 < jsize d := by
  cases d <;> simp [jsize]

theorem jsizeList_append (xs ys : List JVal) :
    jsizeList (xs ++ ys) = jsizeList xs + jsizeList ys := by
  induction xs with
  | nil => simp [jsizeList]
  | cons x xs ih => simp [jsizeList, ih]; omega

theorem jsizeList_reverse (xs : List JVal) : jsizeList xs.reverse = jsizeList xs := by
  induction xs with
  | nil => simp
  | cons x xs ih => simp [jsizeList_append, jsizeList, ih]; omega

theorem jsizeMembers_append (xs ys : List (String × JVal)) :
    jsizeMembers (xs ++ ys) = jsizeMembers xs + jsizeMembers ys := by
  induction xs with
  | nil => simp [jsizeMembers]
  | cons x xs ih => obtain ⟨k, v⟩ := x; simp [jsizeMembers, ih]; omega

theorem jsizeMembers_reverse (xs : List (String × JVal)) :
    jsizeMembers xs.reverse = jsizeMembers xs := by
  induction xs with
  | nil => simp
  | cons x xs ih =>
    obtain ⟨k, v⟩ := x
    simp [jsizeMembers_append, jsizeMembers, ih]; omega

theorem parse_size (fuel : Nat) :
    (∀ cs v rest, parseValue fuel cs = Parsed.ok v rest → jsize v + rest.length ≤ cs.length) ∧
    (∀ cs acc xs rest, parseElements fuel cs acc = Parsed.ok xs rest →
      jsizeList xs + rest.length + 1 ≤ jsizeList acc + cs.length) ∧
    (∀ cs acc kvs rest, parseMembers fuel cs acc = Parsed.ok kvs rest →
      jsizeMembers kvs + rest.length + 1 ≤ jsizeMembers acc + cs.length) := by
  induction fuel with
  | zero =>
    refine ⟨?_, ?_, ?_⟩
    · intro cs v rest h; simp [parseValue] at h
    · intro cs acc xs rest h; simp [parseElements] at h
    · intro cs acc kvs rest h; simp [parseMembers] at h
  | succ fuel ih =>
    obtain ⟨ihv, ihe, ihm⟩ := ih
    refine ⟨?_, ?_, ?_⟩
    · intro cs v rest h
      have hs := skipWs_length_le cs
      unfold parseValue at h
      split at h
      · rename_i rest0 heq
        rw [heq] at hs
        have hs1 := skipWs_length_le rest0
        simp only [List.length_cons] at hs
        split at h
        · rename_i rest1 heq1
          rw [heq1] at hs1
          simp only [List.length_cons] at hs1
          simp only [Parsed.ok.injEq] at h
          obtain ⟨hv, hr⟩ := h
          subst hv; subst hr
          simp only [jsize, jsizeMembers]
          omega
        · split at h
          · rename_i kvs rest2 hm
            have := ihm _ _ _ _ hm
            simp only [Parsed.ok.injEq] at h
            obtain ⟨hv, hr⟩ := h
            subst hv; subst hr
            simp only [jsize, jsizeMembers] at this ⊢
            omega
          · simp at h
          · simp at h
      · rename_i rest0 heq
        rw [heq] at hs
        have hs1 := skipWs_length_le rest0
        simp only [List.length_cons] at hs
        split at h
        · rename_i rest1 heq1
          rw [heq1] at hs1
          simp only [List.length_cons] at hs1
          simp only [Parsed.ok.injEq] at h
          obtain ⟨hv, hr⟩ := h
          subst hv; subst hr
          simp only [jsize, jsizeList]
          omega
        · split at h
          · rename_i xs rest2 hm
            have := ihe _ _ _ _ hm
            simp only [Parsed.ok.injEq] at h
            obtain ⟨hv, hr⟩ := h
            subst hv; subst hr
            simp only [jsize, jsizeList] at this ⊢
            omega
          · simp at h
          · simp at h
      · rename_i rest0 heq
        rw [heq] at hs
        simp only [Parsed.ok.injEq] at h
        obtain ⟨hv, hr⟩ := h
        subst hv; subst hr
        simp only [List.length_cons, jsize] at hs ⊢
        omega
      · rename_i rest0 heq
        rw [heq] at hs
        simp only [Parsed.ok.injEq] at h
        obtain ⟨hv, hr⟩ := h
        subst hv; subst hr
        simp only [List.length_cons, jsize] at hs ⊢
        omega
      · rename_i rest0 heq
        rw [heq] at hs
        simp only [Parsed.ok.injEq] at h
        obtain ⟨hv, hr⟩ := h
        subst hv; subst hr
        simp only [List.length_cons, jsize] at hs ⊢
        omega
      · rename_i c rest0 _ _ _ _ _ heq
        rw [heq] at hs
        simp only [List.length_cons] at hs
        split at h
        · split at h
          · rename_i s rest1 hsb
            have := parseStringBody_size _ _ _ _ _ (le_refl _) hsb
            simp only [Parsed.ok.injEq] at h
            obtain ⟨hv, hr⟩ := h
            subst hv; subst hr
            simp only [jsize, List.length_nil] at this ⊢
            omega
          · simp at h
        · cases hn : parseNumber (c :: rest0) with
          | none => rw [hn] at h; simp [Parsed.ofOption] at h
          | some p =>
            obtain ⟨v0, r0⟩ := p
            rw [hn] at h
            simp only [Parsed.ofOption, Parsed.ok.injEq] at h
            obtain ⟨hv, hr⟩ := h
            subst hv; subst hr
            have := parseNumber_size _ _ _ hn
            simp only [List.length_cons] at this
            omega
      · simp at h
    · intro cs acc xs rest h
      unfold parseElements at h
      split at h
      · rename_i v rest0 hv
        have h1 := ihv _ _ _ hv
        have hs := skipWs_length_le rest0
        split at h
        · rename_i rest1 heq
          rw [heq] at hs
          have := ihe _ _ _ _ h
          simp only [List.length_cons, jsizeList] at hs this
          omega
        · rename_i rest1 heq
          rw [heq] at hs
          simp only [Parsed.ok.injEq] at h
          obtain ⟨hx, hr⟩ := h
          subst hx; subst hr
          rw [jsizeList_reverse]
          simp only [List.length_cons, jsizeList] at hs ⊢
          omega
        · simp at h
      · simp at h
      · simp at h
    · intro cs acc kvs rest h
      have hs := skipWs_length_le cs
      unfold parseMembers at h
      split at h
      · rename_i c rest0 heq
        rw [heq] at hs
        simp only [List.length_cons] at hs
        split at h
        · split at h
          · rename_i k rest1 hk
            have hk1 := parseStringBody_size _ _ _ _ _ (le_refl _) hk
            have hs1 := skipWs_length_le rest1
            simp only [List.length_nil] at hk1
            split at h
            · rename_i rest2 heq2
              rw [heq2] at hs1
              simp only [List.length_cons] at hs1
              split at h
              · rename_i v rest3 hv
                have h3 := ihv _ _ _ hv
                have hs3 := skipWs_length_le rest3
                split at h
                · rename_i rest4 heq4
                  rw [heq4] at hs3
                  have := ihm _ _ _ _ h
                  simp only [List.length_cons, jsizeMembers] at hs3 this
                  omega
                · rename_i rest4 heq4
                  rw [heq4] at hs3
                  simp only [Parsed.ok.injEq] at h
                  obtain ⟨hx, hr⟩ := h
                  subst hx; subst hr
                  rw [jsizeMembers_reverse]
                  simp only [List.length_cons, jsizeMembers] at hs3 ⊢
                  omega
                · simp at h
              · simp at h
              · simp at h
            · simp at h
          · simp at h
        · simp at h
      · simp at h

theorem jsonParse_size (text : String) (v : JVal) (h : jsonParse text = some v) :
    jsize v ≤ text.length := by
  unfold jsonParse at h
  split at h
  · rename_i v0 rest hp
    have := (parse_size _).1 _ _ _ hp
    split at h
    · simp only [Option.some.injEq] at h
      subst h
      simp only [String.length]
      omega
    · simp at h
  · simp at h

/-! ## Lemmas: the recursion bound of the parser is never reached -/

theorem parse_fuel (fuel : Nat) :
    (∀ cs, 2 * cs.length + 1 ≤ fuel → parseValue fuel cs ≠ Parsed.outOfFuel) ∧
    (∀ cs acc, 2 * cs.length + 2 ≤ fuel → parseElements fuel cs acc ≠ Parsed.outOfFuel) ∧
    (∀ cs acc, 2 * cs.length + 2 ≤ fuel → parseMembers fuel cs acc ≠ Parsed.outOfFuel) := by
  induction fuel with
  | zero =>
    refine ⟨?_, ?_, ?_⟩
    · intro cs h; omega
    · intro cs acc h; omega
    · intro cs acc h; omega
  | succ fuel ih =>
    obtain ⟨ihv, ihe, ihm⟩ := ih
    refine ⟨?_, ?_, ?_⟩
    · intro cs hf h
      have hs := skipWs_length_le cs
      unfold parseValue at h
      split at h
      · rename_i rest0 heq
        rw [heq] at hs
        have hs1 := skipWs_length_le rest0
        simp only [List.length_cons] at hs
        split at h
        · simp at h
        · split at h
          · simp at h
          · simp at h
          · rename_i hm
            exact ihm _ _ (by omega) hm
      · rename_i rest0 heq
        rw [heq] at hs
        have hs1 := skipWs_length_le rest0
        simp only [List.length_cons] at hs
        split at h
        · simp at h
        · split at h
          · simp at h
          · simp at h
          · rename_i hm
            exact ihe _ _ (by omega) hm
      · simp at h
      · simp at h
      · simp at h
      · split at h
        · split at h <;> simp at h
        · rename_i c rest0 _ _ _ _ _ _ _
          cases hn : parseNumber (c :: rest0) with
          | none => rw [hn] at h; simp [Parsed.ofOption] at h
          | some p => rw [hn] at h; simp [Parsed.ofOption] at h
      · simp at h
    · intro cs acc hf h
      unfold parseElements at h
      split at h
      · rename_i v rest0 hv
        have h1 := (parse_size _).1 _ _ _ hv
        have hp := jsize_pos v
        have hs := skipWs_length_le rest0
        split at h
        · rename_i rest1 heq
          rw [heq] at hs
          simp only [List.length_cons] at hs
          exact ihe _ _ (by omega) h
        · simp at h
        · simp at h
      · simp at h
      · rename_i hv
        exact ihv _ (by omega) hv
    · intro cs acc hf h
      have hs := skipWs_length_le cs
      unfold parseMembers at h
      split at h
      · rename_i c rest0 heq
        rw [heq] at hs
        simp only [List.length_cons] at hs
        split at h
        · split at h
          · rename_i k rest1 hk
            have hk1 := parseStringBody_size _ _ _ _ _ (le_refl _) hk
            have hs1 := skipWs_length_le rest1
            simp only [List.length_nil] at hk1
            split at h
            · rename_i rest2 heq2
              rw [heq2] at hs1
              simp only [List.length_cons] at hs1
              split at h
              · rename_i v rest3 hv
                have h3 := (parse_size _).1 _ _ _ hv
                have hs3 := skipWs_length_le rest3
                split at h
                · rename_i rest4 heq4
                  rw [heq4] at hs3
                  simp only [List.length_cons] at hs3
                  exact ihm _ _ (by omega) h
                · simp at h
                · simp at h
              · simp at h
              · rename_i hv
                exact ihv _ (by omega) hv
            · simp at h
          · simp at h
        · simp at h
      · simp at h

/-- The recursion bound used by `jsonParse` is never reached: `none` always
stands for a text that is not JSON. -/
theorem jsonParse_fuel (text : String) :
    parseValue (2 * text.length + 2) text.data ≠ Parsed.outOfFuel :=
  (parse_fuel _).1 _ (by simp only [String.length]; omega)

/-! ## Lemmas: the recursion bound of the normaliser is never reached -/

theorem dropWhile_length_le (p : Char → Bool) (cs : List Char) :
    (cs.dropWhile p).length ≤ cs.length := by
  induction cs with
  | nil => simp
  | cons c cs ih =>
    simp only [List.dropWhile_cons]
    split
    · simp only [List.length_cons]; omega
    · exact le_refl _

theorem trim_length_le (s : String) : (trim s).length ≤ s.length := by
  have h1 := dropWhile_length_le isJsWhitespace s.data
  have h2 := dropWhile_length_le isJsWhitespace (s.data.dropWhile isJsWhitespace).reverse
  simp only [List.length_reverse] at h2
  simp only [trim, trimChars, String.length, List.length_reverse]
  omega

theorem getProp_size (kvs : List (String × JVal)) (k : String) (v : JVal)
    (h : getProp kvs k = some v) : jsize v ≤ jsizeMembers kvs := by
  induction kvs with
  | nil => simp [getProp] at h
  | cons kv kvs ih =>
    obtain ⟨k1, v1⟩ := kv
    unfold getProp at h
    simp only [jsizeMembers]
    split at h
    · rename_i w hw
      simp only [Option.some.injEq] at h
      subst h
      have := ih hw
      omega
    · split at h
      · simp only [Option.some.injEq] at h
        subst h
        omega
      · simp at h

theorem truthyProp_size (kvs : List (String × JVal)) (k : String) (v : JVal)
    (h : truthyProp kvs k = some v) : jsize v ≤ jsizeMembers kvs := by
  unfold truthyProp at h
  split at h
  · rename_i w hw
    split at h
    · simp only [Option.some.injEq] at h
      subst h
      exact getProp_size _ _ _ hw
    · simp at h
  · simp at h

theorem extractFuel_adequate_aux (n : Nat) :
    ∀ (f : Nat) (d : JVal), f ≤ n → jsize d ≤ f →
      extractFuel f d = extractFuel (jsize d) d ∧ (extractFuel f d).isSome = true := by
  induction n with
  | zero =>
    intro f d hf hd
    have := jsize_pos d
    omega
  | succ n ih =>
    intro f d hf hd
    cases f with
    | zero =>
      have := jsize_pos d
      omega
    | succ f' =>
      obtain ⟨m, hm⟩ : ∃ m, jsize d = m + 1 := ⟨jsize d - 1, by have := jsize_pos d; omega⟩
      have key : ∀ v, jsize v ≤ m →
          extractFuel f' v = extractFuel m v ∧ (extractFuel f' v).isSome = true := by
        intro v hv
        have h1 := ih f' v (by omega) (by omega)
        have h2 := ih m v (by omega) hv
        exact ⟨h1.1.trans h2.1.symm, h1.2⟩
      rw [hm]
      cases d with
      | null => simp [extractFuel, truthy]
      | bool b => cases b <;> simp [extractFuel, truthy]
      | num neg mant exp => simp [extractFuel]
      | str s =>
        simp only [jsize, Nat.add_right_cancel_iff] at hm
        simp only [extractFuel]
        split
        · simp
        · split
          · split
            · rename_i parsed hp
              split
              · have h1 := jsonParse_size _ _ hp
                have h2 := trim_length_le s
                exact key parsed (by omega)
              · simp
            · simp
          · simp
      | arr xs =>
        simp only [jsize, Nat.add_right_cancel_iff] at hm
        cases xs with
        | nil => simp [extractFuel]
        | cons x0 xs0 =>
          simp only [jsizeList] at hm
          simp only [extractFuel, truthy, Bool.not_true, Bool.false_eq_true, if_false]
          exact key x0 (by omega)
      | obj kvs =>
        simp only [jsize, Nat.add_right_cancel_iff] at hm
        simp only [extractFuel]
        split
        · simp
        · split
          · simp
          · split
            · simp
            · split
              · simp
              · split
                · rename_i v hv
                  have := truthyProp_size _ _ _ hv
                  exact key v (by omega)
                · split
                  · rename_i v hv
                    have := truthyProp_size _ _ _ hv
                    exact key v (by omega)
                  · simp

/-- The bound `jsize data` is never reached: with any bound at least that large
the recursion of `extractNoteContent` returns, and returns the same string. -/
theorem extractFuel_adequate (f : Nat) (d : JVal) (h : jsize d ≤ f) :
    extractFuel f d = extractNoteContent d ∧ (extractNoteContent d).isSome = true := by
  have h1 := extractFuel_adequate_aux f f d (le_refl _) h
  have h2 := extractFuel_adequate_aux (jsize d) (jsize d) d (le_refl _) (le_refl _)
  exact ⟨h1.1, h2.2⟩

/-! ## Theorems: note normaliser, continued -/

/-- The keyed branch of `extractNoteContent`, with the recursive calls written
as calls of `extractNoteContent` itself. -/
theorem extractNoteContent_obj (kvs : List (String × JVal)) :
    extractNoteContent (obj kvs) =
      match stringProp kvs "content" with
      | some s => some s
      | none =>
        match stringProp kvs "text" with
        | some s => some s
        | none =>
          match stringProp kvs "note" with
          | some s => some s
          | none =>
            match truthyProp kvs "data" with
            | some v => extractNoteContent v
            | none =>
              match truthyProp kvs "result" with
              | some v => extractNoteContent v
              | none => some "" := by
  simp only [extractNoteContent, jsize, extractFuel, truthy, Bool.not_true, Bool.false_eq_true,
    if_false]
  split
  · rfl
  · split
    · rfl
    · split
      · rfl
      · split
        · rename_i v hv
          exact (extractFuel_adequate _ _ (truthyProp_size _ _ _ hv)).1
        · split
          · rename_i v hv
            exact (extractFuel_adequate _ _ (truthyProp_size _ _ _ hv)).1
          · rfl

/-- C9 (as stated, refuted): the note `{content: X}` where `X` is the JSON text
`{"text":"hi"}` normalises to `X`, and normalising `X` again gives `hi`. -/
theorem extractNoteContent_not_idempotent :
    extractNoteContent (obj [("content", str "\x7b\"text\":\"hi\"\x7d")])
        = some "\x7b\"text\":\"hi\"\x7d" ∧
      extractNoteContent (str "\x7b\"text\":\"hi\"\x7d") = some "hi" ∧
      "\x7b\"text\":\"hi\"\x7d" ≠ "hi" := by
  decide

/-- C9 (amended): when the normaliser's output for `d` is a plain string, one
whose trimmed form does not start with `{` or `[` or is not valid JSON,
normalising that output again returns it unchanged. -/
theorem extractNoteContent_idempotent_plain (d : JVal) (r : String)
    (hr : extractNoteContent d = some r)
    (hplain : (startsWithChar (trim r) '{' || startsWithChar (trim r) '[') = false ∨
      jsonParse (trim r) = none) :
    extractNoteContent (str r) = extractNoteContent d := by
  rw [hr]
  simp only [extractNoteContent, jsize, extractFuel, truthy]
  by_cases he : r = ""
  · subst he
    simp
  · rcases hplain with h | h
    · simp [he, h]
    · simp [he, h]

/-- Witness for C9 (amended): the note `{content: "## Hello"}`. -/
theorem extractNoteContent_idempotent_plain_witness :
    extractNoteContent (obj [("content", str "## Hello")]) = some "## Hello" ∧
      extractNoteContent (str "## Hello") = extractNoteContent (obj [("content", str "## Hello")]) :=
  ⟨by decide, extractNoteContent_idempotent_plain (obj [("content", str "## Hello")]) "## Hello"
    (by decide) (Or.inl (by decide))⟩

/-- C10 (as stated, refuted): in `{content: "", text: "t"}` the first of the
five keys whose value is a string is `content`, with value `""`, and the
result is `"t"`; in `{data: {}, result: "r"}` the only key whose value is a
string is `result`, with value `"r"`, and the result is `""` (the recursion
into `data` is taken). -/
theorem extractNoteContent_not_first_string_key :
    (getProp [("content", str ""), ("text", str "t")] "content" = some (str "") ∧
      extractNoteContent (obj [("content", str ""), ("text", str "t")]) = some "t") ∧
    (getProp [("data", obj []), ("result", str "r")] "content" = none ∧
      getProp [("data", obj []), ("result", str "r")] "text" = none ∧
      getProp [("data", obj []), ("result", str "r")] "note" = none ∧
      stringProp [("data", obj []), ("result", str "r")] "data" = none ∧
      getProp [("data", obj []), ("result", str "r")] "result" = some (str "r") ∧
      extractNoteContent (obj [("data", obj []), ("result", str "r")]) = some "") := by
  refine ⟨⟨rfl, by decide⟩, rfl, rfl, rfl, rfl, rfl, by decide⟩

theorem truthyProp_eq_filter (kvs : List (String × JVal)) (k : String) :
    truthyProp kvs k = (getProp kvs k).filter truthy := by
  unfold truthyProp
  cases getProp kvs k with
  | none => rfl
  | some v => cases h : truthy v <;> simp [Option.filter, h]

theorem stringProp_eq_some_iff (kvs : List (String × JVal)) (k s : String) :
    stringProp kvs k = some s ↔ (getProp kvs k = some (str s) ∧ s ≠ "") := by
  unfold stringProp
  split
  · rename_i s0 h0
    rw [h0]
    by_cases he : s0 = ""
    · subst he
      simp only [bne_self_eq_false, Bool.false_eq_true, if_false, Option.some.injEq, str.injEq,
        ne_eq]
      constructor
      · intro h; simp at h
      · intro h; exact absurd h.1.symm h.2
    · simp only [bne_iff_ne, ne_eq, he, not_false_eq_true, if_true, Option.some.injEq, str.injEq]
      constructor
      · intro h; subst h; exact ⟨rfl, he⟩
      · intro h; exact h.1
  · rename_i hne
    constructor
    · intro h; simp at h
    · intro h
      exact absurd h.1 (hne s)

/-- C10 (amended): for every keyed structure `d`, `extractNoteContent(d)` is the
value of the first key, in the order content, text, note, whose value is a
non-empty string; when there is none it is `extractNoteContent(d.data)` if
`d.data` is truthy, else `extractNoteContent(d.result)` if `d.result` is
truthy, else the empty string. -/
theorem extractNoteContent_keyed (kvs : List (String × JVal)) :
    extractNoteContent (obj kvs) =
      (match ["content", "text", "note"].findSome? (stringProp kvs) with
        | some s => some s
        | none =>
          match (getProp kvs "data").filter truthy with
          | some v => extractNoteContent v
          | none =>
            match (getProp kvs "result").filter truthy with
            | some w => extractNoteContent w
            | none => some "") ∧
      (∀ k s, stringProp kvs k = some s ↔ (getProp kvs k = some (str s) ∧ s ≠ "")) := by
  refine ⟨?_, stringProp_eq_some_iff kvs⟩
  rw [extractNoteContent_obj, ← truthyProp_eq_filter, ← truthyProp_eq_filter]
  simp only [List.findSome?]
  cases stringProp kvs "content" with
  | some s => rfl
  | none =>
    cases stringProp kvs "text" with
    | some s => rfl
    | none =>
      cases stringProp kvs "note" with
      | some s => rfl
      | none => rfl

/-! ## Theorems: plain strings, the classifier and the notes loader -/

theorem startsWithChars_iff (pat cs : List Char) :
    startsWithChars pat cs = true ↔ pat <+: cs := by
  induction pat generalizing cs with
  | nil => simp [startsWithChars]
  | cons p ps ih =>
    cases cs with
    | nil => simp [startsWithChars]
    | cons c cs =>
      simp only [startsWithChars, Bool.and_eq_true, decide_eq_true_eq, ih, List.cons_prefix_cons]

theorem includesChars_iff (pat cs : List Char) :
    includesChars pat cs = true ↔ pat <:+: cs := by
  induction cs with
  | nil =>
    cases pat with
    | nil => simp [includesChars]
    | cons p ps => simp [includesChars]
  | cons c cs ih =>
    simp only [includesChars, Bool.or_eq_true, ih, startsWithChars_iff]
    rw [List.infix_cons_iff]

/-- The string branch of `extractNoteContent` for a string that is returned as
it is: it is empty, or it does not look like JSON, or it does not parse. -/
theorem extractNoteContent_str_plain (s : String)
    (h : (startsWithChar (trim s) '{' || startsWithChar (trim s) '[') = false ∨
      jsonParse (trim s) = none) :
    extractNoteContent (JVal.str s) = some s := by
  simp only [extractNoteContent, jsize, extractFuel, truthy]
  by_cases he : s = ""
  · subst he
    simp
  · rcases h with h | h
    · simp [he, h]
    · simp [he, h]

/-- C11: for every non-empty string `s` whose trimmed form does not start with
`{` or `[`, and for every string whose trimmed form starts with `{` or `[` but
does not parse as JSON, `extractNoteContent(s)` returns `s` itself, untrimmed. -/
theorem extractNoteContent_plain_string (s : String) :
    (s ≠ "" → startsWithChar (trim s) '{' = false → startsWithChar (trim s) '[' = false →
        extractNoteContent (JVal.str s) = some s) ∧
      ((startsWithChar (trim s) '{' = true ∨ startsWithChar (trim s) '[' = true) →
        jsonParse (trim s) = none → extractNoteContent (JVal.str s) = some s) := by
  refine ⟨fun _ h1 h2 => ?_, fun _ h => ?_⟩
  · exact extractNoteContent_str_plain s (Or.inl (by simp [h1, h2]))
  · exact extractNoteContent_str_plain s (Or.inr h)

/-- Witness for C11: a markdown note with surrounding blanks, and the broken
JSON text `{bad`. -/
theorem extractNoteContent_plain_string_witness :
    extractNoteContent (JVal.str "  ## Hello \n") = some "  ## Hello \n" ∧
      extractNoteContent (JVal.str " \x7bbad") = some " \x7bbad" :=
  ⟨(extractNoteContent_plain_string "  ## Hello \n").1 (by decide) (by decide) (by decide),
   (extractNoteContent_plain_string " \x7bbad").2 (Or.inl (by decide)) rfl⟩

/-- C12 (as stated, refuted): the note text `Read chapter1.pdf first` does not
start with an `http://` or `https://` scheme, does not contain
`drive.google.com` and does not end with `.pdf`, yet `isPdfUrl` is true of it;
the same holds of `http is a protocol`. -/
theorem isPdfUrl_not_spec_classifier :
    (isPdfUrl (JVal.str "Read chapter1.pdf first") = true ∧
      specIsDocumentUrl "Read chapter1.pdf first" = false) ∧
    (isPdfUrl (JVal.str "http is a protocol") = true ∧
      specIsDocumentUrl "http is a protocol" = false) := by
  decide

/-- C12 (amended): `isPdfUrl(data)` is true exactly when `data` is a string that
starts with `http`, or contains `drive.google.com`, or contains `.pdf`; it is
false for every other string, for the empty string and for every value that is
not a string. -/
theorem isPdfUrl_iff (data : JVal) :
    isPdfUrl data = true ↔
      ∃ s, data = JVal.str s ∧
        ("http".data <+: s.data ∨ "drive.google.com".data <:+: s.data ∨
          ".pdf".data <:+: s.data) := by
  cases data with
  | str s =>
    by_cases he : s = ""
    · subst he
      constructor
      · intro h; exact absurd h (by decide)
      · rintro ⟨s, hs, h⟩
        cases hs
        exact absurd h (by decide)
    · have ht : (s != "") = true := by simpa using he
      simp only [isPdfUrl, truthy, ht, Bool.not_true, Bool.false_eq_true, if_false,
        Bool.or_eq_true, startsWith, strIncludes, startsWithChars_iff,
        includesChars_iff, JVal.str.injEq, exists_eq_left', or_assoc]
  | null => simp [isPdfUrl, truthy]
  | bool b => cases b <;> simp [isPdfUrl, truthy]
  | num neg mant exp => simp [isPdfUrl]
  | arr xs => simp [isPdfUrl, truthy]
  | obj kvs => simp [isPdfUrl, truthy]

/-- C13 (as stated, refuted): when the sheet backend answers
`{status: "success", data: "## Hello"}` and no notes are carried in navigation
state, `loadNotes` stores nothing (a string has no `content` or `text`
property) and the notes tab shows "No notes uploaded yet". -/
theorem loadNotes_string_data_not_stored :
    getNotes (successResponse (JVal.str "## Hello")) = some (JVal.str "## Hello") ∧
      loadNotes (successResponse (JVal.str "## Hello")) none none = none ∧
      notesView (loadNotes (successResponse (JVal.str "## Hello")) none none)
        = some NotesView.noNotes :=
  ⟨rfl, rfl, by decide⟩

/-- C13 (amended): for every non-empty string `s`, when the sheet backend
answers `{status: "success", data: {content: s}}` (or `{text: s}`), `loadNotes`
stores `s`; the displayed content is then exactly `extractNoteContent(s)`, shown
by the document viewer if `isPdfUrl` holds of it and inline otherwise. -/
theorem loadNotes_content_stored (s : String) (notesContent notesData : Option JVal)
    (hs : s ≠ "") :
    loadNotes (successResponse (JVal.obj [("content", JVal.str s)])) notesContent notesData
        = some (JVal.str s) ∧
      loadNotes (successResponse (JVal.obj [("text", JVal.str s)])) notesContent notesData
        = some (JVal.str s) ∧
      ∃ content, extractNoteContent (JVal.str s) = some content ∧
        notesView (some (JVal.str s)) =
          some (if isPdfUrl (JVal.str content) then NotesView.document content
            else NotesView.inline content) := by
  have ht : (s != "") = true := by simpa using hs
  refine ⟨?_, ?_, ?_⟩
  · simp [loadNotes, getNotes, successResponse, getProp, optProp, jsOr, truthyOpt, truthy, ht]
  · simp [loadNotes, getNotes, successResponse, getProp, optProp, jsOr, truthyOpt, truthy, ht]
  · have hsome := (extractFuel_adequate (jsize (JVal.str s)) (JVal.str s) (le_refl _)).2
    obtain ⟨content, hc⟩ := Option.isSome_iff_exists.mp hsome
    refine ⟨content, hc, ?_⟩
    simp only [notesView, truthyOpt, truthy, ht, if_true, hc]
    split <;> rfl

/-- Witness for C13 (amended), the two scenarios of the specification with the
text under `content`: `## Hello` is shown inline as it is, and
`https://drive.google.com/x.pdf` goes to the document viewer. -/
theorem loadNotes_content_stored_witness :
    (loadNotes (successResponse (JVal.obj [("content", JVal.str "## Hello")])) none none
        = some (JVal.str "## Hello") ∧
      notesView (some (JVal.str "## Hello")) = some (NotesView.inline "## Hello")) ∧
    (loadNotes (successResponse
        (JVal.obj [("content", JVal.str "https://drive.google.com/x.pdf")])) none none
        = some (JVal.str "https://drive.google.com/x.pdf") ∧
      notesView (some (JVal.str "https://drive.google.com/x.pdf"))
        = some (NotesView.document "https://drive.google.com/x.pdf")) :=
  ⟨⟨(loadNotes_content_stored "## Hello" none none (by decide)).1, by decide⟩,
   ⟨(loadNotes_content_stored "https://drive.google.com/x.pdf" none none (by decide)).1,
    by decide⟩⟩

/-! ## Theorems: quiz coercion -/

/-- C15: for every AI reply whose cleaned text (fences stripped, trimmed) is
not valid JSON, `generateQuizFromAI` rejects, and `startInfiniteQuiz` and
`handleDocumentUpload` leave the question list, the step and the mode as they
were and raise an alert. -/
theorem quiz_coercion_invalid_json (text : String) (st : QuizState) :
    (jsonParse (geminiCleanJson text) = none →
        generateQuizFromAI true (Except.ok text) = Except.error jsonSyntaxError) ∧
      (jsonParse (quizCleanJson text) = none →
        (startInfiniteQuiz true (Except.ok text) st).1 = { st with isGenerating := false } ∧
        (startInfiniteQuiz true (Except.ok text) st).2
          = ["AI error: Unable to generate quiz. Please try again."] ∧
        (handleDocumentUpload true (Except.ok text) st).1 = { st with uploadLoading := false } ∧
        (handleDocumentUpload true (Except.ok text) st).2
          = ["Document error or AI quota exceeded."]) := by
  refine ⟨fun h => ?_, fun h => ?_⟩
  · simp [generateQuizFromAI, h]
  · simp [startInfiniteQuiz, handleDocumentUpload, callGemini, h]

/-- Witness for C15: the reply `Sorry, I cannot help.` wrapped in a fence. -/
theorem quiz_coercion_invalid_json_witness :
    generateQuizFromAI true (Except.ok "```json\nSorry, I cannot help.\n```")
        = Except.error jsonSyntaxError ∧
      (startInfiniteQuiz true (Except.ok "```json\nSorry, I cannot help.\n```")
        (selectionState [])).1.currentStep = "selection" ∧
      (startInfiniteQuiz true (Except.ok "```json\nSorry, I cannot help.\n```")
        (selectionState [])).1.questions = [] :=
  have h := quiz_coercion_invalid_json "```json\nSorry, I cannot help.\n```" (selectionState [])
  ⟨h.1 rfl, by rw [(h.2 rfl).1]; rfl, by rw [(h.2 rfl).1]; rfl⟩

/-- C16 (the code at the failing input): when the AI reply is the empty array
`[]`, `startInfiniteQuiz` and `handleDocumentUpload` raise a failure alert and
keep their state, but `handleAIUpload` raises the success alert. -/
theorem handleAIUpload_empty_array_reports_success (st : AdminQuizState) (qst : QuizState) :
    handleAIUpload true (Except.ok "[]") st
        = ({ questions := st.questions ++ [], loading := false }, [aiSuccessAlert]) ∧
      startInfiniteQuiz true (Except.ok "[]") qst
        = ({ qst with isGenerating := false },
            ["AI error: Unable to generate quiz. Please try again."]) ∧
      handleDocumentUpload true (Except.ok "[]") qst
        = ({ qst with uploadLoading := false },
            ["Could not extract questions from document."]) := by
  refine ⟨?_, ?_, ?_⟩
  · have h : generateQuizFromAI true (Except.ok "[]") = Except.ok (JVal.arr []) := rfl
    simp only [handleAIUpload, h]
  · have h : jsonParse (quizCleanJson "[]") = some (JVal.arr []) := rfl
    simp only [startInfiniteQuiz, callGemini, h]
    rfl
  · have h : jsonParse (quizCleanJson "[]") = some (JVal.arr []) := rfl
    simp only [handleDocumentUpload, callGemini, h]
    rfl

/-! ## Lemmas: what fence stripping leaves -/

theorem fence_eq : fence = [tick, tick, tick] := by decide

theorem fenceJson_eq : fenceJson = [tick, tick, tick, 'j', 's', 'o', 'n'] := by decide

theorem startsWithChars_fence_iff (cs : List Char) :
    startsWithChars fence cs = true ↔ 3 ≤ leadTicks cs := by
  rw [fence_eq]
  rcases cs with _ | ⟨a, _ | ⟨b, _ | ⟨c, rest⟩⟩⟩
  · simp [startsWithChars, leadTicks]
  · by_cases ha : a = tick <;> simp [startsWithChars, leadTicks, ha]
  · by_cases ha : a = tick <;> by_cases hb : b = tick <;>
      simp [startsWithChars, leadTicks, ha, hb]
  · by_cases ha : a = tick <;> by_cases hb : b = tick <;> by_cases hc : c = tick <;>
      simp [startsWithChars, leadTicks, ha, hb, hc, eq_comm]

theorem startsWithChars_fenceJson_fence (cs : List Char)
    (h : startsWithChars fenceJson cs = true) : startsWithChars fence cs = true := by
  rw [startsWithChars_iff] at h ⊢
  refine List.IsPrefix.trans ?_ h
  rw [fence_eq, fenceJson_eq]
  exact ⟨['j', 's', 'o', 'n'], rfl⟩

theorem leadTicks_drop (k : Nat) : ∀ cs : List Char, k ≤ leadTicks cs →
    leadTicks (cs.drop k) = leadTicks cs - k := by
  induction k with
  | zero => intro cs _; simp
  | succ k ih =>
    intro cs h
    cases cs with
    | nil => simp [leadTicks] at h
    | cons c cs =>
      by_cases hc : c = tick
      · simp only [leadTicks, hc, if_true] at h ⊢
        simp only [List.drop_succ_cons]
        rw [ih cs (by omega)]
        omega
      · simp [leadTicks, hc] at h

theorem leadTicks_le_of_no_fence (cs : List Char) (h : includesChars fence cs = false) :
    leadTicks cs ≤ 2 := by
  by_contra hlt
  have h3 : startsWithChars fence cs = true := (startsWithChars_fence_iff cs).mpr (by omega)
  cases cs with
  | nil => simp [leadTicks] at hlt
  | cons c cs => simp [includesChars, h3] at h

theorem removeAllFrom_skip (pat : List Char) : ∀ (cs : List Char) (k : Nat),
    removeAllFrom pat k cs = removeAllFrom pat 0 (cs.drop k) := by
  intro cs
  induction cs with
  | nil => intro k; cases k <;> simp [removeAllFrom]
  | cons c cs ih =>
    intro k
    cases k with
    | zero => simp
    | succ k => simp only [removeAllFrom, List.drop_succ_cons]; exact ih k

theorem removeFencesFrom_skip : ∀ (cs : List Char) (k : Nat),
    removeFencesFrom k cs = removeFencesFrom 0 (cs.drop k) := by
  intro cs
  induction cs with
  | nil => intro k; cases k <;> simp [removeFencesFrom]
  | cons c cs ih =>
    intro k
    cases k with
    | zero => simp
    | succ k => simp only [removeFencesFrom, List.drop_succ_cons]; exact ih k

theorem includesChars_fence_cons (c : Char) (cs : List Char)
    (h1 : leadTicks (c :: cs) ≤ 2) (h2 : includesChars fence cs = false) :
    includesChars fence (c :: cs) = false := by
  have h3 : startsWithChars fence (c :: cs) = false := by
    cases hs : startsWithChars fence (c :: cs) with
    | false => rfl
    | true => have := (startsWithChars_fence_iff _).mp hs; omega
  simp [includesChars, h3, h2]

theorem removeAllFrom_fence_clean (n : Nat) : ∀ cs : List Char, cs.length ≤ n →
    includesChars fence (removeAllFrom fence 0 cs) = false ∧
      leadTicks (removeAllFrom fence 0 cs) ≤ leadTicks cs := by
  induction n with
  | zero =>
    intro cs h
    have : cs = [] := List.length_eq_zero.mp (Nat.le_zero.mp h)
    subst this
    exact ⟨by decide, by simp [removeAllFrom]⟩
  | succ n ih =>
    intro cs h
    cases cs with
    | nil => exact ⟨by decide, by simp [removeAllFrom]⟩
    | cons c cs =>
      simp only [List.length_cons] at h
      simp only [removeAllFrom]
      split
      · rename_i hm
        have h3 := (startsWithChars_fence_iff _).mp hm
        have hc : c = tick := by
          by_contra hc
          simp [leadTicks, hc] at h3
        simp only [leadTicks, hc, if_true] at h3 ⊢
        rw [removeAllFrom_skip]
        have hlen : (cs.drop (fence.length - 1)).length ≤ n := by
          simp only [List.length_drop]; omega
        have hi := ih _ hlen
        have hd : fence.length - 1 = 2 := by decide
        rw [hd] at hi ⊢
        rw [leadTicks_drop 2 cs (by omega)] at hi
        exact ⟨hi.1, by omega⟩
      · rename_i hm
        have hi := ih cs (by omega)
        have hlt : ¬ 3 ≤ leadTicks (c :: cs) := fun h3 =>
          hm ((startsWithChars_fence_iff _).mpr h3)
        have hle : leadTicks (c :: removeAllFrom fence 0 cs) ≤ leadTicks (c :: cs) := by
          by_cases hc : c = tick
          · simp only [leadTicks, hc, if_true]; omega
          · simp [leadTicks, hc]
        exact ⟨includesChars_fence_cons _ _ (by omega) hi.1, hle⟩

theorem removeFencesFrom_clean (n : Nat) : ∀ cs : List Char, cs.length ≤ n →
    includesChars fence (removeFencesFrom 0 cs) = false ∧
      leadTicks (removeFencesFrom 0 cs) ≤ leadTicks cs := by
  induction n with
  | zero =>
    intro cs h
    have : cs = [] := List.length_eq_zero.mp (Nat.le_zero.mp h)
    subst this
    exact ⟨by decide, by simp [removeFencesFrom]⟩
  | succ n ih =>
    intro cs h
    cases cs with
    | nil => exact ⟨by decide, by simp [removeFencesFrom]⟩
    | cons c cs =>
      simp only [List.length_cons] at h
      simp only [removeFencesFrom]
      split
      · rename_i hm
        have h3 := (startsWithChars_fence_iff _).mp (startsWithChars_fenceJson_fence _ hm)
        rw [removeFencesFrom_skip]
        have hlen : (cs.drop 6).length ≤ n := by
          simp only [List.length_drop]; omega
        have hi := ih _ hlen
        have := leadTicks_le_of_no_fence _ hi.1
        exact ⟨hi.1, by omega⟩
      · split
        · rename_i _ hm
          have h3 := (startsWithChars_fence_iff _).mp hm
          have hc : c = tick := by
            by_contra hc
            simp [leadTicks, hc] at h3
          simp only [leadTicks, hc, if_true] at h3 ⊢
          rw [removeFencesFrom_skip]
          have hlen : (cs.drop 2).length ≤ n := by
            simp only [List.length_drop]; omega
          have hi := ih _ hlen
          rw [leadTicks_drop 2 cs (by omega)] at hi
          exact ⟨hi.1, by omega⟩
        · rename_i _ hm
          have hi := ih cs (by omega)
          have hlt : ¬ 3 ≤ leadTicks (c :: cs) := fun h3 =>
            hm ((startsWithChars_fence_iff _).mpr h3)
          have hle : leadTicks (c :: removeFencesFrom 0 cs) ≤ leadTicks (c :: cs) := by
            by_cases hc : c = tick
            · simp only [leadTicks, hc, if_true]; omega
            · simp [leadTicks, hc]
          exact ⟨includesChars_fence_cons _ _ (by omega) hi.1, hle⟩

theorem trimChars_sub (cs : List Char) : trimChars cs <:+: cs := by
  unfold trimChars
  have h1 : cs.dropWhile isJsWhitespace <:+: cs := (List.dropWhile_suffix _).isInfix
  have h2 : ((cs.dropWhile isJsWhitespace).reverse.dropWhile isJsWhitespace).reverse
      <:+: cs.dropWhile isJsWhitespace := by
    have h := (List.dropWhile_suffix isJsWhitespace
      (l := (cs.dropWhile isJsWhitespace).reverse)).isInfix
    have h' := List.reverse_infix.mpr h
    simpa using h'
  exact h2.trans h1

theorem includesChars_trim (pat cs : List Char) (h : includesChars pat cs = false) :
    includesChars pat (trimChars cs) = false := by
  cases ht : includesChars pat (trimChars cs) with
  | false => rfl
  | true =>
    have h1 := (includesChars_iff _ _).mp ht
    have h2 := (includesChars_iff pat cs).mpr (h1.trans (trimChars_sub cs))
    rw [h] at h2
    exact absurd h2 (by decide)

/-- C17: for every AI reply text, the text handed to `JSON.parse` by
`generateQuizFromAI` (two replace passes, then trim) and the one handed to it
by `QuizSection` (one replace with an alternation, then trim) both contain no
three consecutive backticks. -/
theorem cleaned_json_has_no_fence (text : String) :
    strIncludes (geminiCleanJson text) "```" = false ∧
      strIncludes (quizCleanJson text) "```" = false ∧
      ¬ ("```".data <:+: (geminiCleanJson text).data) ∧
      ¬ ("```".data <:+: (quizCleanJson text).data) := by
  have h1 : strIncludes (geminiCleanJson text) "```" = false :=
    includesChars_trim _ _ (removeAllFrom_fence_clean _ _ (le_refl _)).1
  have h2 : strIncludes (quizCleanJson text) "```" = false :=
    includesChars_trim _ _ (removeFencesFrom_clean _ _ (le_refl _)).1
  refine ⟨h1, h2, ?_, ?_⟩
  · intro h
    have := (includesChars_iff _ _).mpr h
    simp only [strIncludes] at h1
    rw [h1] at this
    exact absurd this (by decide)
  · intro h
    have := (includesChars_iff _ _).mpr h
    simp only [strIncludes] at h2
    rw [h2] at this
    exact absurd this (by decide)

/-! ## Theorems: failures of the AI calls -/

/-- C18 (as stated, refuted): with the API credential missing `askDoubts`
returns a message normally, and so it does when the collaborator call fails
with `fetch failed`. -/
theorem askDoubts_returns_on_failure :
    askDoubts false (Except.error { message := some "fetch failed" })
        = Except.ok
          "AI Service is not configured. Please add VITE_GEMINI_API_KEY to your .env.local file." ∧
      askDoubts true (Except.error { message := some "fetch failed" })
        = Except.ok "Sorry, I am unable to answer right now. Please try again later." :=
  ⟨rfl, rfl⟩

/-- C18 (amended): `generateNotesFromAI` and `generateQuizFromAI` reject with the
message `AI Service not configured` when the credential is missing and with the
collaborator's own error when its call fails. `askDoubts` returns normally when
the credential is missing, and when the collaborator call fails with an error
that has a message, with a fixed text chosen by whether that message contains
`403`; when the thrown value has no message, the read `error.message.includes`
inside the catch block throws and `askDoubts` rejects with that `TypeError`. -/
theorem ai_call_failures (reply : Except JsError String) (e : JsError) (m : String) :
    generateNotesFromAI false reply
        = Except.error { message := some "AI Service not configured" } ∧
      generateNotesFromAI true (Except.error e) = Except.error e ∧
      generateQuizFromAI false reply
        = Except.error { message := some "AI Service not configured" } ∧
      generateQuizFromAI true (Except.error e) = Except.error e ∧
      askDoubts false reply
        = Except.ok
          "AI Service is not configured. Please add VITE_GEMINI_API_KEY to your .env.local file." ∧
      askDoubts true (Except.error { message := some m })
        = Except.ok (if strIncludes m "403"
            then "Error: API Key is invalid or expired. Please update your API key."
            else "Sorry, I am unable to answer right now. Please try again later.") ∧
      askDoubts true (Except.error { message := none }) = Except.error typeError ∧
      ((∃ text, askDoubts true (Except.error e) = Except.ok text) ↔ e.message ≠ none) := by
  refine ⟨rfl, rfl, rfl, rfl, rfl, ?_, rfl, ?_⟩
  · simp only [askDoubts, Bool.not_true, Bool.false_eq_true, if_false]
    split <;> rfl
  · obtain ⟨msg⟩ := e
    cases msg with
    | none =>
      simp only [ne_eq, not_true_eq_false, iff_false, not_exists]
      intro text h
      have h2 : askDoubts true (Except.error { message := none }) = Except.error typeError := rfl
      rw [h2] at h
      exact absurd h (by simp)
    | some m1 =>
      simp only [ne_eq, reduceCtorEq, not_false_eq_true, iff_true]
      simp only [askDoubts, Bool.not_true, Bool.false_eq_true, if_false]
      split
      · exact ⟨_, rfl⟩
      · exact ⟨_, rfl⟩

/-! ## Theorems: the body posted when notes are saved -/

/-- C20 (the code at the failing input): for the selected video
`{id: "v1", title: "Intro"}` and the notes `# Notes`, the posted body is
`{type: "note", videoId: {videoId: "v1", videoTitle: "Intro", content: "# Notes"}}`;
it has no `videoTitle` and no `text` property, and its `videoId` is not the id. -/
theorem handleSaveToSheet_body :
    handleSaveToSheet (some ("v1", "Intro")) "# Notes"
        = some (JVal.obj [("type", JVal.str "note"),
            ("videoId", JVal.obj [("videoId", JVal.str "v1"), ("videoTitle", JVal.str "Intro"),
              ("content", JVal.str "# Notes")])]) ∧
      handleSaveToSheet (some ("v1", "Intro")) "# Notes"
        ≠ some (JVal.obj [("type", JVal.str "note"), ("videoId", JVal.str "v1"),
            ("videoTitle", JVal.str "Intro"), ("text", JVal.str "# Notes")]) ∧
      saveNoteBody (some (JVal.str "v1")) (some (JVal.str "Intro")) (some (JVal.str "# Notes"))
        = JVal.obj [("type", JVal.str "note"), ("videoId", JVal.str "v1"),
            ("videoTitle", JVal.str "Intro"), ("text", JVal.str "# Notes")] := by
  refine ⟨rfl, ?_, rfl⟩
  intro h
  have h1 : handleSaveToSheet (some ("v1", "Intro")) "# Notes"
      = some (JVal.obj [("type", JVal.str "note"),
          ("videoId", JVal.obj [("videoId", JVal.str "v1"), ("videoTitle", JVal.str "Intro"),
            ("content", JVal.str "# Notes")])]) := rfl
  rw [h1] at h
  simp at h

/-! ## Theorems: the store invariant under the admin operations -/

theorem lookupKey_setKey {α : Type} (m : List (String × α)) (k k1 : String) (v : α) :
    lookupKey (setKey m k v) k1 = if k = k1 then some v else lookupKey m k1 := by
  induction m with
  | nil => simp [setKey, lookupKey]
  | cons e rest ih =>
    obtain ⟨k0, v0⟩ := e
    by_cases h0 : k0 = k
    · subst h0
      by_cases h1 : k0 = k1 <;> simp [setKey, lookupKey, h1]
    · by_cases h1 : k0 = k1
      · subst h1
        have hk : ¬ k = k0 := fun h => h0 h.symm
        simp [setKey, h0, lookupKey, hk]
      · simp [setKey, h0, lookupKey, h1, ih]

theorem lookupKey_eraseKey {α : Type} (m : List (String × α)) (k k1 : String) :
    lookupKey (eraseKey m k) k1 = if k = k1 then none else lookupKey m k1 := by
  induction m with
  | nil => simp [eraseKey, lookupKey]
  | cons e rest ih =>
    obtain ⟨k0, v0⟩ := e
    simp only [eraseKey] at ih
    by_cases h0 : k0 = k
    · subst h0
      by_cases h1 : k0 = k1
      · subst h1
        simpa [eraseKey, lookupKey] using ih
      · simpa [eraseKey, lookupKey, h1] using ih
    · by_cases h1 : k0 = k1
      · subst h1
        have hk : ¬ k = k0 := fun h => h0 h.symm
        simp [eraseKey, lookupKey, h0, hk]
      · simp [eraseKey, lookupKey, h0, h1, ih]

/-- The chapters that are visible after `handleAddContent` built its syllabus:
the target chapter holds its old items followed by the new one, every other
chapter is as before. -/
theorem chapterItems_addToSyllabus (syllabus : Syllabus) (subject chapter s c : String)
    (newItem : ContentItem) (items1 : List ContentItem)
    (h : chapterItems (addToSyllabus syllabus subject chapter newItem) s c = some items1) :
    (s = subject ∧ c = chapter ∧
        items1 = ((chapterItems syllabus subject chapter).getD []) ++ [newItem]) ∨
      chapterItems syllabus s c = some items1 := by
  simp only [chapterItems, addToSyllabus, lookupKey_setKey] at h
  by_cases hs : subject = s
  · subst hs
    simp only [if_true, lookupKey_setKey] at h
    by_cases hc : chapter = c
    · subst hc
      simp only [if_true, Option.some.injEq] at h
      left
      refine ⟨rfl, rfl, ?_⟩
      rw [← h]
      simp only [chapterItems]
      cases lookupKey syllabus subject with
      | none => simp [lookupKey]
      | some chapters => simp
    · simp only [hc, if_false] at h
      right
      simp only [chapterItems]
      cases hl : lookupKey syllabus subject with
      | none => rw [hl] at h; simp [lookupKey] at h
      | some chapters => rw [hl] at h; simpa using h
  · simp only [hs, if_false] at h
    right
    simpa [chapterItems] using h

/-- The chapters that are visible after `handleDelete` built its syllabus: the
target chapter holds its old items except those with the deleted id, every
other chapter is as before. -/
theorem chapterItems_removeFromSyllabus (syllabus : Syllabus) (subject chapter s c : String)
    (chapters : Chapters) (items : List ContentItem) (itemId : String)
    (items1 : List ContentItem)
    (hch : lookupKey syllabus subject = some chapters)
    (h : chapterItems (removeFromSyllabus syllabus subject chapter chapters items itemId) s c
      = some items1) :
    (s = subject ∧ c = chapter ∧ items1 = items.filter (fun i => i.id != itemId)) ∨
      ((s ≠ subject ∨ c ≠ chapter) ∧ chapterItems syllabus s c = some items1) := by
  have hB : ∀ kept : List ContentItem,
      lookupKey (if kept.length = 0 then eraseKey chapters chapter
        else setKey chapters chapter kept) c
        = if chapter = c then (if kept.length = 0 then none else some kept)
          else lookupKey chapters c := by
    intro kept
    by_cases hk : kept.length = 0 <;> by_cases hc : chapter = c <;>
      simp [hk, hc, lookupKey_eraseKey, lookupKey_setKey]
  have hA : ∀ chapters1 : Chapters,
      lookupKey (if chapters1.length = 0 then eraseKey syllabus subject
        else setKey syllabus subject chapters1) s
        = if subject = s then (if chapters1.length = 0 then none else some chapters1)
          else lookupKey syllabus s := by
    intro chapters1
    by_cases hk : chapters1.length = 0 <;> by_cases hs : subject = s <;>
      simp [hk, hs, lookupKey_eraseKey, lookupKey_setKey]
  simp only [chapterItems, removeFromSyllabus, hA] at h
  by_cases hs : subject = s
  · subst hs
    simp only [if_true] at h
    have hB1 := hB (items.filter (fun i => i.id != itemId))
    generalize (if (items.filter (fun i => i.id != itemId)).length = 0
      then eraseKey chapters chapter
      else setKey chapters chapter (items.filter (fun i => i.id != itemId))) = chapters1
      at h hB1
    by_cases hl : chapters1.length = 0
    · simp [hl] at h
    · simp only [hl, if_false] at h
      rw [hB1] at h
      by_cases hc : chapter = c
      · subst hc
        simp only [if_true] at h
        split at h
        · simp at h
        · simp only [Option.some.injEq] at h
          exact Or.inl ⟨rfl, rfl, h.symm⟩
      · simp only [hc, if_false] at h
        exact Or.inr ⟨Or.inr (fun hcc => hc hcc.symm), by simp only [chapterItems, hch]; exact h⟩
  · simp only [hs, if_false] at h
    exact Or.inr ⟨Or.inl (fun hss => hs hss.symm), by simp only [chapterItems]; exact h⟩

theorem updateSyllabus_batches (db : Db) (batchId b : String) (syllabus syllabus1 : Syllabus)
    (h : (updateSyllabus db batchId syllabus).batches b = some syllabus1) :
    (b = batchId ∧ syllabus1 = syllabus ∧ ∃ old, db.batches batchId = some old) ∨
      (db.batches b = some syllabus1 ∧ (b ≠ batchId ∨ db.batches batchId = none)) := by
  unfold updateSyllabus at h
  cases hb : db.batches batchId with
  | none => rw [hb] at h; exact Or.inr ⟨h, Or.inr rfl⟩
  | some old =>
    rw [hb] at h
    simp only at h
    by_cases hbb : b = batchId
    · simp only [hbb, if_true, Option.some.injEq] at h
      exact Or.inl ⟨hbb, h.symm, old, rfl⟩
    · simp only [hbb, if_false] at h
      exact Or.inr ⟨h, Or.inl hbb⟩

/-- The chapters that are visible after one chapter of a syllabus was assigned:
the target chapter holds the assigned items, every other chapter is as before. -/
theorem chapterItems_setChapter (syllabus : Syllabus) (subject chapter s c : String)
    (newItems items1 : List ContentItem)
    (h : chapterItems
      (setKey syllabus subject (setKey ((lookupKey syllabus subject).getD []) chapter newItems))
      s c = some items1) :
    (s = subject ∧ c = chapter ∧ items1 = newItems) ∨ chapterItems syllabus s c = some items1 := by
  simp only [chapterItems, lookupKey_setKey] at h
  by_cases hs : subject = s
  · subst hs
    simp only [if_true, lookupKey_setKey] at h
    by_cases hc : chapter = c
    · subst hc
      simp only [if_true, Option.some.injEq] at h
      exact Or.inl ⟨rfl, rfl, h.symm⟩
    · simp only [hc, if_false] at h
      right
      simp only [chapterItems]
      cases hl : lookupKey syllabus subject with
      | none => rw [hl] at h; simp [lookupKey] at h
      | some chapters => rw [hl] at h; simpa using h
  · simp only [hs, if_false] at h
    right
    simpa [chapterItems] using h

theorem updateSyllabus_secure (db : Db) (batchId : String) (syllabus : Syllabus) :
    (updateSyllabus db batchId syllabus).secure_videos = db.secure_videos := by
  unfold updateSyllabus
  cases db.batches batchId <;> rfl

theorem emptyBatchDb_secured : VideoItemsSecured emptyBatchDb := by
  intro b syllabus subject chapter items item hb hitems _ _
  have hs : syllabus = [] := by
    simp only [emptyBatchDb] at hb
    split at hb
    · exact (Option.some.inj hb).symm
    · exact absurd hb (by simp)
  subst hs
  simp [chapterItems, lookupKey] at hitems

/-- C19 (as stated, refuted): the store with the single batch `b1`, an empty
syllabus and no secured video satisfies the invariant; after
`courseService.addContent` has added a video to it (its write succeeding), the
syllabus holds a video item `id-1` that has no `secure_videos` record. -/
theorem addContent_breaks_invariant :
    VideoItemsSecured emptyBatchDb ∧
      ¬ VideoItemsSecured
        (addContent "b1" legacyVideoData "id-1" "2024-01-01T00:00:00.000Z" true emptyBatchDb) := by
  refine ⟨emptyBatchDb_secured, ?_⟩
  intro h
  obtain ⟨v, hv⟩ := h "b1"
    [("Maths", [("Algebra",
      [{ id := "id-1", title := some "Intro", type := some "video",
         url := some "https://cdn.example/intro.mp4", notesUrl := none,
         createdAt := "2024-01-01T00:00:00.000Z" }])])]
    "Maths" "Algebra"
    [{ id := "id-1", title := some "Intro", type := some "video",
       url := some "https://cdn.example/intro.mp4", notesUrl := none,
       createdAt := "2024-01-01T00:00:00.000Z" }]
    { id := "id-1", title := some "Intro", type := some "video",
      url := some "https://cdn.example/intro.mp4", notesUrl := none,
      createdAt := "2024-01-01T00:00:00.000Z" }
    (by decide) (by decide) (by simp) rfl
  exact absurd hv (by simp [addContent, emptyBatchDb, updateSyllabus])

/-- C19 (amended): from a store that satisfies the invariant,
`BatchContent.handleAddContent` run on the stored syllabus leads to a store that
satisfies it, whatever writes succeed; so does `BatchContent.handleDelete` run
on the stored syllabus when its syllabus write succeeds and no video item
outside the target chapter has the deleted id; so does
`courseService.addContent` when the added content is not of type video. -/
theorem admin_ops_preserve_invariant (db : Db) (batchId : String) (syllabus : Syllabus)
    (hinv : VideoItemsSecured db) (hsync : db.batches batchId = some syllabus) :
    (∀ (formData : ContentForm) (contentId now1 now2 : String) (setDocOk updateDocOk : Bool),
        VideoItemsSecured
          (handleAddContent batchId syllabus formData contentId now1 now2 setDocOk updateDocOk
            db)) ∧
      (∀ (subject chapter itemId type : String) (confirmed deleteDocOk : Bool),
        (∀ (b : String) (syl : Syllabus) (s c : String) (items : List ContentItem)
            (item : ContentItem), db.batches b = some syl → chapterItems syl s c = some items →
            item ∈ items → item.type = some "video" → item.id = itemId →
            b = batchId ∧ s = subject ∧ c = chapter) →
        VideoItemsSecured
          (handleDelete batchId syllabus subject chapter itemId type confirmed deleteDocOk true
            db)) ∧
      (∀ (data : ContentData) (uuid now : String) (updateDocOk : Bool),
        data.type ≠ some "video" →
        VideoItemsSecured (addContent batchId data uuid now updateDocOk db)) := by
  refine ⟨?_, ?_, ?_⟩
  · intro formData contentId now1 now2 setDocOk updateDocOk
    unfold handleAddContent
    split
    · exact hinv
    · by_cases hvid : formData.type = "video"
      · cases setDocOk with
        | false => simpa [hvid] using hinv
        | true =>
          simp only [hvid, if_true]
          have hsec : ∀ id v, db.secure_videos id = some v →
              ∃ w, (setSecureVideo db contentId
                { url := some formData.url, batchId := some batchId,
                  title := some formData.title, createdAt := some now1 }).secure_videos id
                = some w := by
            intro id v hv
            simp only [setSecureVideo]
            split
            · exact ⟨_, rfl⟩
            · exact ⟨v, hv⟩
          cases updateDocOk with
          | false =>
            intro b syl s c items item hb hitems hmem htype
            obtain ⟨v, hv⟩ := hinv b syl s c items item hb hitems hmem htype
            exact hsec _ v hv
          | true =>
            intro b syl s c items item hb hitems hmem htype
            simp only [if_true] at hb ⊢
            rw [updateSyllabus_secure]
            rcases updateSyllabus_batches _ _ _ _ _ hb with ⟨_, hsyl, _⟩ | ⟨hold, _⟩
            · subst hsyl
              rcases chapterItems_addToSyllabus _ _ _ _ _ _ _ hitems with ⟨_, _, hnew⟩ | hold
              · subst hnew
                rcases List.mem_append.mp hmem with hin | hin
                · cases hci : chapterItems syllabus formData.subject formData.chapter with
                  | none => rw [hci] at hin; simp at hin
                  | some old =>
                    rw [hci] at hin
                    obtain ⟨v, hv⟩ := hinv batchId syllabus _ _ old item hsync hci hin htype
                    exact hsec _ v hv
                · have hitem := List.mem_singleton.mp hin
                  subst hitem
                  simp [setSecureVideo]
              · obtain ⟨v, hv⟩ := hinv batchId syllabus s c items item hsync hold hmem htype
                exact hsec _ v hv
            · obtain ⟨v, hv⟩ := hinv b syl s c items item hold hitems hmem htype
              exact hsec _ v hv
      · simp only [hvid, if_false]
        cases updateDocOk with
        | false => simpa using hinv
        | true =>
          intro b syl s c items item hb hitems hmem htype
          simp only [if_true] at hb ⊢
          rw [updateSyllabus_secure]
          rcases updateSyllabus_batches _ _ _ _ _ hb with ⟨_, hsyl, _⟩ | ⟨hold, _⟩
          · subst hsyl
            rcases chapterItems_addToSyllabus _ _ _ _ _ _ _ hitems with ⟨_, _, hnew⟩ | hold
            · subst hnew
              rcases List.mem_append.mp hmem with hin | hin
              · cases hci : chapterItems syllabus formData.subject formData.chapter with
                | none => rw [hci] at hin; simp at hin
                | some old =>
                  rw [hci] at hin
                  exact hinv batchId syllabus _ _ old item hsync hci hin htype
              · have hitem := List.mem_singleton.mp hin
                subst hitem
                simp only [Option.some.injEq] at htype
                exact absurd htype hvid
            · exact hinv batchId syllabus s c items item hsync hold hmem htype
          · exact hinv b syl s c items item hold hitems hmem htype
  · intro subject chapter itemId type confirmed deleteDocOk hout
    unfold handleDelete
    split
    · exact hinv
    · -- the store after the optional `deleteDoc`
      have hdel : ∀ (db1 : Db), (db1 = deleteSecureVideo db itemId ∨ db1 = db) →
          ∀ (b : String) (syl : Syllabus) (s c : String) (items : List ContentItem)
            (item : ContentItem), db.batches b = some syl → chapterItems syl s c = some items →
            item ∈ items → item.type = some "video" →
            (b = batchId → s = subject → c = chapter → item.id ≠ itemId) →
            ∃ v, db1.secure_videos item.id = some v := by
        intro db1 hdb1 b syl s c items item hb hitems hmem htype hne
        obtain ⟨v, hv⟩ := hinv b syl s c items item hb hitems hmem htype
        rcases hdb1 with h1 | h1
        · subst h1
          simp only [deleteSecureVideo]
          by_cases hid : item.id = itemId
          · obtain ⟨h1, h2, h3⟩ := hout b syl s c items item hb hitems hmem htype hid
            exact absurd hid (hne h1 h2 h3)
          · simp only [hid, if_false]
            exact ⟨v, hv⟩
        · subst h1
          exact ⟨v, hv⟩
      generalize hdb1 : (if (type = "video" && deleteDocOk) = true
        then deleteSecureVideo db itemId else db) = db1
      have hcase : db1 = deleteSecureVideo db itemId ∨ db1 = db := by
        rw [← hdb1]
        split
        · exact Or.inl rfl
        · exact Or.inr rfl
      have hbat : db1.batches = db.batches := by
        rcases hcase with h1 | h1
        · rw [h1]; rfl
        · rw [h1]
      cases hch : lookupKey syllabus subject with
      | none =>
        simp only
        intro b syl s c items item hb hitems hmem htype
        rw [hbat] at hb
        refine hdel db1 hcase b syl s c items item hb hitems hmem htype ?_
        intro h1 h2 h3
        subst h1; subst h2; subst h3
        rw [hsync] at hb
        cases hb
        simp [chapterItems, hch] at hitems
      | some chapters =>
        simp only
        cases hci : lookupKey chapters chapter with
        | none =>
          simp only
          intro b syl s c items item hb hitems hmem htype
          rw [hbat] at hb
          refine hdel db1 hcase b syl s c items item hb hitems hmem htype ?_
          intro h1 h2 h3
          subst h1; subst h2; subst h3
          rw [hsync] at hb
          cases hb
          simp [chapterItems, hch, hci] at hitems
        | some items0 =>
          simp only [if_true]
          intro b syl s c items item hb hitems hmem htype
          rw [updateSyllabus_secure]
          rcases updateSyllabus_batches _ _ _ _ _ hb with ⟨hb1, hsyl, _⟩ | ⟨hold, hno⟩
          · subst hsyl
            rcases chapterItems_removeFromSyllabus _ _ _ _ _ _ _ _ _ hch hitems with
              ⟨_, _, hkept⟩ | ⟨hneq, hold⟩
            · subst hkept
              have hm := List.mem_filter.mp hmem
              have hid : item.id ≠ itemId := by simpa using hm.2
              have hci2 : chapterItems syllabus subject chapter = some items0 := by
                simp [chapterItems, hch, hci]
              exact hdel db1 hcase batchId syllabus subject chapter items0 item hsync hci2 hm.1
                htype (fun _ _ _ => hid)
            · refine hdel db1 hcase batchId syllabus s c items item hsync hold hmem htype ?_
              intro _ h2 h3
              rcases hneq with h | h
              · exact absurd h2 h
              · exact absurd h3 h
          · rw [hbat] at hold hno
            refine hdel db1 hcase b syl s c items item hold hitems hmem htype ?_
            intro h1 _ _
            rcases hno with h | h
            · exact absurd h1 h
            · rw [hsync] at h
              exact absurd h (by simp)
  · intro data uuid now updateDocOk htype0
    unfold addContent
    rw [hsync]
    simp only
    cases updateDocOk with
    | false => simpa using hinv
    | true =>
      simp only [if_true]
      intro b syl s c items item hb hitems hmem htype
      rw [updateSyllabus_secure]
      rcases updateSyllabus_batches _ _ _ _ _ hb with ⟨_, hsyl, _⟩ | ⟨hold, _⟩
      · subst hsyl
        rcases chapterItems_setChapter _ _ _ _ _ _ _ hitems with ⟨hs, hc, hnew⟩ | hold
        · subst hnew
          have hci : item ∈ (lookupKey ((lookupKey syllabus data.subject).getD [])
              data.chapter).getD [] := by
            split at hmem
            · exact hmem
            · rcases List.mem_append.mp hmem with hin | hin
              · exact hin
              · have hitem := List.mem_singleton.mp hin
                subst hitem
                exact absurd htype htype0
          cases hl : lookupKey syllabus data.subject with
          | none => rw [hl] at hci; simp [lookupKey] at hci
          | some chapters =>
            rw [hl] at hci
            simp only [Option.getD_some] at hci
            cases hl2 : lookupKey chapters data.chapter with
            | none => rw [hl2] at hci; simp at hci
            | some old =>
              rw [hl2] at hci
              have hci2 : chapterItems syllabus data.subject data.chapter = some old := by
                simp [chapterItems, hl, hl2]
              exact hinv batchId syllabus _ _ old item hsync hci2 hci htype
        · exact hinv batchId syllabus s c items item hsync hold hmem htype
      · exact hinv b syl s c items item hold hitems hmem htype

theorem sampleDb_batches (b : String) :
    sampleDb.batches b = if b = "b1" then some sampleSyllabus else none := by
  by_cases hb : b = "b1"
  · subst hb
    decide
  · simp [sampleDb, handleAddContent, videoForm, updateSyllabus, setSecureVideo, emptyBatchDb, hb]

/-- Witness for C19 (amended): from the empty batch `b1`, `handleAddContent`
adds the video `id-1`; on the resulting store, whose syllabus holds that one
item, `handleDelete` of `id-1` and `courseService.addContent` of a note keep the
invariant. -/
theorem admin_ops_preserve_invariant_witness :
    VideoItemsSecured emptyBatchDb ∧ emptyBatchDb.batches "b1" = some [] ∧
      VideoItemsSecured sampleDb ∧ sampleDb.batches "b1" = some sampleSyllabus ∧
      VideoItemsSecured
        (handleDelete "b1" sampleSyllabus "Maths" "Algebra" "id-1" "video" true true true
          sampleDb) ∧
      VideoItemsSecured
        (addContent "b1" { legacyVideoData with type := some "note" } "id-2"
          "2024-01-02T00:00:00.000Z" true sampleDb) :=
  have h0 := admin_ops_preserve_invariant emptyBatchDb "b1" [] emptyBatchDb_secured rfl
  have hinv1 : VideoItemsSecured sampleDb :=
    h0.1 videoForm "id-1" "2024-01-01T00:00:00.000Z" "2024-01-01T00:00:00.001Z" true true
  have hsync1 : sampleDb.batches "b1" = some sampleSyllabus := by decide
  have h1 := admin_ops_preserve_invariant sampleDb "b1" sampleSyllabus hinv1 hsync1
  ⟨emptyBatchDb_secured, rfl, hinv1, hsync1,
    h1.2.1 "Maths" "Algebra" "id-1" "video" true true (by
      intro b syl s c items item hb hitems _ _ _
      rw [sampleDb_batches] at hb
      by_cases hb1 : b = "b1"
      · simp only [hb1, if_true, Option.some.injEq] at hb
        subst hb
        refine ⟨hb1, ?_⟩
        by_cases hs : s = "Maths"
        · by_cases hc : c = "Algebra"
          · exact ⟨hs, hc⟩
          · have hc1 : ¬ "Algebra" = c := fun h => hc h.symm
            simp [chapterItems, sampleSyllabus, lookupKey, hs, hc1] at hitems
        · have hs1 : ¬ "Maths" = s := fun h => hs h.symm
          simp [chapterItems, sampleSyllabus, lookupKey, hs1] at hitems
      · simp [hb1] at hb),
    h1.2.2 { legacyVideoData with type := some "note" } "id-2" "2024-01-02T00:00:00.000Z" true
      (by decide)⟩

/-! ## Lemmas: a parsed value depends only on the text it consumes -/

theorem skipWs_idem (cs : List Char) : skipWs (skipWs cs) = skipWs cs := by
  induction cs with
  | nil => rfl
  | cons c cs ih =>
    by_cases h : isJsonWs c = true
    · simp only [skipWs, h, if_true, ih]
    · simp [skipWs, h]

theorem skipWs_split (cs : List Char) :
    ∃ w, cs = w ++ skipWs cs ∧ (∀ u, skipWs (w ++ skipWs u) = skipWs u) ∧
      (∀ c ∈ w, isJsonWs c = true) := by
  induction cs with
  | nil => exact ⟨[], rfl, fun u => skipWs_idem u, by simp⟩
  | cons c cs ih =>
    obtain ⟨w, hw, hskip, hall⟩ := ih
    by_cases h : isJsonWs c = true
    · refine ⟨c :: w, ?_, ?_, ?_⟩
      · simp only [skipWs, h, if_true, List.cons_append]
        rw [← hw]
      · intro u
        simp only [List.cons_append, skipWs, h, if_true]
        exact hskip u
      · intro d hd
        rcases List.mem_cons.mp hd with hd | hd
        · rw [hd]; exact h
        · exact hall d hd
    · refine ⟨[], ?_, fun u => skipWs_idem u, by simp⟩
      simp [skipWs, h]

theorem skipWs_of_head (c : Char) (cs : List Char) (h : isJsonWs c = false) :
    skipWs (c :: cs) = c :: cs := by
  simp [skipWs, h]

theorem isJsonWs_imp_js (c : Char) (h : isJsonWs c = true) : isJsWhitespace c = true := by
  simp only [isJsonWs, Bool.or_eq_true, decide_eq_true_eq] at h
  simp only [isJsWhitespace, Bool.or_eq_true, decide_eq_true_eq, Bool.and_eq_true]
  rcases h with ((h | h) | h) | h
  · subst h; decide
  · simp [h]
  · simp [h]
  · simp [h]

theorem not_js_imp_not_json (c : Char) (h : isJsWhitespace c = false) : isJsonWs c = false := by
  cases hj : isJsonWs c with
  | false => rfl
  | true => rw [isJsonWs_imp_js c hj] at h; exact absurd h (by decide)

theorem digit_not_ws (c : Char) (h : 48 ≤ c.toNat ∧ c.toNat ≤ 57) : isJsWhitespace c = false := by
  cases hw : isJsWhitespace c with
  | false => rfl
  | true =>
    simp only [isJsWhitespace, Bool.or_eq_true, decide_eq_true_eq, Bool.and_eq_true] at hw
    omega

theorem delim_not_digit (c : Char) (t : List Char) (h : delimStart (c :: t) = true) :
    ¬ (48 ≤ c.toNat ∧ c.toNat ≤ 57) := by
  simp only [delimStart, isJsonWs, Bool.or_eq_true, decide_eq_true_eq] at h
  intro hd
  rcases h with (((((h | h) | h) | h) | h) | h) | h <;>
    first
    | omega
    | (subst h; exact absurd hd (by decide))

theorem endsSolid_append (x a : List Char) (h : EndsSolid a) : EndsSolid (x ++ a) := by
  obtain ⟨a0, c, ha, hc⟩ := h
  exact ⟨x ++ a0, c, by rw [ha, List.append_assoc], hc⟩

theorem endsSolid_cons (x : Char) (a : List Char) (h : EndsSolid a) : EndsSolid (x :: a) :=
  endsSolid_append [x] a h

theorem endsSolid_digits (ds : List Char) (hne : ds ≠ [])
    (hd : ∀ c ∈ ds, 48 ≤ c.toNat ∧ c.toNat ≤ 57) : EndsSolid ds := by
  refine ⟨ds.dropLast, ds.getLast hne, (List.dropLast_append_getLast hne).symm, ?_⟩
  exact digit_not_ws _ (hd _ (List.getLast_mem hne))

theorem delim_numStop (t : List Char) (h : delimStart t = true) : numStop t = true := by
  cases t with
  | nil => rfl
  | cons c t =>
    have hd := delim_not_digit c t h
    simp only [delimStart, isJsonWs, Bool.or_eq_true, decide_eq_true_eq] at h
    simp only [numStop, isDigitChar, Bool.and_eq_true, Bool.not_eq_true', decide_eq_false_iff_not,
      bne_iff_ne, ne_eq]
    refine ⟨⟨⟨hd, ?_⟩, ?_⟩, ?_⟩ <;>
    · intro hc
      subst hc
      revert h
      decide

theorem numStop_fracStop (t : List Char) (h : numStop t = true) : fracStop t = true := by
  cases t with
  | nil => rfl
  | cons c t =>
    simp only [numStop, Bool.and_eq_true] at h
    simp only [fracStop, Bool.and_eq_true]
    exact ⟨h.1.1.1, h.1.1.2⟩

theorem fracStop_noDigitHead (t : List Char) (h : fracStop t = true) : noDigitHead t = true := by
  cases t with
  | nil => rfl
  | cons c t =>
    simp only [fracStop, Bool.and_eq_true] at h
    exact h.1

theorem takeDigits_local (cs : List Char) :
    cs = (takeDigits cs).1 ++ (takeDigits cs).2 ∧
      (∀ c ∈ (takeDigits cs).1, 48 ≤ c.toNat ∧ c.toNat ≤ 57) ∧
      ∀ t, noDigitHead t = true → takeDigits ((takeDigits cs).1 ++ t) = ((takeDigits cs).1, t) := by
  induction cs with
  | nil =>
    refine ⟨rfl, by simp [takeDigits], ?_⟩
    intro t ht
    cases t with
    | nil => rfl
    | cons c t =>
      simp only [noDigitHead, isDigitChar, Bool.not_eq_true', decide_eq_false_iff_not] at ht
      simp [takeDigits, ht]
  | cons c cs ih =>
    obtain ⟨h1, h2, h3⟩ := ih
    by_cases hc : 48 ≤ c.toNat ∧ c.toNat ≤ 57
    · have htd : takeDigits (c :: cs) = (c :: (takeDigits cs).1, (takeDigits cs).2) := by
        simp only [takeDigits, hc, and_self, if_true]
      rw [htd]
      refine ⟨by simp only [List.cons_append]; rw [← h1], ?_, ?_⟩
      · intro d hd
        rcases List.mem_cons.mp hd with hd | hd
        · rw [hd]; exact hc
        · exact h2 d hd
      · intro t ht
        have h4 := h3 t ht
        have h5 : ∀ l : List Char, takeDigits (c :: l) = (c :: (takeDigits l).1, (takeDigits l).2) := by
          intro l
          simp only [takeDigits, hc, and_self, if_true]
        rw [List.cons_append, h5, h4]
    · have htd : takeDigits (c :: cs) = ([], c :: cs) := by
        simp only [takeDigits, hc, if_false]
      rw [htd]
      refine ⟨rfl, by simp, ?_⟩
      intro t ht
      cases t with
      | nil => rfl
      | cons d t =>
        simp only [noDigitHead, isDigitChar, Bool.not_eq_true', decide_eq_false_iff_not] at ht
        simp [takeDigits, ht]

theorem takeDigits_eq (cs ds rest : List Char) (h : takeDigits cs = (ds, rest)) :
    cs = ds ++ rest ∧ (∀ c ∈ ds, 48 ≤ c.toNat ∧ c.toNat ≤ 57) ∧
      ∀ t, noDigitHead t = true → takeDigits (ds ++ t) = (ds, t) := by
  have hl := takeDigits_local cs
  rw [h] at hl
  exact hl

theorem takeInt_local (cs ids cs1 : List Char) (h : takeInt cs = (ids, cs1)) :
    cs = ids ++ cs1 ∧ (∀ c ∈ ids, 48 ≤ c.toNat ∧ c.toNat ≤ 57) ∧
      ∀ t, noDigitHead t = true → ids ≠ [] → takeInt (ids ++ t) = (ids, t) := by
  unfold takeInt at h
  split at h
  · rename_i cs0
    simp only [Prod.mk.injEq] at h
    obtain ⟨h1, h2⟩ := h
    subst h1; subst h2
    refine ⟨rfl, ?_, ?_⟩
    · intro c hc
      rw [List.mem_singleton.mp hc]
      decide
    · intro t _ _
      simp [takeInt]
  · rename_i hno
    obtain ⟨h1, h2, h3⟩ := takeDigits_eq _ _ _ h
    refine ⟨h1, h2, ?_⟩
    intro t ht hne
    unfold takeInt
    split
    · rename_i x heq
      cases ids with
      | nil => exact absurd rfl hne
      | cons d ids1 =>
        simp only [List.cons_append, List.cons.injEq] at heq
        exfalso
        apply hno (ids1 ++ cs1)
        rw [h1, List.cons_append, ← heq.1]
    · exact h3 t ht

theorem takeFrac_local (cs fds rest : List Char) (h : takeFrac cs = some (fds, rest)) :
    ∃ a, cs = a ++ rest ∧ (a = [] ∨ (EndsSolid a ∧ ∃ x, a = '.' :: x)) ∧
      ∀ t, fracStop t = true → takeFrac (a ++ t) = some (fds, t) := by
  unfold takeFrac at h
  split at h
  · rename_i cs0
    split at h
    · simp at h
    · rename_i ds r hno heq
      simp only [Option.some.injEq, Prod.mk.injEq] at h
      obtain ⟨hf, hr⟩ := h
      subst hf; subst hr
      obtain ⟨h1, h2, h3⟩ := takeDigits_eq _ _ _ heq
      have hne : ds ≠ [] := by
        intro hd
        subst hd
        exact hno rfl
      refine ⟨'.' :: ds, by rw [h1]; rfl, Or.inr ⟨endsSolid_cons _ _
        (endsSolid_digits ds hne h2), ds, rfl⟩, ?_⟩
      intro t ht
      have h4 := h3 t (fracStop_noDigitHead t ht)
      simp only [List.cons_append, takeFrac, h4]
  · rename_i hno
    simp only [Option.some.injEq, Prod.mk.injEq] at h
    obtain ⟨hf, hr⟩ := h
    subst hf; subst hr
    refine ⟨[], rfl, Or.inl rfl, ?_⟩
    intro t ht
    simp only [List.nil_append]
    cases t with
    | nil => rfl
    | cons c t =>
      simp only [fracStop, Bool.and_eq_true, bne_iff_ne, ne_eq] at ht
      unfold takeFrac
      split
      · rename_i x heq
        simp only [List.cons.injEq] at heq
        exact absurd heq.1 ht.2
      · rfl

theorem takeExpDigits_local (neg : Bool) (cs : List Char) (e : Int) (rest : List Char)
    (h : takeExpDigits neg cs = some (e, rest)) :
    ∃ ds, cs = ds ++ rest ∧ ds ≠ [] ∧ (∀ c ∈ ds, 48 ≤ c.toNat ∧ c.toNat ≤ 57) ∧
      ∀ t, noDigitHead t = true → takeExpDigits neg (ds ++ t) = some (e, t) := by
  unfold takeExpDigits at h
  split at h
  · simp at h
  · rename_i ds r hno heq
    simp only [Option.some.injEq, Prod.mk.injEq] at h
    obtain ⟨he, hr⟩ := h
    subst hr
    obtain ⟨h1, h2, h3⟩ := takeDigits_eq _ _ _ heq
    have hne : ds ≠ [] := by
      intro hd
      subst hd
      exact hno rfl
    refine ⟨ds, h1, hne, h2, ?_⟩
    intro t ht
    have h4 := h3 t ht
    simp only [takeExpDigits, h4]
    cases ds with
    | nil => exact absurd rfl hne
    | cons d ds1 => simp only [he]

theorem digit_head_facts (d : Char) (hd : 48 ≤ d.toNat ∧ d.toNat ≤ 57) :
    d ≠ '-' ∧ d ≠ '+' ∧ d ≠ 'e' ∧ d ≠ 'E' ∧ d ≠ '.' := by
  refine ⟨?_, ?_, ?_, ?_, ?_⟩ <;>
  · intro h
    subst h
    exact absurd hd (by decide)

theorem takeExp_signed (c s : Char) (neg : Bool) (cs : List Char) (e : Int) (rest : List Char)
    (hstep : ∀ l, takeExp (c :: s :: l) = takeExpDigits neg l)
    (hc : c = 'e' ∨ c = 'E')
    (h : takeExpDigits neg cs = some (e, rest)) :
    ∃ a, c :: s :: cs = a ++ rest ∧
      (a = [] ∨ (EndsSolid a ∧ ∃ c1 x, a = c1 :: x ∧ (c1 = 'e' ∨ c1 = 'E'))) ∧
      ∀ t, numStop t = true → takeExp (a ++ t) = some (e, t) := by
  obtain ⟨ds, h1, hne, h2, h3⟩ := takeExpDigits_local _ _ _ _ h
  refine ⟨c :: s :: ds, by rw [h1]; rfl,
    Or.inr ⟨endsSolid_cons _ _ (endsSolid_cons _ _ (endsSolid_digits ds hne h2)), c, _, rfl, hc⟩, ?_⟩
  intro t ht
  simp only [List.cons_append, hstep]
  exact h3 t (fracStop_noDigitHead t (numStop_fracStop t ht))

theorem takeExp_unsigned (c : Char) (cs : List Char) (e : Int) (rest : List Char)
    (hstep : ∀ d l, (48 ≤ d.toNat ∧ d.toNat ≤ 57) → takeExp (c :: d :: l) = takeExpDigits false (d :: l))
    (hc : c = 'e' ∨ c = 'E')
    (h : takeExpDigits false cs = some (e, rest)) :
    ∃ a, c :: cs = a ++ rest ∧
      (a = [] ∨ (EndsSolid a ∧ ∃ c1 x, a = c1 :: x ∧ (c1 = 'e' ∨ c1 = 'E'))) ∧
      ∀ t, numStop t = true → takeExp (a ++ t) = some (e, t) := by
  obtain ⟨ds, h1, hne, h2, h3⟩ := takeExpDigits_local _ _ _ _ h
  refine ⟨c :: ds, by rw [h1]; rfl,
    Or.inr ⟨endsSolid_cons _ _ (endsSolid_digits ds hne h2), c, _, rfl, hc⟩, ?_⟩
  intro t ht
  cases ds with
  | nil => exact absurd rfl hne
  | cons d ds1 =>
    simp only [List.cons_append]
    rw [hstep d _ (h2 d (List.mem_cons_self _ _))]
    exact h3 t (fracStop_noDigitHead t (numStop_fracStop t ht))

theorem takeExp_step_e (d : Char) (l : List Char) (hd : 48 ≤ d.toNat ∧ d.toNat ≤ 57) :
    takeExp ('e' :: d :: l) = takeExpDigits false (d :: l) := by
  obtain ⟨h1, h2, _, _, _⟩ := digit_head_facts d hd
  unfold takeExp
  split
  · rename_i heq
    simp only [List.cons.injEq, true_and] at heq
    exact absurd heq.1 h1
  · rename_i heq
    simp only [List.cons.injEq, true_and] at heq
    exact absurd heq.1 h2
  · rename_i heq
    simp only [List.cons.injEq, true_and] at heq
    rw [heq]
  · rename_i heq
    simp at heq
  · rename_i heq
    simp at heq
  · rename_i heq
    simp at heq
  · rename_i hno _ _ _
    exact absurd rfl (hno _)

theorem takeExp_step_E (d : Char) (l : List Char) (hd : 48 ≤ d.toNat ∧ d.toNat ≤ 57) :
    takeExp ('E' :: d :: l) = takeExpDigits false (d :: l) := by
  obtain ⟨h1, h2, _, _, _⟩ := digit_head_facts d hd
  unfold takeExp
  split
  · rename_i heq
    simp at heq
  · rename_i heq
    simp at heq
  · rename_i heq
    simp at heq
  · rename_i heq
    simp only [List.cons.injEq, true_and] at heq
    exact absurd heq.1 h1
  · rename_i heq
    simp only [List.cons.injEq, true_and] at heq
    exact absurd heq.1 h2
  · rename_i heq
    simp only [List.cons.injEq, true_and] at heq
    rw [heq]
  · rename_i hno
    exact absurd rfl (hno _)

theorem takeExp_stop (t : List Char) (ht : numStop t = true) : takeExp t = some (0, t) := by
  cases t with
  | nil => simp [takeExp]
  | cons c t =>
    simp only [numStop, Bool.and_eq_true, bne_iff_ne, ne_eq] at ht
    obtain ⟨⟨_, he⟩, hE⟩ := ht
    unfold takeExp
    split
    · rename_i heq; simp only [List.cons.injEq] at heq; exact absurd heq.1 he
    · rename_i heq; simp only [List.cons.injEq] at heq; exact absurd heq.1 he
    · rename_i heq; simp only [List.cons.injEq] at heq; exact absurd heq.1 he
    · rename_i heq; simp only [List.cons.injEq] at heq; exact absurd heq.1 hE
    · rename_i heq; simp only [List.cons.injEq] at heq; exact absurd heq.1 hE
    · rename_i heq; simp only [List.cons.injEq] at heq; exact absurd heq.1 hE
    · rfl

theorem takeExp_local (cs : List Char) (e : Int) (rest : List Char)
    (h : takeExp cs = some (e, rest)) :
    ∃ a, cs = a ++ rest ∧
      (a = [] ∨ (EndsSolid a ∧ ∃ c1 x, a = c1 :: x ∧ (c1 = 'e' ∨ c1 = 'E'))) ∧
      ∀ t, numStop t = true → takeExp (a ++ t) = some (e, t) := by
  unfold takeExp at h
  split at h
  · exact takeExp_signed 'e' '-' true _ e rest (fun l => by simp [takeExp]) (Or.inl rfl) h
  · exact takeExp_signed 'e' '+' false _ e rest (fun l => by simp [takeExp]) (Or.inl rfl) h
  · exact takeExp_unsigned 'e' _ e rest (fun d l hd => takeExp_step_e d l hd) (Or.inl rfl) h
  · exact takeExp_signed 'E' '-' true _ e rest (fun l => by simp [takeExp]) (Or.inr rfl) h
  · exact takeExp_signed 'E' '+' false _ e rest (fun l => by simp [takeExp]) (Or.inr rfl) h
  · exact takeExp_unsigned 'E' _ e rest (fun d l hd => takeExp_step_E d l hd) (Or.inr rfl) h
  · simp only [Option.some.injEq, Prod.mk.injEq] at h
    obtain ⟨he, hr⟩ := h
    subst he; subst hr
    exact ⟨[], rfl, Or.inl rfl, fun t ht => takeExp_stop t ht⟩

theorem noDigitHead_of_head (c : Char) (x t : List Char)
    (hc : ¬ (48 ≤ c.toNat ∧ c.toNat ≤ 57)) : noDigitHead (c :: x ++ t) = true := by
  simp only [List.cons_append, noDigitHead, isDigitChar, Bool.not_eq_true',
    decide_eq_false_iff_not]
  exact hc

theorem parseUnsigned_local (neg : Bool) (cs : List Char) (v : JVal) (rest : List Char)
    (h : parseUnsigned neg cs = some (v, rest)) :
    ∃ a, cs = a ++ rest ∧ EndsSolid a ∧ (∃ d x, a = d :: x ∧ (48 ≤ d.toNat ∧ d.toNat ≤ 57)) ∧
      ∀ t, numStop t = true → parseUnsigned neg (a ++ t) = some (v, t) := by
  unfold parseUnsigned at h
  split at h
  · simp at h
  · rename_i ids cs1 hne heq
    obtain ⟨hi1, hi2, hi3⟩ := takeInt_local _ _ _ heq
    have hine : ids ≠ [] := fun hd => hne (by rw [hd])
    split at h
    · simp at h
    · rename_i fds cs2 hf
      obtain ⟨aF, hf1, hf2, hf3⟩ := takeFrac_local _ _ _ hf
      split at h
      · simp at h
      · rename_i e cs3 he
        obtain ⟨aE, he1, he2, he3⟩ := takeExp_local _ _ _ he
        simp only [Option.some.injEq, Prod.mk.injEq] at h
        obtain ⟨hv, hr⟩ := h
        subst hr
        have hids : EndsSolid ids := endsSolid_digits ids hine hi2
        refine ⟨ids ++ (aF ++ aE), ?_, ?_, ?_, ?_⟩
        · rw [hi1, hf1, he1]
          simp only [List.append_assoc]
        · rcases he2 with hE | ⟨hE, _⟩
          · subst hE
            rcases hf2 with hF | ⟨hF, _⟩
            · subst hF
              simpa using hids
            · simp only [List.append_nil]
              exact endsSolid_append _ _ hF
          · rw [← List.append_assoc]
            exact endsSolid_append _ _ hE
        · cases ids with
          | nil => exact absurd rfl hine
          | cons d ids1 => exact ⟨d, _, rfl, hi2 d (List.mem_cons_self _ _)⟩
        · intro t ht
          -- what follows the exponent, the fraction and the integer part
          have hsE : fracStop (aE ++ t) = true := by
            rcases he2 with hE | ⟨_, c1, x, hE, hc1⟩
            · subst hE
              exact numStop_fracStop t ht
            · subst hE
              rcases hc1 with hc1 | hc1 <;> subst hc1 <;> rfl
          have hsF : noDigitHead (aF ++ (aE ++ t)) = true := by
            rcases hf2 with hF | ⟨_, x, hF⟩
            · subst hF
              exact fracStop_noDigitHead _ hsE
            · subst hF
              rfl
          have h1 := hi3 (aF ++ (aE ++ t)) hsF hine
          have h2 := hf3 (aE ++ t) hsE
          have h3 := he3 t ht
          simp only [List.append_assoc]
          unfold parseUnsigned
          rw [h1]
          cases ids with
          | nil => exact absurd rfl hine
          | cons d ids1 =>
            simp only [h2, h3]
            rw [hv]

theorem parseNumber_local (cs : List Char) (v : JVal) (rest : List Char)
    (h : parseNumber cs = some (v, rest)) :
    ∃ a, cs = a ++ rest ∧ EndsSolid a ∧
      (∃ c x, a = c :: x ∧ (c = '-' ∨ (48 ≤ c.toNat ∧ c.toNat ≤ 57))) ∧
      ∀ t, numStop t = true → parseNumber (a ++ t) = some (v, t) := by
  unfold parseNumber at h
  split at h
  · rename_i cs0
    obtain ⟨a, h1, h2, _, h4⟩ := parseUnsigned_local _ _ _ _ h
    refine ⟨'-' :: a, by rw [h1]; rfl, endsSolid_cons _ _ h2, ⟨'-', a, rfl, Or.inl rfl⟩, ?_⟩
    intro t ht
    simp only [List.cons_append, parseNumber]
    exact h4 t ht
  · rename_i hno
    obtain ⟨a, h1, h2, ⟨d, x, h3, hd⟩, h4⟩ := parseUnsigned_local _ _ _ _ h
    refine ⟨a, h1, h2, ⟨d, x, h3, Or.inr hd⟩, ?_⟩
    intro t ht
    unfold parseNumber
    split
    · rename_i y heq
      rw [h3] at heq
      simp only [List.cons_append, List.cons.injEq] at heq
      exact absurd heq.1.symm (digit_head_facts d hd).1.symm
    · exact h4 t ht

theorem quoteChar_not_ws : isJsWhitespace quoteChar = false := by decide

theorem backslash_ne_quote : ¬ backslash = quoteChar := by decide

theorem parseStringBody_quote (t : List Char) (acc : List Nat) :
    parseStringBody (quoteChar :: t) acc = some (String.mk (unitsToChars acc.reverse), t) := by
  unfold parseStringBody
  simp

theorem parseStringBody_plain (c : Char) (l : List Char) (acc : List Nat)
    (hq : ¬ c = quoteChar) (hb : ¬ c = backslash) :
    parseStringBody (c :: l) acc
      = if c.toNat < 32 then none else parseStringBody l (c.toNat :: acc) := by
  conv => lhs; unfold parseStringBody
  simp only [hq, hb, if_false]

theorem parseStringBody_unicode (h1 h2 h3 h4 : Char) (l : List Char) (acc : List Nat) :
    parseStringBody (backslash :: 'u' :: h1 :: h2 :: h3 :: h4 :: l) acc
      = match hex4 h1 h2 h3 h4 with
        | some n => parseStringBody l (n :: acc)
        | none => none := by
  conv => lhs; unfold parseStringBody
  simp only [backslash_ne_quote, if_false, if_true]

theorem parseStringBody_escape (e : Char) (l : List Char) (acc : List Nat) (he : ¬ e = 'u') :
    parseStringBody (backslash :: e :: l) acc
      = match escapeChar e with
        | some ch => parseStringBody l (ch.toNat :: acc)
        | none => none := by
  conv => lhs; unfold parseStringBody
  simp only [backslash_ne_quote, if_false, if_true]
  split
  · rename_i heq
    simp at heq
  · rename_i heq
    simp only [List.cons.injEq] at heq
    exact absurd heq.1 he
  · rename_i e1 rest1 _ heq
    simp only [List.cons.injEq] at heq
    obtain ⟨he1, hr1⟩ := heq
    subst he1; subst hr1
    rfl

theorem parseStringBody_local :
    ∀ (n : Nat) (cs : List Char) (acc : List Nat) (s : String) (rest : List Char),
      cs.length ≤ n → parseStringBody cs acc = some (s, rest) →
      ∃ a, cs = a ++ rest ∧ EndsSolid a ∧ ∀ t, parseStringBody (a ++ t) acc = some (s, t) := by
  intro n
  induction n with
  | zero =>
    intro cs acc s rest hlen h
    have : cs = [] := List.length_eq_zero.mp (Nat.le_zero.mp hlen)
    subst this
    simp [parseStringBody] at h
  | succ n ih =>
    intro cs acc s rest hlen h
    cases cs with
    | nil => simp [parseStringBody] at h
    | cons c cs =>
      simp only [List.length_cons] at hlen
      unfold parseStringBody at h
      split at h
      · rename_i hq
        simp only [Option.some.injEq, Prod.mk.injEq] at h
        obtain ⟨hs, hr⟩ := h
        subst hr
        refine ⟨[c], rfl, ⟨[], c, rfl, by rw [hq]; exact quoteChar_not_ws⟩, ?_⟩
        intro t
        rw [hq, List.singleton_append, parseStringBody_quote, hs]
      · rename_i hq
        split at h
        · rename_i hb
          split at h
          · simp at h
          · rename_i h1 h2 h3 h4 rest0
            split at h
            · rename_i n0 hhex
              obtain ⟨a, ha1, ha2, ha3⟩ :=
                ih _ _ _ _ (by simp only [List.length_cons] at hlen; omega) h
              refine ⟨c :: 'u' :: h1 :: h2 :: h3 :: h4 :: a, by rw [ha1]; rfl,
                endsSolid_append [c, 'u', h1, h2, h3, h4] a ha2, ?_⟩
              intro t
              rw [hb]
              simp only [List.cons_append]
              rw [parseStringBody_unicode, hhex]
              exact ha3 t
            · simp at h
          · rename_i e rest0 hnou
            split at h
            · rename_i ch hesc
              obtain ⟨a, ha1, ha2, ha3⟩ :=
                ih _ _ _ _ (by simp only [List.length_cons] at hlen; omega) h
              refine ⟨c :: e :: a, by rw [ha1]; rfl, endsSolid_append [c, e] a ha2, ?_⟩
              intro t
              have heu : ¬ e = 'u' := by
                intro heu
                subst heu
                have hnone : escapeChar 'u' = none := by decide
                rw [hnone] at hesc
                exact absurd hesc (by simp)
              rw [hb]
              simp only [List.cons_append]
              rw [parseStringBody_escape _ _ _ heu, hesc]
              exact ha3 t
            · simp at h
        · rename_i hb
          split at h
          · simp at h
          · rename_i hctl
            obtain ⟨a, ha1, ha2, ha3⟩ := ih _ _ _ _ (by omega) h
            refine ⟨c :: a, by rw [ha1]; rfl, endsSolid_cons c a ha2, ?_⟩
            intro t
            simp only [List.cons_append]
            rw [parseStringBody_plain _ _ _ hq hb]
            simp only [hctl, if_false]
            exact ha3 t

theorem skipWs_append_ws (w u : List Char) (hw : ∀ c ∈ w, isJsonWs c = true) :
    skipWs (w ++ u) = skipWs u := by
  induction w with
  | nil => rfl
  | cons c w ih =>
    have hc := hw c (List.mem_cons_self _ _)
    simp only [List.cons_append, skipWs, hc, if_true]
    exact ih (fun d hd => hw d (List.mem_cons_of_mem _ hd))

theorem skipWs_ws_split (cs : List Char) :
    ∃ w, cs = w ++ skipWs cs ∧ (∀ c ∈ w, isJsonWs c = true) := by
  obtain ⟨w, h1, _, h3⟩ := skipWs_split cs
  exact ⟨w, h1, h3⟩

theorem skipWs_solid (a t : List Char) (ha : StartsSolid a) : skipWs (a ++ t) = a ++ t := by
  obtain ⟨c, a1, h, hc⟩ := ha
  subst h
  exact skipWs_of_head c _ (not_js_imp_not_json c hc)

theorem parseValue_ws (f : Nat) (w u : List Char) (hw : ∀ c ∈ w, isJsonWs c = true) :
    parseValue f (w ++ u) = parseValue f u := by
  cases f with
  | zero => simp [parseValue]
  | succ f =>
    conv => lhs; unfold parseValue
    conv => rhs; unfold parseValue
    rw [skipWs_append_ws w u hw]

theorem parseElements_ws (f : Nat) (w u : List Char) (acc : List JVal)
    (hw : ∀ c ∈ w, isJsonWs c = true) :
    parseElements f (w ++ u) acc = parseElements f u acc := by
  cases f with
  | zero => simp [parseElements]
  | succ f =>
    conv => lhs; unfold parseElements
    conv => rhs; unfold parseElements
    rw [parseValue_ws f w u hw]

theorem parseMembers_ws (f : Nat) (w u : List Char) (acc : List (String × JVal))
    (hw : ∀ c ∈ w, isJsonWs c = true) :
    parseMembers f (w ++ u) acc = parseMembers f u acc := by
  cases f with
  | zero => simp [parseMembers]
  | succ f =>
    conv => lhs; unfold parseMembers
    conv => rhs; unfold parseMembers
    rw [skipWs_append_ws w u hw]

theorem delimStart_ws_append (w : List Char) (c : Char) (u : List Char)
    (hw : ∀ d ∈ w, isJsonWs d = true) (hc : delimStart (c :: u) = true) :
    delimStart (w ++ c :: u) = true := by
  cases w with
  | nil => exact hc
  | cons d w =>
    have hd := hw d (List.mem_cons_self _ _)
    simp [delimStart, hd]

theorem step_value_string (f : Nat) (l : List Char) (s : String) (t : List Char)
    (h : parseStringBody l [] = some (s, t)) :
    parseValue (f + 1) (quoteChar :: l) = Parsed.ok (JVal.str s) t := by
  have hs : skipWs (quoteChar :: l) = quoteChar :: l := skipWs_of_head _ _ (by decide)
  conv => lhs; unfold parseValue
  rw [hs]
  split
  · rename_i heq; simp only [List.cons.injEq] at heq; exact absurd heq.1 (by decide)
  · rename_i heq; simp only [List.cons.injEq] at heq; exact absurd heq.1 (by decide)
  · rename_i heq; simp only [List.cons.injEq] at heq; exact absurd heq.1 (by decide)
  · rename_i heq; simp only [List.cons.injEq] at heq; exact absurd heq.1 (by decide)
  · rename_i heq; simp only [List.cons.injEq] at heq; exact absurd heq.1 (by decide)
  · rename_i c rest _ _ _ _ _ heq
    simp only [List.cons.injEq] at heq
    obtain ⟨hc, hr⟩ := heq
    subst hc; subst hr
    simp only [if_true, h]
  · rename_i heq; simp at heq

theorem step_value_number (f : Nat) (c : Char) (l : List Char) (v : JVal) (t : List Char)
    (hc : c = '-' ∨ (48 ≤ c.toNat ∧ c.toNat ≤ 57))
    (h : parseNumber (c :: l) = some (v, t)) :
    parseValue (f + 1) (c :: l) = Parsed.ok v t := by
  have hfacts : c ≠ '{' ∧ c ≠ '[' ∧ c ≠ 't' ∧ c ≠ 'f' ∧ c ≠ 'n' ∧ c ≠ quoteChar ∧
      isJsonWs c = false := by
    rcases hc with hc | hc
    · subst hc; decide
    · refine ⟨?_, ?_, ?_, ?_, ?_, ?_, ?_⟩
      · intro h; subst h; exact absurd hc (by decide)
      · intro h; subst h; exact absurd hc (by decide)
      · intro h; subst h; exact absurd hc (by decide)
      · intro h; subst h; exact absurd hc (by decide)
      · intro h; subst h; exact absurd hc (by decide)
      · intro h; subst h; exact absurd hc (by decide)
      · exact not_js_imp_not_json c (digit_not_ws c hc)
  obtain ⟨h1, h2, h3, h4, h5, h6, h7⟩ := hfacts
  have hs : skipWs (c :: l) = c :: l := skipWs_of_head _ _ h7
  conv => lhs; unfold parseValue
  rw [hs]
  split
  · rename_i heq; simp only [List.cons.injEq] at heq; exact absurd heq.1 h1
  · rename_i heq; simp only [List.cons.injEq] at heq; exact absurd heq.1 h2
  · rename_i heq; simp only [List.cons.injEq] at heq; exact absurd heq.1 h3
  · rename_i heq; simp only [List.cons.injEq] at heq; exact absurd heq.1 h4
  · rename_i heq; simp only [List.cons.injEq] at heq; exact absurd heq.1 h5
  · rename_i c1 rest _ _ _ _ _ heq
    simp only [List.cons.injEq] at heq
    obtain ⟨hc1, hr⟩ := heq
    subst hc1; subst hr
    simp only [h6, if_false, h, Parsed.ofOption]
  · rename_i heq; simp at heq

theorem step_value_true (f : Nat) (t : List Char) :
    parseValue (f + 1) ('t' :: 'r' :: 'u' :: 'e' :: t) = Parsed.ok (JVal.bool true) t := by
  have hs : ∀ l, skipWs ('t' :: l) = 't' :: l := fun l => skipWs_of_head _ _ (by decide)
  conv => lhs; unfold parseValue
  rw [hs]
  rfl

theorem step_value_false (f : Nat) (t : List Char) :
    parseValue (f + 1) ('f' :: 'a' :: 'l' :: 's' :: 'e' :: t) = Parsed.ok (JVal.bool false) t := by
  have hs : ∀ l, skipWs ('f' :: l) = 'f' :: l := fun l => skipWs_of_head _ _ (by decide)
  conv => lhs; unfold parseValue
  rw [hs]
  rfl

theorem step_value_null (f : Nat) (t : List Char) :
    parseValue (f + 1) ('n' :: 'u' :: 'l' :: 'l' :: t) = Parsed.ok JVal.null t := by
  have hs : ∀ l, skipWs ('n' :: l) = 'n' :: l := fun l => skipWs_of_head _ _ (by decide)
  conv => lhs; unfold parseValue
  rw [hs]
  rfl

theorem step_value_obj_empty (f : Nat) (l r : List Char) (h : skipWs l = '}' :: r) :
    parseValue (f + 1) ('{' :: l) = Parsed.ok (JVal.obj []) r := by
  have hs : skipWs ('{' :: l) = '{' :: l := skipWs_of_head _ _ (by decide)
  conv => lhs; unfold parseValue
  rw [hs]
  simp only [h]

theorem step_value_obj (f : Nat) (l : List Char) (kvs : List (String × JVal)) (t : List Char)
    (hno : ∀ r, skipWs l ≠ '}' :: r)
    (h : parseMembers f (skipWs l) [] = Parsed.ok kvs t) :
    parseValue (f + 1) ('{' :: l) = Parsed.ok (JVal.obj kvs) t := by
  have hs : skipWs ('{' :: l) = '{' :: l := skipWs_of_head _ _ (by decide)
  conv => lhs; unfold parseValue
  rw [hs]
  simp only [h]

theorem step_value_arr_empty (f : Nat) (l r : List Char) (h : skipWs l = ']' :: r) :
    parseValue (f + 1) ('[' :: l) = Parsed.ok (JVal.arr []) r := by
  have hs : skipWs ('[' :: l) = '[' :: l := skipWs_of_head _ _ (by decide)
  conv => lhs; unfold parseValue
  rw [hs]
  simp only [h]

theorem step_value_arr (f : Nat) (l : List Char) (xs : List JVal) (t : List Char)
    (hno : ∀ r, skipWs l ≠ ']' :: r)
    (h : parseElements f (skipWs l) [] = Parsed.ok xs t) :
    parseValue (f + 1) ('[' :: l) = Parsed.ok (JVal.arr xs) t := by
  have hs : skipWs ('[' :: l) = '[' :: l := skipWs_of_head _ _ (by decide)
  conv => lhs; unfold parseValue
  rw [hs]
  simp only [h]

theorem step_elements_more (f : Nat) (u : List Char) (acc : List JVal) (v : JVal)
    (r u2 : List Char) (xs : List JVal) (t : List Char)
    (hv : parseValue f u = Parsed.ok v r) (hr : skipWs r = ',' :: u2)
    (h : parseElements f u2 (v :: acc) = Parsed.ok xs t) :
    parseElements (f + 1) u acc = Parsed.ok xs t := by
  conv => lhs; unfold parseElements
  simp only [hv, hr, h]

theorem step_elements_last (f : Nat) (u : List Char) (acc : List JVal) (v : JVal)
    (r t : List Char)
    (hv : parseValue f u = Parsed.ok v r) (hr : skipWs r = ']' :: t) :
    parseElements (f + 1) u acc = Parsed.ok (v :: acc).reverse t := by
  conv => lhs; unfold parseElements
  simp only [hv, hr]

theorem step_members_more (f : Nat) (l : List Char) (acc : List (String × JVal)) (k : String)
    (r1 u2 : List Char) (v : JVal) (r3 u4 : List Char) (kvs : List (String × JVal))
    (t : List Char)
    (hk : parseStringBody l [] = some (k, r1)) (hr1 : skipWs r1 = ':' :: u2)
    (hv : parseValue f u2 = Parsed.ok v r3) (hr3 : skipWs r3 = ',' :: u4)
    (h : parseMembers f u4 ((k, v) :: acc) = Parsed.ok kvs t) :
    parseMembers (f + 1) (quoteChar :: l) acc = Parsed.ok kvs t := by
  have hs : skipWs (quoteChar :: l) = quoteChar :: l := skipWs_of_head _ _ (by decide)
  conv => lhs; unfold parseMembers
  rw [hs]
  simp only [if_true, hk, hr1, hv, hr3, h]

theorem step_members_last (f : Nat) (l : List Char) (acc : List (String × JVal)) (k : String)
    (r1 u2 : List Char) (v : JVal) (r3 t : List Char)
    (hk : parseStringBody l [] = some (k, r1)) (hr1 : skipWs r1 = ':' :: u2)
    (hv : parseValue f u2 = Parsed.ok v r3) (hr3 : skipWs r3 = '}' :: t) :
    parseMembers (f + 1) (quoteChar :: l) acc = Parsed.ok ((k, v) :: acc).reverse t := by
  have hs : skipWs (quoteChar :: l) = quoteChar :: l := skipWs_of_head _ _ (by decide)
  conv => lhs; unfold parseMembers
  rw [hs]
  simp only [if_true, hk, hr1, hv, hr3]

theorem parseMembers_head (f : Nat) (c : Char) (l : List Char) (acc kvs : List (String × JVal))
    (t : List Char) (hc : isJsonWs c = false)
    (h : parseMembers f (c :: l) acc = Parsed.ok kvs t) : c = quoteChar := by
  cases f with
  | zero => simp [parseMembers] at h
  | succ f =>
    unfold parseMembers at h
    rw [skipWs_of_head c l hc] at h
    simp only at h
    split at h
    · rename_i hq; exact hq
    · simp at h

theorem parseElements_head (f : Nat) (l : List Char) (acc xs : List JVal) (t : List Char)
    (h : parseElements f (']' :: l) acc = Parsed.ok xs t) : False := by
  cases f with
  | zero => simp [parseElements] at h
  | succ f =>
    unfold parseElements at h
    have hv : parseValue f (']' :: l) = Parsed.malformed ∨
        parseValue f (']' :: l) = Parsed.outOfFuel := by
      cases f with
      | zero => right; simp [parseValue]
      | succ f =>
        left
        have hs : skipWs (']' :: l) = ']' :: l := skipWs_of_head _ _ (by decide)
        conv => lhs; unfold parseValue
        rw [hs]
        simp [parseNumber, parseUnsigned, takeInt, takeDigits, Parsed.ofOption, quoteChar]
    rcases hv with hv | hv <;> rw [hv] at h <;> simp at h

theorem startsSolid_append (a x : List Char) (h : StartsSolid a) : StartsSolid (a ++ x) := by
  obtain ⟨c, a1, ha, hc⟩ := h
  exact ⟨c, a1 ++ x, by rw [ha]; rfl, hc⟩

theorem parse_local_value (f : Nat)
    (ihe : ∀ cs acc xs rest, parseElements f cs acc = Parsed.ok xs rest →
      ∃ a, skipWs cs = a ++ rest ∧ StartsSolid a ∧ EndsSolid a ∧
        ∀ t f1, 2 * a.length + 2 ≤ f1 → parseElements f1 (a ++ t) acc = Parsed.ok xs t)
    (ihm : ∀ cs acc kvs rest, parseMembers f cs acc = Parsed.ok kvs rest →
      ∃ a, skipWs cs = a ++ rest ∧ StartsSolid a ∧ EndsSolid a ∧
        ∀ t f1, 2 * a.length + 2 ≤ f1 → parseMembers f1 (a ++ t) acc = Parsed.ok kvs t)
    (cs : List Char) (v : JVal) (rest : List Char)
    (h : parseValue (f + 1) cs = Parsed.ok v rest) :
    ∃ a, skipWs cs = a ++ rest ∧ StartsSolid a ∧ EndsSolid a ∧
      ∀ t f1, delimStart t = true → 2 * a.length + 1 ≤ f1 →
        parseValue f1 (a ++ t) = Parsed.ok v t := by
  unfold parseValue at h
  split at h
  · rename_i rest0 heq
    obtain ⟨w1, hw1, hall1⟩ := skipWs_ws_split rest0
    split at h
    · rename_i rest1 heq1
      simp only [Parsed.ok.injEq] at h
      obtain ⟨hv, hr⟩ := h
      subst hv; subst hr
      refine ⟨'{' :: (w1 ++ ['}']), ?_, ⟨'{', _, rfl, by decide⟩,
        ⟨'{' :: w1, '}', rfl, by decide⟩, ?_⟩
      · rw [heq, hw1, heq1]
        simp
      · intro t f1 _ hf
        cases f1 with
        | zero => omega
        | succ f2 =>
          simp only [List.cons_append, List.append_assoc, List.nil_append]
          apply step_value_obj_empty
          rw [skipWs_append_ws _ _ hall1]
          exact skipWs_of_head _ _ (by decide)
    · split at h
      · rename_i kvs rest2 hm
        simp only [Parsed.ok.injEq] at h
        obtain ⟨hv, hr⟩ := h
        subst hv; subst hr
        obtain ⟨a1, ha1, hs1, he1, hre1⟩ := ihm _ _ _ _ hm
        rw [skipWs_idem] at ha1
        refine ⟨'{' :: (w1 ++ a1), ?_, ⟨'{', _, rfl, by decide⟩,
          endsSolid_append ('{' :: w1) a1 he1, ?_⟩
        · rw [heq, hw1, ha1]
          simp
        · intro t f1 _ hf
          cases f1 with
          | zero => omega
          | succ f2 =>
            simp only [List.cons_append, List.append_assoc]
            have hre := hre1 t f2 (by
              simp only [List.length_cons, List.length_append] at hf
              omega)
            have hsk : skipWs (w1 ++ (a1 ++ t)) = a1 ++ t := by
              rw [skipWs_append_ws _ _ hall1, skipWs_solid _ _ hs1]
            apply step_value_obj
            · intro r hr
              rw [hsk] at hr
              obtain ⟨c1, a2, hc1, hws⟩ := hs1
              subst hc1
              simp only [List.cons_append, List.cons.injEq] at hr
              have hq := parseMembers_head _ _ _ _ _ _ (not_js_imp_not_json c1 hws) hre
              rw [hq] at hr
              exact absurd hr.1 (by decide)
            · rw [hsk]
              exact hre
      · simp at h
      · simp at h
  · rename_i rest0 heq
    obtain ⟨w1, hw1, hall1⟩ := skipWs_ws_split rest0
    split at h
    · rename_i rest1 heq1
      simp only [Parsed.ok.injEq] at h
      obtain ⟨hv, hr⟩ := h
      subst hv; subst hr
      refine ⟨'[' :: (w1 ++ [']']), ?_, ⟨'[', _, rfl, by decide⟩,
        ⟨'[' :: w1, ']', rfl, by decide⟩, ?_⟩
      · rw [heq, hw1, heq1]
        simp
      · intro t f1 _ hf
        cases f1 with
        | zero => omega
        | succ f2 =>
          simp only [List.cons_append, List.append_assoc, List.nil_append]
          apply step_value_arr_empty
          rw [skipWs_append_ws _ _ hall1]
          exact skipWs_of_head _ _ (by decide)
    · split at h
      · rename_i xs rest2 hm
        simp only [Parsed.ok.injEq] at h
        obtain ⟨hv, hr⟩ := h
        subst hv; subst hr
        obtain ⟨a1, ha1, hs1, he1, hre1⟩ := ihe _ _ _ _ hm
        rw [skipWs_idem] at ha1
        refine ⟨'[' :: (w1 ++ a1), ?_, ⟨'[', _, rfl, by decide⟩,
          endsSolid_append ('[' :: w1) a1 he1, ?_⟩
        · rw [heq, hw1, ha1]
          simp
        · intro t f1 _ hf
          cases f1 with
          | zero => omega
          | succ f2 =>
            simp only [List.cons_append, List.append_assoc]
            have hre := hre1 t f2 (by
              simp only [List.length_cons, List.length_append] at hf
              omega)
            have hsk : skipWs (w1 ++ (a1 ++ t)) = a1 ++ t := by
              rw [skipWs_append_ws _ _ hall1, skipWs_solid _ _ hs1]
            apply step_value_arr
            · intro r hr
              rw [hsk] at hr
              rw [hr] at hre
              exact parseElements_head _ _ _ _ _ hre
            · rw [hsk]
              exact hre
      · simp at h
      · simp at h
  · rename_i rest0 heq
    simp only [Parsed.ok.injEq] at h
    obtain ⟨hv, hr⟩ := h
    subst hv; subst hr
    refine ⟨['t', 'r', 'u', 'e'], by rw [heq]; rfl, ⟨'t', _, rfl, by decide⟩,
      ⟨['t', 'r', 'u'], 'e', rfl, by decide⟩, ?_⟩
    intro t f1 _ hf
    cases f1 with
    | zero => omega
    | succ f2 => exact step_value_true f2 t
  · rename_i rest0 heq
    simp only [Parsed.ok.injEq] at h
    obtain ⟨hv, hr⟩ := h
    subst hv; subst hr
    refine ⟨['f', 'a', 'l', 's', 'e'], by rw [heq]; rfl, ⟨'f', _, rfl, by decide⟩,
      ⟨['f', 'a', 'l', 's'], 'e', rfl, by decide⟩, ?_⟩
    intro t f1 _ hf
    cases f1 with
    | zero => omega
    | succ f2 => exact step_value_false f2 t
  · rename_i rest0 heq
    simp only [Parsed.ok.injEq] at h
    obtain ⟨hv, hr⟩ := h
    subst hv; subst hr
    refine ⟨['n', 'u', 'l', 'l'], by rw [heq]; rfl, ⟨'n', _, rfl, by decide⟩,
      ⟨['n', 'u', 'l'], 'l', rfl, by decide⟩, ?_⟩
    intro t f1 _ hf
    cases f1 with
    | zero => omega
    | succ f2 => exact step_value_null f2 t
  · rename_i c rest0 _ _ _ _ _ heq
    split at h
    · rename_i hq
      split at h
      · rename_i s rest1 hsb
        simp only [Parsed.ok.injEq] at h
        obtain ⟨hv, hr⟩ := h
        subst hv; subst hr
        obtain ⟨aS, hS1, hS2, hS3⟩ := parseStringBody_local _ _ _ _ _ (le_refl _) hsb
        refine ⟨quoteChar :: aS, by rw [heq, hq, hS1]; rfl,
          ⟨quoteChar, _, rfl, quoteChar_not_ws⟩, endsSolid_cons _ _ hS2, ?_⟩
        intro t f1 _ hf
        cases f1 with
        | zero => omega
        | succ f2 =>
          simp only [List.cons_append]
          exact step_value_string f2 _ _ _ (hS3 t)
      · simp at h
    · cases hn : parseNumber (c :: rest0) with
      | none => rw [hn] at h; simp [Parsed.ofOption] at h
      | some p =>
        obtain ⟨v0, r0⟩ := p
        rw [hn] at h
        simp only [Parsed.ofOption, Parsed.ok.injEq] at h
        obtain ⟨hv, hr⟩ := h
        subst hv; subst hr
        obtain ⟨a, ha1, ha2, ⟨c1, x, ha3, hc1⟩, ha4⟩ := parseNumber_local _ _ _ hn
        have hsolid : isJsWhitespace c1 = false := by
          rcases hc1 with hc1 | hc1
          · subst hc1; decide
          · exact digit_not_ws c1 hc1
        refine ⟨a, by rw [heq, ha1], ⟨c1, x, ha3, hsolid⟩, ha2, ?_⟩
        intro t f1 ht hf
        cases f1 with
        | zero => omega
        | succ f2 =>
          have h5 := ha4 t (delim_numStop t ht)
          rw [ha3] at h5 ⊢
          exact step_value_number f2 c1 _ _ _ hc1 h5
  · simp at h

theorem parse_local_elements (f : Nat)
    (ihv : ∀ cs v rest, parseValue f cs = Parsed.ok v rest →
      ∃ a, skipWs cs = a ++ rest ∧ StartsSolid a ∧ EndsSolid a ∧
        ∀ t f1, delimStart t = true → 2 * a.length + 1 ≤ f1 →
          parseValue f1 (a ++ t) = Parsed.ok v t)
    (ihe : ∀ cs acc xs rest, parseElements f cs acc = Parsed.ok xs rest →
      ∃ a, skipWs cs = a ++ rest ∧ StartsSolid a ∧ EndsSolid a ∧
        ∀ t f1, 2 * a.length + 2 ≤ f1 → parseElements f1 (a ++ t) acc = Parsed.ok xs t)
    (cs : List Char) (acc xs : List JVal) (rest : List Char)
    (h : parseElements (f + 1) cs acc = Parsed.ok xs rest) :
    ∃ a, skipWs cs = a ++ rest ∧ StartsSolid a ∧ EndsSolid a ∧
      ∀ t f1, 2 * a.length + 2 ≤ f1 → parseElements f1 (a ++ t) acc = Parsed.ok xs t := by
  unfold parseElements at h
  split at h
  · rename_i v rest0 hv
    obtain ⟨a0, ha0, hs0, he0, hre0⟩ := ihv _ _ _ hv
    obtain ⟨w0, hw0, hall0⟩ := skipWs_ws_split rest0
    split at h
    · rename_i rest1 heq
      obtain ⟨a1, ha1, hs1, he1, hre1⟩ := ihe _ _ _ _ h
      obtain ⟨w1, hw1, hall1⟩ := skipWs_ws_split rest1
      refine ⟨a0 ++ (w0 ++ ',' :: (w1 ++ a1)), ?_, startsSolid_append _ _ hs0, ?_, ?_⟩
      · rw [ha0, hw0, heq, hw1, ha1]
        simp
      · rw [← List.append_assoc, ← List.cons_append, ← List.append_assoc]
        exact endsSolid_append _ _ he1
      · intro t f1 hf
        cases f1 with
        | zero => omega
        | succ f2 =>
          simp only [List.length_cons, List.length_append] at hf
          simp only [List.cons_append, List.append_assoc]
          have hd : delimStart (w0 ++ ',' :: (w1 ++ (a1 ++ t))) = true :=
            delimStart_ws_append _ _ _ hall0 rfl
          have hv2 := hre0 (w0 ++ ',' :: (w1 ++ (a1 ++ t))) f2 hd (by omega)
          have hr2 : skipWs (w0 ++ ',' :: (w1 ++ (a1 ++ t))) = ',' :: (w1 ++ (a1 ++ t)) := by
            rw [skipWs_append_ws _ _ hall0]
            exact skipWs_of_head _ _ (by decide)
          have he2 : parseElements f2 (w1 ++ (a1 ++ t)) (v :: acc) = Parsed.ok xs t := by
            rw [parseElements_ws _ _ _ _ hall1]
            exact hre1 t f2 (by omega)
          exact step_elements_more f2 _ acc v _ _ xs t hv2 hr2 he2
    · rename_i rest1 heq
      simp only [Parsed.ok.injEq] at h
      obtain ⟨hx, hr⟩ := h
      subst hx; subst hr
      refine ⟨a0 ++ (w0 ++ [']']), ?_, startsSolid_append _ _ hs0,
        ⟨a0 ++ w0, ']', by simp, by decide⟩, ?_⟩
      · rw [ha0, hw0, heq]
        simp
      · intro t f1 hf
        cases f1 with
        | zero => omega
        | succ f2 =>
          simp only [List.length_cons, List.length_append] at hf
          simp only [List.cons_append, List.append_assoc, List.nil_append]
          have hd : delimStart (w0 ++ ']' :: t) = true :=
            delimStart_ws_append _ _ _ hall0 rfl
          have hv2 := hre0 (w0 ++ ']' :: t) f2 hd (by omega)
          have hr2 : skipWs (w0 ++ ']' :: t) = ']' :: t := by
            rw [skipWs_append_ws _ _ hall0]
            exact skipWs_of_head _ _ (by decide)
          exact step_elements_last f2 _ acc v _ t hv2 hr2
    · simp at h
  · simp at h
  · simp at h

theorem parse_local_members (f : Nat)
    (ihv : ∀ cs v rest, parseValue f cs = Parsed.ok v rest →
      ∃ a, skipWs cs = a ++ rest ∧ StartsSolid a ∧ EndsSolid a ∧
        ∀ t f1, delimStart t = true → 2 * a.length + 1 ≤ f1 →
          parseValue f1 (a ++ t) = Parsed.ok v t)
    (ihm : ∀ cs acc kvs rest, parseMembers f cs acc = Parsed.ok kvs rest →
      ∃ a, skipWs cs = a ++ rest ∧ StartsSolid a ∧ EndsSolid a ∧
        ∀ t f1, 2 * a.length + 2 ≤ f1 → parseMembers f1 (a ++ t) acc = Parsed.ok kvs t)
    (cs : List Char) (acc kvs : List (String × JVal)) (rest : List Char)
    (h : parseMembers (f + 1) cs acc = Parsed.ok kvs rest) :
    ∃ a, skipWs cs = a ++ rest ∧ StartsSolid a ∧ EndsSolid a ∧
      ∀ t f1, 2 * a.length + 2 ≤ f1 → parseMembers f1 (a ++ t) acc = Parsed.ok kvs t := by
  unfold parseMembers at h
  split at h
  · rename_i c rest0 heq
    split at h
    · rename_i hq
      split at h
      · rename_i k rest1 hk
        obtain ⟨aK, hK1, _, hK3⟩ := parseStringBody_local _ _ _ _ _ (le_refl _) hk
        obtain ⟨wK, hwK, hallK⟩ := skipWs_ws_split rest1
        split at h
        · rename_i rest2 heq2
          obtain ⟨wV, hwV, hallV⟩ := skipWs_ws_split rest2
          split at h
          · rename_i v rest3 hv
            obtain ⟨aV, haV, hsV, heV, hreV⟩ := ihv _ _ _ hv
            obtain ⟨w3, hw3, hall3⟩ := skipWs_ws_split rest3
            split at h
            · rename_i rest4 heq4
              obtain ⟨a4, ha4, hs4, he4, hre4⟩ := ihm _ _ _ _ h
              obtain ⟨w4, hw4, hall4⟩ := skipWs_ws_split rest4
              refine ⟨quoteChar :: (aK ++ (wK ++ ':' :: (wV ++ (aV ++ (w3 ++ ',' :: (w4 ++ a4)))))),
                ?_, ⟨quoteChar, _, rfl, quoteChar_not_ws⟩, ?_, ?_⟩
              · rw [heq, hq, hK1, hwK, heq2, hwV, haV, hw3, heq4, hw4, ha4]
                simp
              · have h1 : quoteChar :: (aK ++ (wK ++ ':' :: (wV ++ (aV ++ (w3 ++ ',' :: (w4 ++ a4))))))
                    = (quoteChar :: (aK ++ (wK ++ ':' :: (wV ++ (aV ++ (w3 ++ ',' :: w4)))))) ++ a4 := by
                  simp
                rw [h1]
                exact endsSolid_append _ _ he4
              · intro t f1 hf
                cases f1 with
                | zero => omega
                | succ f2 =>
                  simp only [List.length_cons, List.length_append] at hf
                  simp only [List.cons_append, List.append_assoc]
                  have hd : delimStart (w3 ++ ',' :: (w4 ++ (a4 ++ t))) = true :=
                    delimStart_ws_append _ _ _ hall3 rfl
                  have hk2 := hK3 (wK ++ ':' :: (wV ++ (aV ++ (w3 ++ ',' :: (w4 ++ (a4 ++ t))))))
                  have hr1 : skipWs (wK ++ ':' :: (wV ++ (aV ++ (w3 ++ ',' :: (w4 ++ (a4 ++ t))))))
                      = ':' :: (wV ++ (aV ++ (w3 ++ ',' :: (w4 ++ (a4 ++ t))))) := by
                    rw [skipWs_append_ws _ _ hallK]
                    exact skipWs_of_head _ _ (by decide)
                  have hv2 : parseValue f2 (wV ++ (aV ++ (w3 ++ ',' :: (w4 ++ (a4 ++ t)))))
                      = Parsed.ok v (w3 ++ ',' :: (w4 ++ (a4 ++ t))) := by
                    rw [parseValue_ws _ _ _ hallV]
                    exact hreV _ f2 hd (by omega)
                  have hr3 : skipWs (w3 ++ ',' :: (w4 ++ (a4 ++ t))) = ',' :: (w4 ++ (a4 ++ t)) := by
                    rw [skipWs_append_ws _ _ hall3]
                    exact skipWs_of_head _ _ (by decide)
                  have hm2 : parseMembers f2 (w4 ++ (a4 ++ t)) ((k, v) :: acc) = Parsed.ok kvs t := by
                    rw [parseMembers_ws _ _ _ _ hall4]
                    exact hre4 t f2 (by omega)
                  exact step_members_more f2 _ acc k _ _ v _ _ kvs t hk2 hr1 hv2 hr3 hm2
            · rename_i rest4 heq4
              simp only [Parsed.ok.injEq] at h
              obtain ⟨hx, hr⟩ := h
              subst hx; subst hr
              refine ⟨quoteChar :: (aK ++ (wK ++ ':' :: (wV ++ (aV ++ (w3 ++ ['}']))))),
                ?_, ⟨quoteChar, _, rfl, quoteChar_not_ws⟩,
                ⟨quoteChar :: (aK ++ (wK ++ ':' :: (wV ++ (aV ++ w3)))), '}', by simp, by decide⟩,
                ?_⟩
              · rw [heq, hq, hK1, hwK, heq2, hwV, haV, hw3, heq4]
                simp
              · intro t f1 hf
                cases f1 with
                | zero => omega
                | succ f2 =>
                  simp only [List.length_cons, List.length_append] at hf
                  simp only [List.cons_append, List.append_assoc, List.nil_append]
                  have hd : delimStart (w3 ++ '}' :: t) = true :=
                    delimStart_ws_append _ _ _ hall3 rfl
                  have hk2 := hK3 (wK ++ ':' :: (wV ++ (aV ++ (w3 ++ '}' :: t))))
                  have hr1 : skipWs (wK ++ ':' :: (wV ++ (aV ++ (w3 ++ '}' :: t))))
                      = ':' :: (wV ++ (aV ++ (w3 ++ '}' :: t))) := by
                    rw [skipWs_append_ws _ _ hallK]
                    exact skipWs_of_head _ _ (by decide)
                  have hv2 : parseValue f2 (wV ++ (aV ++ (w3 ++ '}' :: t)))
                      = Parsed.ok v (w3 ++ '}' :: t) := by
                    rw [parseValue_ws _ _ _ hallV]
                    exact hreV _ f2 hd (by omega)
                  have hr3 : skipWs (w3 ++ '}' :: t) = '}' :: t := by
                    rw [skipWs_append_ws _ _ hall3]
                    exact skipWs_of_head _ _ (by decide)
                  exact step_members_last f2 _ acc k _ _ v _ t hk2 hr1 hv2 hr3
            · simp at h
          · simp at h
          · simp at h
        · simp at h
      · simp at h
    · simp at h
  · simp at h

/-- A parsed value depends only on the text it consumes: the consumed text
starts and ends with a character that is not white space, and parsing it again
in front of any text that starts with a delimiter, with any sufficient bound,
gives the same value. -/
theorem parse_local (f : Nat) :
    (∀ cs v rest, parseValue f cs = Parsed.ok v rest →
      ∃ a, skipWs cs = a ++ rest ∧ StartsSolid a ∧ EndsSolid a ∧
        ∀ t f1, delimStart t = true → 2 * a.length + 1 ≤ f1 →
          parseValue f1 (a ++ t) = Parsed.ok v t) ∧
    (∀ cs acc xs rest, parseElements f cs acc = Parsed.ok xs rest →
      ∃ a, skipWs cs = a ++ rest ∧ StartsSolid a ∧ EndsSolid a ∧
        ∀ t f1, 2 * a.length + 2 ≤ f1 → parseElements f1 (a ++ t) acc = Parsed.ok xs t) ∧
    (∀ cs acc kvs rest, parseMembers f cs acc = Parsed.ok kvs rest →
      ∃ a, skipWs cs = a ++ rest ∧ StartsSolid a ∧ EndsSolid a ∧
        ∀ t f1, 2 * a.length + 2 ≤ f1 → parseMembers f1 (a ++ t) acc = Parsed.ok kvs t) := by
  induction f with
  | zero =>
    refine ⟨?_, ?_, ?_⟩
    · intro cs v rest h; simp [parseValue] at h
    · intro cs acc xs rest h; simp [parseElements] at h
    · intro cs acc kvs rest h; simp [parseMembers] at h
  | succ f ih =>
    obtain ⟨ihv, ihe, ihm⟩ := ih
    exact ⟨parse_local_value f ihe ihm, parse_local_elements f ihv ihe,
      parse_local_members f ihv ihm⟩

/-! ## Lemmas: what trimming and fence stripping do to a fenced reply -/

theorem dropWhile_all_append (p : Char → Bool) (w u : List Char) (hw : ∀ c ∈ w, p c = true) :
    (w ++ u).dropWhile p = u.dropWhile p := by
  induction w with
  | nil => rfl
  | cons c w ih =>
    have hc := hw c (List.mem_cons_self _ _)
    simp only [List.cons_append, List.dropWhile_cons, hc, if_true]
    exact ih (fun d hd => hw d (List.mem_cons_of_mem _ hd))

theorem trimChars_solid (w a r : List Char)
    (hw : ∀ c ∈ w, isJsWhitespace c = true) (hr : ∀ c ∈ r, isJsWhitespace c = true)
    (hs : StartsSolid a) (he : EndsSolid a) : trimChars (w ++ (a ++ r)) = a := by
  obtain ⟨c, a1, ha, hc⟩ := hs
  obtain ⟨a0, d, ha2, hd⟩ := he
  unfold trimChars
  rw [dropWhile_all_append _ _ _ hw]
  have h1 : (a ++ r).dropWhile isJsWhitespace = a ++ r := by
    rw [ha]
    simp only [List.cons_append, List.dropWhile_cons, hc, Bool.false_eq_true, if_false]
  rw [h1, List.reverse_append]
  rw [dropWhile_all_append _ _ _ (fun x hx => hr x (List.mem_reverse.mp hx))]
  have h2 : a.reverse.dropWhile isJsWhitespace = a.reverse := by
    rw [ha2, List.reverse_append]
    simp only [List.reverse_cons, List.reverse_nil, List.nil_append, List.singleton_append,
      List.dropWhile_cons, hd, Bool.false_eq_true, if_false]
  rw [h2, List.reverse_reverse]

theorem skipWs_nil_all (r : List Char) (h : skipWs r = []) : ∀ c ∈ r, isJsonWs c = true := by
  obtain ⟨w, hw, hall⟩ := skipWs_ws_split r
  rw [h, List.append_nil] at hw
  rw [hw]
  exact hall

/-- A text that `JSON.parse` accepts is white space, then a core that starts
and ends with a character that is not white space, then white space; the core
alone parses to the same value. -/
theorem jsonParse_core (J : String) (v : JVal) (h : jsonParse J = some v) :
    ∃ w a r, J.data = w ++ (a ++ r) ∧ (∀ c ∈ w, isJsWhitespace c = true) ∧
      (∀ c ∈ r, isJsWhitespace c = true) ∧ StartsSolid a ∧ EndsSolid a ∧
      jsonParse (String.mk a) = some v := by
  unfold jsonParse at h
  split at h
  · rename_i v0 rest hp
    split at h
    · rename_i hrest
      simp only [Option.some.injEq] at h
      subst h
      obtain ⟨a, ha, hs, he, hre⟩ := (parse_local _).1 _ _ _ hp
      obtain ⟨w, hw, hall⟩ := skipWs_ws_split J.data
      refine ⟨w, a, rest, by rw [← ha]; exact hw,
        fun c hc => isJsonWs_imp_js c (hall c hc),
        fun c hc => isJsonWs_imp_js c (skipWs_nil_all rest hrest c hc), hs, he, ?_⟩
      have h2 := hre [] (2 * a.length + 2) rfl (by omega)
      rw [List.append_nil] at h2
      simp only [jsonParse, String.length, h2, skipWs, if_true]
    · simp at h
  · simp at h

theorem leadTicks_append_newline (l t : List Char) :
    leadTicks (l ++ newline :: t) = leadTicks l := by
  induction l with
  | nil =>
    have hn : ¬ newline = tick := by decide
    simp [leadTicks, hn]
  | cons c l ih =>
    by_cases hc : c = tick
    · have h1 : ∀ l1, leadTicks (c :: l1) = leadTicks l1 + 1 := by
        intro l1; simp only [leadTicks, hc, if_true]
      rw [List.cons_append, h1, h1, ih]
    · have h1 : ∀ l1, leadTicks (c :: l1) = 0 := by
        intro l1; simp only [leadTicks, hc, if_false]
      rw [List.cons_append, h1, h1]

theorem no_fence_cons (c : Char) (cs : List Char) (h : includesChars fence (c :: cs) = false) :
    startsWithChars fence (c :: cs) = false ∧ includesChars fence cs = false := by
  simp only [includesChars, Bool.or_eq_false_iff] at h
  exact h

theorem no_fence_before_newline (c : Char) (cs t : List Char)
    (h : startsWithChars fence (c :: cs) = false) :
    startsWithChars fence (c :: cs ++ newline :: t) = false := by
  cases hs : startsWithChars fence (c :: cs ++ newline :: t) with
  | false => rfl
  | true =>
    have h3 := (startsWithChars_fence_iff _).mp hs
    rw [leadTicks_append_newline] at h3
    rw [(startsWithChars_fence_iff _).mpr h3] at h
    exact absurd h (by decide)

theorem removeAllFrom_step_keep (pat : List Char) (c : Char) (l : List Char)
    (h : startsWithChars pat (c :: l) = false) :
    removeAllFrom pat 0 (c :: l) = c :: removeAllFrom pat 0 l := by
  simp only [removeAllFrom, h, Bool.false_eq_true, if_false]

theorem removeFencesFrom_step_keep (c : Char) (l : List Char)
    (h1 : startsWithChars fenceJson (c :: l) = false)
    (h2 : startsWithChars fence (c :: l) = false) :
    removeFencesFrom 0 (c :: l) = c :: removeFencesFrom 0 l := by
  simp only [removeFencesFrom, h1, h2, Bool.false_eq_true, if_false]

theorem removeAllFrom_keep (pat : List Char)
    (hp : ∀ cs, startsWithChars pat cs = true → startsWithChars fence cs = true) :
    ∀ (J t : List Char), includesChars fence J = false →
      removeAllFrom pat 0 (J ++ newline :: t) = J ++ removeAllFrom pat 0 (newline :: t) := by
  intro J
  induction J with
  | nil => intro t _; rfl
  | cons c cs ih =>
    intro t h
    obtain ⟨h1, h2⟩ := no_fence_cons c cs h
    have h3 := no_fence_before_newline c cs t h1
    have h4 : startsWithChars pat (c :: (cs ++ newline :: t)) = false := by
      cases hs : startsWithChars pat (c :: (cs ++ newline :: t)) with
      | false => rfl
      | true =>
        have := hp _ hs
        rw [List.cons_append] at h3
        rw [h3] at this
        exact absurd this (by decide)
    rw [List.cons_append, removeAllFrom_step_keep pat c _ h4, ih t h2, List.cons_append]

theorem removeFencesFrom_keep :
    ∀ (J t : List Char), includesChars fence J = false →
      removeFencesFrom 0 (J ++ newline :: t) = J ++ removeFencesFrom 0 (newline :: t) := by
  intro J
  induction J with
  | nil => intro t _; rfl
  | cons c cs ih =>
    intro t h
    obtain ⟨h1, h2⟩ := no_fence_cons c cs h
    have h3 := no_fence_before_newline c cs t h1
    rw [List.cons_append] at h3
    have h4 : startsWithChars fenceJson (c :: (cs ++ newline :: t)) = false := by
      cases hs : startsWithChars fenceJson (c :: (cs ++ newline :: t)) with
      | false => rfl
      | true =>
        have := startsWithChars_fenceJson_fence _ hs
        rw [h3] at this
        exact absurd this (by decide)
    rw [List.cons_append, removeFencesFrom_step_keep c _ h4 h3, ih t h2, List.cons_append]

theorem no_fence_newline_cons (J : List Char) (h : includesChars fence J = false) :
    includesChars fence (newline :: J) = false := by
  have hs : startsWithChars fence (newline :: J) = false := by
    cases hs : startsWithChars fence (newline :: J) with
    | false => rfl
    | true =>
      have h3 := (startsWithChars_fence_iff _).mp hs
      have hn : ¬ newline = tick := by decide
      simp [leadTicks, hn] at h3
  simp [includesChars, hs, h]

theorem removeAllFrom_head (rest : List Char) :
    removeAllFrom fenceJson 0 (fenceJson ++ rest) = removeAllFrom fenceJson 0 rest := by
  have hs : startsWithChars fenceJson (fenceJson ++ rest) = true :=
    (startsWithChars_iff _ _).mpr (List.prefix_append _ _)
  have hc : fenceJson ++ rest = tick :: ([tick, tick, 'j', 's', 'o', 'n'] ++ rest) := by
    rw [fenceJson_eq]; rfl
  have step : ∀ c l, startsWithChars fenceJson (c :: l) = true →
      removeAllFrom fenceJson 0 (c :: l) = removeAllFrom fenceJson (fenceJson.length - 1) l := by
    intro c l h
    simp only [removeAllFrom, h, if_true]
  rw [hc] at hs ⊢
  rw [step _ _ hs, removeAllFrom_skip]
  rfl

theorem removeFencesFrom_head (rest : List Char) :
    removeFencesFrom 0 (fenceJson ++ rest) = removeFencesFrom 0 rest := by
  have hs : startsWithChars fenceJson (fenceJson ++ rest) = true :=
    (startsWithChars_iff _ _).mpr (List.prefix_append _ _)
  have hc : fenceJson ++ rest = tick :: ([tick, tick, 'j', 's', 'o', 'n'] ++ rest) := by
    rw [fenceJson_eq]; rfl
  have step : ∀ c l, startsWithChars fenceJson (c :: l) = true →
      removeFencesFrom 0 (c :: l) = removeFencesFrom 6 l := by
    intro c l h
    simp only [removeFencesFrom, h, if_true]
  rw [hc] at hs ⊢
  rw [step _ _ hs, removeFencesFrom_skip]
  rfl

/-- Both cleaners turn a fenced text that has no inner fence into the text
between the fences, with the two line feeds. -/
theorem strip_fenced (J : List Char) (h : includesChars fence J = false) :
    removeAllFrom fence 0
        (removeAllFrom fenceJson 0 (fenceJson ++ newline :: J ++ newline :: fence))
      = newline :: J ++ [newline] ∧
    removeFencesFrom 0 (fenceJson ++ newline :: J ++ newline :: fence)
      = newline :: J ++ [newline] := by
  have hJ := no_fence_newline_cons J h
  have e1 : removeAllFrom fenceJson 0 (fenceJson ++ newline :: J ++ newline :: fence)
      = removeAllFrom fenceJson 0 ((newline :: J) ++ newline :: fence) :=
    removeAllFrom_head _
  have e2 : removeFencesFrom 0 (fenceJson ++ newline :: J ++ newline :: fence)
      = removeFencesFrom 0 ((newline :: J) ++ newline :: fence) :=
    removeFencesFrom_head _
  have t1 : removeAllFrom fenceJson 0 (newline :: fence) = newline :: fence := by decide
  have t2 : removeAllFrom fence 0 (newline :: fence) = [newline] := by decide
  have t3 : removeFencesFrom 0 (newline :: fence) = [newline] := by decide
  constructor
  · rw [e1, removeAllFrom_keep fenceJson startsWithChars_fenceJson_fence _ _ hJ, t1,
      removeAllFrom_keep fence (fun _ hh => hh) _ _ hJ, t2]
  · rw [e2, removeFencesFrom_keep _ _ hJ, t3]

theorem clean_fenced (J : String) (v : JVal) (hJ : jsonParse J = some v)
    (hfence : strIncludes J "```" = false) :
    jsonParse (geminiCleanJson (wrapInFence J)) = some v ∧
    jsonParse (quizCleanJson (wrapInFence J)) = some v := by
  obtain ⟨w, a, r, hd, hw, hr, hs, he, hp⟩ := jsonParse_core J v hJ
  have hf : includesChars fence J.data = false := hfence
  obtain ⟨s1, s2⟩ := strip_fenced J.data hf
  have hn : isJsWhitespace newline = true := by decide
  have ht : trimChars (newline :: J.data ++ [newline]) = a := by
    have h1 := trimChars_solid (newline :: w) a (r ++ [newline])
      (fun c hc => by
        rcases List.mem_cons.mp hc with h | h
        · rw [h]; exact hn
        · exact hw c h)
      (fun c hc => by
        rcases List.mem_append.mp hc with h | h
        · exact hr c h
        · rw [List.mem_singleton.mp h]; exact hn) hs he
    rw [hd]
    simpa [List.append_assoc] using h1
  have hg : geminiCleanJson (wrapInFence J) = String.mk a := by
    simp only [geminiCleanJson, wrapInFence, trim, s1, ht]
  have hq : quizCleanJson (wrapInFence J) = String.mk a := by
    simp only [quizCleanJson, wrapInFence, trim, s2, ht]
  rw [hg, hq]
  exact ⟨hp, hp⟩

/-- C14, counterexample. The array text `tickedQuizJson` encodes one well-formed
question whose wording contains triple backticks. Wrapped in a fence tagged
`json`, both coercions return a question with another wording: the backticks
inside the string are stripped with the fences. -/
theorem quiz_coercion_alters_ticked_text :
    jsonParse tickedQuizJson = some (JVal.arr [sampleQuestion "What does ```x``` print?"]) ∧
    isQuizQuestion (sampleQuestion "What does ```x``` print?") = true ∧
    generateQuizFromAI true (Except.ok (wrapInFence tickedQuizJson))
      = Except.ok (JVal.arr [sampleQuestion "What does x print?"]) ∧
    jsonParse (quizCleanJson (wrapInFence tickedQuizJson))
      = some (JVal.arr [sampleQuestion "What does x print?"]) ∧
    sampleQuestion "What does ```x``` print?" ≠ sampleQuestion "What does x print?" := by
  refine ⟨rfl, rfl, rfl, rfl, ?_⟩
  intro h
  simp only [sampleQuestion, JVal.obj.injEq, List.cons.injEq, Prod.mk.injEq, JVal.str.injEq,
    true_and, and_true] at h
  revert h
  decide

/-- C14, amended. For every n ≥ 1 and every JSON array text J that encodes n
well-formed questions and contains no three consecutive backticks, quiz
coercion of J wrapped in a fence tagged `json` yields exactly the n questions
encoded by J, in order, each well formed: `generateQuizFromAI` returns them and
`startInfiniteQuiz` and `handleDocumentUpload` store them as the questions of
the quiz being played. -/
theorem quiz_coercion_fenced (n : Nat) (J : String) (qs : List JVal) (st : QuizState)
    (hn : 1 ≤ n) (hlen : qs.length = n)
    (hJ : jsonParse J = some (JVal.arr qs))
    (hwf : ∀ q ∈ qs, isQuizQuestion q = true)
    (hfence : strIncludes J "```" = false) :
    generateQuizFromAI true (Except.ok (wrapInFence J)) = Except.ok (JVal.arr qs) ∧
    (startInfiniteQuiz true (Except.ok (wrapInFence J)) st).1.questions = qs ∧
    (startInfiniteQuiz true (Except.ok (wrapInFence J)) st).1.currentStep = "playing" ∧
    (handleDocumentUpload true (Except.ok (wrapInFence J)) st).1.questions = qs ∧
    (startInfiniteQuiz true (Except.ok (wrapInFence J)) st).1.questions.length = n ∧
    ∀ q ∈ (startInfiniteQuiz true (Except.ok (wrapInFence J)) st).1.questions,
      isQuizQuestion q = true := by
  obtain ⟨hg, hq⟩ := clean_fenced J _ hJ hfence
  have h1 : (startInfiniteQuiz true (Except.ok (wrapInFence J)) st).1.questions = qs ∧
      (startInfiniteQuiz true (Except.ok (wrapInFence J)) st).1.currentStep = "playing" ∧
      (handleDocumentUpload true (Except.ok (wrapInFence J)) st).1.questions = qs := by
    cases qs with
    | nil => simp at hlen; omega
    | cons q qs1 =>
      have hc : callGemini true (Except.ok (wrapInFence J)) = (Except.ok (wrapInFence J), []) :=
        rfl
      simp [startInfiniteQuiz, handleDocumentUpload, hc, hq, startPlaying]
  refine ⟨?_, h1.1, h1.2.1, h1.2.2, ?_, ?_⟩
  · simp only [generateQuizFromAI, hg]
    rfl
  · rw [h1.1]; exact hlen
  · rw [h1.1]; exact hwf

/-- C14, witness: `quiz_coercion_fenced` at a text that encodes one question. -/
theorem quiz_coercion_fenced_witness :
    generateQuizFromAI true (Except.ok (wrapInFence
        "[\x7b\"question\":\"What does x print?\",\"optionA\":\"1\",\"optionB\":\"2\",\"optionC\":\"3\",\"optionD\":\"4\",\"correct\":\"A\"\x7d]"))
      = Except.ok (JVal.arr [sampleQuestion "What does x print?"]) :=
  (quiz_coercion_fenced 1
    "[\x7b\"question\":\"What does x print?\",\"optionA\":\"1\",\"optionB\":\"2\",\"optionC\":\"3\",\"optionD\":\"4\",\"correct\":\"A\"\x7d]"
    [sampleQuestion "What does x print?"]
    { loading := false, currentStep := "menu", quizMode := "regular", questions := [],
      currentIndex := 0, userAnswers := [], score := 0, hint := "", isGenerating := true,
      uploadLoading := false }
    (by decide) rfl rfl (by decide) (by decide)).1


/-! ## Theorems: sheet reads -/

/-- C21: the sheet reads never reject and degrade to a safe default. For every
outcome of the request (fetch failure, body that is not JSON, any JSON body)
the promise of `getQuiz` resolves: to the response's `data` when the response
is an object whose `status` is `success`, to the empty list in every other
case; the promise of `getNotes` resolves to the `data` in the first case and
to `null` in every other case. -/
theorem sheet_reads_default (r : FetchResult) :
    getQuiz r = Except.ok (if statusIsSuccess r then responseData r else some (JVal.arr [])) ∧
    getNotesPromise r = Except.ok (if statusIsSuccess r then responseData r else some JVal.null) ∧
    getNotes (fetchBody r) = (if statusIsSuccess r then responseData r else some JVal.null) := by
  cases r with
  | fetchFailed e => exact ⟨rfl, rfl, rfl⟩
  | notJson e => exact ⟨rfl, rfl, rfl⟩
  | json result =>
    cases result with
    | null => exact ⟨rfl, rfl, rfl⟩
    | bool b => exact ⟨rfl, rfl, rfl⟩
    | num neg mant exp => exact ⟨rfl, rfl, rfl⟩
    | str s => exact ⟨rfl, rfl, rfl⟩
    | arr xs => exact ⟨rfl, rfl, rfl⟩
    | obj kvs =>
      simp only [getQuiz, getNotesPromise, sheetRead, sheetReadTry, getNotes, fetchBody,
        statusIsSuccess, responseData]
      cases hs : getProp kvs "status" with
      | none => exact ⟨rfl, rfl, rfl⟩
      | some v =>
        cases v with
        | str status =>
          by_cases h : status = "success"
          · simp [h]
          · simp [h]
        | null => exact ⟨rfl, rfl, rfl⟩
        | bool b => exact ⟨rfl, rfl, rfl⟩
        | num neg mant exp => exact ⟨rfl, rfl, rfl⟩
        | arr xs => exact ⟨rfl, rfl, rfl⟩
        | obj kvs1 => exact ⟨rfl, rfl, rfl⟩

/-! ## Theorems: note normaliser on lists, totality -/

/-- C24: for every list L, `extractNoteContent` of L is `extractNoteContent`
of the first element of L when L is non-empty, whatever the later elements
are, and the empty string when L is empty. -/
theorem extractNoteContent_list (L : List JVal) :
    extractNoteContent (JVal.arr L) =
      match L with
      | [] => some ""
      | x :: _ => extractNoteContent x := by
  cases L with
  | nil => rfl
  | cons x xs =>
    have h1 : extractNoteContent (JVal.arr (x :: xs))
        = extractFuel (jsize x + jsizeList xs) x := by
      simp only [extractNoteContent, jsize, jsizeList, extractFuel, truthy]
      rfl
    rw [h1]
    exact (extractFuel_adequate _ x (by omega)).1

/-! ## Theorems: finishing a quiz -/

theorem saveToSheet_sends_nothing (user : Option QuizUser) (videoTitle : String)
    (finalScore : Nat) (st : QuizState) :
    saveToSheet user videoTitle finalScore st
      = ({ st with savingResult := false }, [], [typeError]) := rfl

/-- C22: finishing the last question never sends a score-save request, not
even in regular mode with a user present. `handleNext` does call `saveToSheet`
exactly when the mode is regular and a user is present, but `saveToSheet` calls
`sheetService.saveQuizScore`, a property that `sheetService` does not have: the
call throws a `TypeError`, which is caught and logged, and no request is sent.
The second part is the run for a signed-in student who finishes a regular quiz
of one question. -/
theorem handleNext_score_not_persisted (apiKey : Bool) (feedbackReply : Except JsError String)
    (user : Option QuizUser) (videoTitle : String) (st : QuizState) :
    (∀ r, handleNext apiKey feedbackReply user videoTitle st = Except.ok r →
      r.sheetRequests = [] ∧
      (r.saveCalls ≠ [] ↔
        (¬ st.currentIndex + 1 < st.questions.length ∧ st.quizMode = "regular" ∧
          user.isSome = true)) ∧
      (r.saveCalls ≠ [] → r.errorsLogged = [typeError])) ∧
    (∃ r, handleNext true (Except.ok "Well done") (some sampleUser) "Intro"
        { selectionState [sampleQuestion "What does x print?"] with
          currentStep := "playing", userAnswers := [(0, "A")] } = Except.ok r ∧
      r.state.score = 1 ∧ r.state.currentStep = "result" ∧ r.saveCalls = [1] ∧
      r.sheetRequests = [] ∧ r.errorsLogged = [typeError]) := by
  constructor
  · intro r h
    unfold handleNext at h
    by_cases hlast : st.currentIndex + 1 < st.questions.length
    · simp only [hlast, if_true, Except.ok.injEq] at h
      subst h
      simp [hlast]
    · simp only [hlast, if_false] at h
      cases hsc : scoreFrom st.userAnswers 0 st.questions with
      | error e => rw [hsc] at h; simp at h
      | ok finalScore =>
        rw [hsc] at h
        simp only [saveToSheet_sends_nothing] at h
        by_cases hm : (st.quizMode = "regular" && user.isSome) = true
        · simp only [hm, if_true, Except.ok.injEq] at h
          subst h
          simp only [Bool.and_eq_true, decide_eq_true_eq] at hm
          simp [hlast, hm.1, hm.2]
        · simp only [hm, Bool.false_eq_true, if_false, Except.ok.injEq] at h
          subst h
          simp only [Bool.and_eq_true, decide_eq_true_eq, not_and] at hm
          simp only [ne_eq, not_true_eq_false, false_iff, not_and, true_and, false_implies,
            and_true]
          intro _ h1 h2
          exact hm h1 h2
  · exact ⟨_, rfl, rfl, rfl, rfl, rfl, rfl⟩

/-! ## Theorems: the score -/

theorem scoreFrom_eq_answeredCorrectly (userAnswers : List (Nat × String)) :
    ∀ (questions : List JVal) (idx : Nat),
      (∀ q ∈ questions, ∃ c, correctOf q = Except.ok (some c)) →
      scoreFrom userAnswers idx questions
        = Except.ok (answeredCorrectly userAnswers idx questions) := by
  intro questions
  induction questions with
  | nil => intro idx _; rfl
  | cons q qs ih =>
    intro idx hq
    obtain ⟨c, hc⟩ := hq q (List.mem_cons_self _ _)
    have ih1 := ih (idx + 1) (fun q1 h1 => hq q1 (List.mem_cons_of_mem _ h1))
    simp only [scoreFrom, answeredCorrectly, hc, ih1]
    cases ha : answerOf userAnswers idx with
    | none => simp [answerIsCorrect]
    | some a =>
      cases c with
      | str s =>
        by_cases hs : a = s
        · simp [answerIsCorrect, hs]; omega
        · simp [answerIsCorrect, hs]
      | null => simp [answerIsCorrect]
      | bool b => simp [answerIsCorrect]
      | num neg mant exp => simp [answerIsCorrect]
      | arr xs => simp [answerIsCorrect]
      | obj kvs => simp [answerIsCorrect]

theorem answeredCorrectly_le (userAnswers : List (Nat × String)) :
    ∀ (questions : List JVal) (idx : Nat),
      answeredCorrectly userAnswers idx questions ≤ questions.length := by
  intro questions
  induction questions with
  | nil => intro idx; simp [answeredCorrectly]
  | cons q qs ih =>
    intro idx
    have := ih (idx + 1)
    simp only [answeredCorrectly, List.length_cons]
    split
    · split <;> omega
    · omega

theorem answeredCorrectly_unanswered (userAnswers : List (Nat × String)) :
    ∀ (questions : List JVal) (idx : Nat),
      (∀ i, idx ≤ i → answerOf userAnswers i = none) →
      answeredCorrectly userAnswers idx questions = 0 := by
  intro questions
  induction questions with
  | nil => intro idx _; rfl
  | cons q qs ih =>
    intro idx h
    have h1 := ih (idx + 1) (fun i hi => h i (by omega))
    simp only [answeredCorrectly, h idx (le_refl _), h1]

/-- C26, counterexample. A question list with one question that has no
`correct` property and a user who selected nothing: `handleNext` sets the score
to 1, since `undefined === undefined` holds, although no option was selected. -/
theorem handleNext_scores_unanswered_question :
    scoreFrom [] 0 [JVal.obj [("question", JVal.str "What does x print?")]] = Except.ok 1 ∧
    answeredCorrectly [] 0 [JVal.obj [("question", JVal.str "What does x print?")]] = 0 ∧
    (∃ r, handleNext true (Except.ok "Well done") none "Intro"
        { selectionState [JVal.obj [("question", JVal.str "What does x print?")]] with
          currentStep := "playing" } = Except.ok r ∧ r.state.score = 1) :=
  ⟨rfl, rfl, _, rfl, rfl⟩

/-- C26, amended. For every list of questions that each have a `correct`
property and every map of selected answers, the final score computed by
`handleNext` equals the number of questions for which the user selected an
option and that option equals the question's `correct` letter; it is at most
the number of questions, the scoring of a question does not change when other
questions are answered, and it is 0 when no option was selected at all. -/
theorem handleNext_score_counts_correct (questions : List JVal)
    (userAnswers : List (Nat × String))
    (hq : ∀ q ∈ questions, ∃ c, correctOf q = Except.ok (some c)) :
    scoreFrom userAnswers 0 questions
      = Except.ok (answeredCorrectly userAnswers 0 questions) ∧
    answeredCorrectly userAnswers 0 questions ≤ questions.length ∧
    ((∀ i, answerOf userAnswers i = none) → scoreFrom userAnswers 0 questions = Except.ok 0) ∧
    (∀ (apiKey : Bool) (feedbackReply : Except JsError String) (user : Option QuizUser)
        (videoTitle : String) (st : QuizState),
      st.questions = questions → st.userAnswers = userAnswers →
      ¬ st.currentIndex + 1 < st.questions.length →
      ∃ r, handleNext apiKey feedbackReply user videoTitle st = Except.ok r ∧
        r.state.score = answeredCorrectly userAnswers 0 questions ∧
        r.state.currentStep = "result") := by
  have h1 := scoreFrom_eq_answeredCorrectly userAnswers questions 0 hq
  refine ⟨h1, answeredCorrectly_le _ _ _, ?_, ?_⟩
  · intro hno
    rw [h1, answeredCorrectly_unanswered userAnswers questions 0 (fun i _ => hno i)]
  · intro apiKey feedbackReply user videoTitle st hqs hua hlast
    subst hqs
    subst hua
    unfold handleNext
    simp only [hlast, if_false, h1, saveToSheet_sends_nothing]
    cases apiKey <;> cases feedbackReply <;>
      by_cases hm : (st.quizMode = "regular" && user.isSome) = true <;>
      simp [hm, callGemini]

/-- C26, witness: `handleNext_score_counts_correct` at one well-formed question
answered correctly. -/
theorem handleNext_score_counts_correct_witness :
    scoreFrom [(0, "A")] 0 [sampleQuestion "What does x print?"]
      = Except.ok (answeredCorrectly [(0, "A")] 0 [sampleQuestion "What does x print?"]) :=
  (handleNext_score_counts_correct [sampleQuestion "What does x print?"] [(0, "A")]
    (by
      intro q hq
      rw [List.mem_singleton] at hq
      subst hq
      exact ⟨JVal.str "A", rfl⟩)).1

/-! ## Theorems: the regular quiz after an AI quiz -/

set_option maxRecDepth 100000

/-- C29: a reachable state in which the quiz mode is regular and the step is
playing, but the questions being played are not the list loaded from the sheet
backend. The sheet has one question for the video; the student generates an AI
set of one question, answers it, finishes, presses Play Again and then Start
Assessment: `startRegularQuiz` starts a regular quiz on the AI questions that
`startInfiniteQuiz` left in `questions`. -/
theorem regular_quiz_plays_ai_questions :
    (runQuiz true (some sampleUser) "v1" "Intro" (some [sampleQuestion "Sheet question"])
        []).questions = [sampleQuestion "Sheet question"] ∧
    (runQuiz true (some sampleUser) "v1" "Intro" (some [sampleQuestion "Sheet question"])
        [QuizEvent.startInfinite (Except.ok plainQuizJson), QuizEvent.select "A",
          QuizEvent.next (Except.ok "Well done"), QuizEvent.again,
          QuizEvent.startRegular]).quizMode = "regular" ∧
    (runQuiz true (some sampleUser) "v1" "Intro" (some [sampleQuestion "Sheet question"])
        [QuizEvent.startInfinite (Except.ok plainQuizJson), QuizEvent.select "A",
          QuizEvent.next (Except.ok "Well done"), QuizEvent.again,
          QuizEvent.startRegular]).currentStep = "playing" ∧
    (runQuiz true (some sampleUser) "v1" "Intro" (some [sampleQuestion "Sheet question"])
        [QuizEvent.startInfinite (Except.ok plainQuizJson), QuizEvent.select "A",
          QuizEvent.next (Except.ok "Well done"), QuizEvent.again,
          QuizEvent.startRegular]).questions = [sampleQuestion "What does x print?"] ∧
    sampleQuestion "What does x print?" ≠ sampleQuestion "Sheet question" := by
  refine ⟨rfl, rfl, rfl, rfl, ?_⟩
  intro h
  simp only [sampleQuestion, JVal.obj.injEq, List.cons.injEq, Prod.mk.injEq, JVal.str.injEq,
    true_and, and_true] at h
  revert h
  decide

/-! ## Theorems: what the admin operations write to the syllabus -/

theorem updateSyllabus_batches_congr (db1 db2 : Db) (batchId : String) (syllabus : Syllabus)
    (h : db1.batches = db2.batches) :
    (updateSyllabus db1 batchId syllabus).batches = (updateSyllabus db2 batchId syllabus).batches := by
  unfold updateSyllabus
  rw [h]
  cases db2.batches batchId with
  | none => exact h
  | some old => simp only [h]

theorem updateSyllabus_written (db : Db) (batchId : String) (syllabus old : Syllabus)
    (h : db.batches batchId = some old) :
    (updateSyllabus db batchId syllabus).batches batchId = some syllabus ∧
    (updateSyllabus db batchId syllabus).secure_videos = db.secure_videos := by
  unfold updateSyllabus
  rw [h]
  simp

/-- C27: the syllabus written by `handleAddContent` does not depend on the
video URL. For any two forms of type video that differ only in `url`, with the
same clock readings, generated id and network behaviour, the `batches`
documents afterwards are identical; when both writes go through, the syllabus
written is the old one with a new item appended to the chapter, that item has
no `url` property, and the URL is in the `secure_videos` record under the
item's id. -/
theorem handleAddContent_syllabus_ignores_url (batchId : String) (syllabus : Syllabus)
    (f : ContentForm) (u2 contentId now1 now2 : String) (setDocOk updateDocOk : Bool) (db : Db)
    (hv : f.type = "video") :
    (handleAddContent batchId syllabus f contentId now1 now2 setDocOk updateDocOk db).batches
      = (handleAddContent batchId syllabus { f with url := u2 } contentId now1 now2 setDocOk
          updateDocOk db).batches ∧
    (∀ old, f.subject ≠ "" → f.chapter ≠ "" → setDocOk = true → updateDocOk = true →
      db.batches batchId = some old →
      ∃ newItem : ContentItem, newItem.url = none ∧ newItem.id = contentId ∧
        (handleAddContent batchId syllabus f contentId now1 now2 setDocOk updateDocOk db).batches
            batchId = some (addToSyllabus syllabus f.subject f.chapter newItem) ∧
        chapterItems (addToSyllabus syllabus f.subject f.chapter newItem) f.subject f.chapter
          = some ((chapterItems syllabus f.subject f.chapter).getD [] ++ [newItem]) ∧
        (handleAddContent batchId syllabus f contentId now1 now2 setDocOk updateDocOk
            db).secure_videos contentId
          = some { url := some f.url, batchId := some batchId, title := some f.title,
                   createdAt := some now1 }) := by
  constructor
  · unfold handleAddContent
    simp only [hv]
    by_cases hsc : (f.subject = "" || f.chapter = "") = true
    · simp only [hsc, if_true]
    · simp only [hsc, Bool.false_eq_true, if_false, if_true]
      cases setDocOk with
      | false => simp
      | true =>
        cases updateDocOk with
        | false => simp [setSecureVideo]
        | true =>
          simp only [if_true]
          exact updateSyllabus_batches_congr _ _ _ _ rfl
  · intro old hs hc hset hupd hold
    subst hset
    subst hupd
    refine ⟨{ id := contentId, title := some f.title, type := some f.type, url := none,
              notesUrl := some "", createdAt := now2 }, rfl, rfl, ?_, ?_, ?_⟩
    · have hw := (updateSyllabus_written
        (setSecureVideo db contentId
          { url := some f.url, batchId := some batchId, title := some f.title,
            createdAt := some now1 }) batchId
        (addToSyllabus syllabus f.subject f.chapter
          { id := contentId, title := some f.title, type := some f.type, url := none,
            notesUrl := some "", createdAt := now2 }) old hold).1
      simpa [handleAddContent, hs, hc, hv] using hw
    · simp only [chapterItems, addToSyllabus, lookupKey_setKey, if_true]
      cases h1 : lookupKey syllabus f.subject with
      | none => simp [lookupKey]
      | some chapters => simp
    · have hw := (updateSyllabus_written
        (setSecureVideo db contentId
          { url := some f.url, batchId := some batchId, title := some f.title,
            createdAt := some now1 }) batchId
        (addToSyllabus syllabus f.subject f.chapter
          { id := contentId, title := some f.title, type := some f.type, url := none,
            notesUrl := some "", createdAt := now2 }) old hold).2
      have hw2 := congrFun hw contentId
      simpa [handleAddContent, hs, hc, hv, setSecureVideo] using hw2

/-- C27, witness: `handleAddContent_syllabus_ignores_url` at the sample form. -/
theorem handleAddContent_syllabus_ignores_url_witness :
    (handleAddContent "b1" sampleSyllabus videoForm "c9" "t1" "t2" true true sampleDb).batches
      = (handleAddContent "b1" sampleSyllabus { videoForm with url := "https://other" } "c9"
          "t1" "t2" true true sampleDb).batches :=
  (handleAddContent_syllabus_ignores_url "b1" sampleSyllabus videoForm "https://other" "c9"
    "t1" "t2" true true sampleDb rfl).1

theorem setKey_ne_nil {α : Type} (m : List (String × α)) (k : String) (v : α) :
    (setKey m k v).length ≠ 0 := by
  cases m with
  | nil => simp [setKey]
  | cons e rest =>
    obtain ⟨k1, v1⟩ := e
    by_cases h : k1 = k <;> simp [setKey, h]

theorem lookupKey_of_mem {α : Type} (m : List (String × α)) (k : String) (v : α)
    (h : (k, v) ∈ m) : lookupKey m k ≠ none := by
  induction m with
  | nil => simp at h
  | cons e rest ih =>
    obtain ⟨k1, v1⟩ := e
    by_cases hk : k1 = k
    · simp [lookupKey, hk]
    · simp only [lookupKey, hk, if_false]
      rcases List.mem_cons.mp h with h1 | h1
      · simp only [Prod.mk.injEq] at h1
        exact absurd h1.1.symm hk
      · exact ih h1

theorem eraseKey_eq_nil {α : Type} (m : List (String × α)) (k : String)
    (h : ∀ c, c ≠ k → lookupKey m c = none) : eraseKey m k = [] := by
  cases he : eraseKey m k with
  | nil => rfl
  | cons e rest =>
    obtain ⟨k1, v1⟩ := e
    have hmem : (k1, v1) ∈ eraseKey m k := by rw [he]; exact List.mem_cons_self _ _
    simp only [eraseKey, List.mem_filter, bne_iff_ne, ne_eq] at hmem
    exact absurd (h k1 hmem.2) (lookupKey_of_mem m k1 v1 hmem.1)

/-- C28: for every syllabus and every (subject, chapter, itemId) naming an
existing chapter, the syllabus written by `handleDelete` leaves every other
subject and every other chapter of the subject unchanged; the target chapter
holds exactly its previous items whose id differs from itemId, in their
original order; a chapter left empty is removed, and a subject left without
chapters is removed. -/
theorem handleDelete_frame (syllabus : Syllabus) (subject chapter itemId : String)
    (chapters : Chapters) (items : List ContentItem)
    (hs : lookupKey syllabus subject = some chapters)
    (hc : lookupKey chapters chapter = some items) :
    (∀ s, s ≠ subject →
      lookupKey (removeFromSyllabus syllabus subject chapter chapters items itemId) s
        = lookupKey syllabus s) ∧
    (∀ c, c ≠ chapter →
      chapterItems (removeFromSyllabus syllabus subject chapter chapters items itemId) subject c
        = chapterItems syllabus subject c) ∧
    (items.filter (fun i => i.id != itemId) ≠ [] →
      chapterItems (removeFromSyllabus syllabus subject chapter chapters items itemId)
          subject chapter
        = some (items.filter (fun i => i.id != itemId))) ∧
    (items.filter (fun i => i.id != itemId) = [] →
      chapterItems (removeFromSyllabus syllabus subject chapter chapters items itemId)
          subject chapter = none ∧
      ((∀ c, c ≠ chapter → lookupKey chapters c = none) →
        lookupKey (removeFromSyllabus syllabus subject chapter chapters items itemId) subject
          = none)) ∧
    (∀ (batchId type : String) (deleteDocOk : Bool) (db : Db) (old : Syllabus),
      db.batches batchId = some old →
      (handleDelete batchId syllabus subject chapter itemId type true deleteDocOk true
          db).batches batchId
        = some (removeFromSyllabus syllabus subject chapter chapters items itemId)) := by
  have hA : ∀ (chapters1 : Chapters) (s : String),
      lookupKey (if chapters1.length = 0 then eraseKey syllabus subject
        else setKey syllabus subject chapters1) s
        = if subject = s then (if chapters1.length = 0 then none else some chapters1)
          else lookupKey syllabus s := by
    intro chapters1 s
    by_cases hk : chapters1.length = 0 <;> by_cases hss : subject = s <;>
      simp [hk, hss, lookupKey_setKey, lookupKey_eraseKey]
  have hB : ∀ (kept : List ContentItem) (c : String),
      lookupKey (if kept.length = 0 then eraseKey chapters chapter
        else setKey chapters chapter kept) c
        = if chapter = c then (if kept.length = 0 then none else some kept)
          else lookupKey chapters c := by
    intro kept c
    by_cases hk : kept.length = 0 <;> by_cases hcc : chapter = c <;>
      simp [hk, hcc, lookupKey_setKey, lookupKey_eraseKey]
  have hC : ∀ c, chapterItems (removeFromSyllabus syllabus subject chapter chapters items itemId)
      subject c
      = if chapter = c then
          (if (items.filter (fun i => i.id != itemId)).length = 0 then none
            else some (items.filter (fun i => i.id != itemId)))
        else lookupKey chapters c := by
    intro c
    obtain ⟨chapters1, hdef⟩ : ∃ chapters1 : Chapters, chapters1 =
        if (items.filter (fun i => i.id != itemId)).length = 0 then eraseKey chapters chapter
        else setKey chapters chapter (items.filter (fun i => i.id != itemId)) := ⟨_, rfl⟩
    have hB1 := hB (items.filter (fun i => i.id != itemId)) c
    rw [← hdef] at hB1
    have e1 : chapterItems (removeFromSyllabus syllabus subject chapter chapters items itemId)
        subject c = if chapters1.length = 0 then none else lookupKey chapters1 c := by
      simp only [removeFromSyllabus, chapterItems, ← hdef, hA, if_true]
      by_cases hlen : chapters1.length = 0
      · simp only [hlen, if_true]
      · simp only [hlen, if_false]
    rw [e1]
    by_cases hlen : chapters1.length = 0
    · simp only [hlen, if_true]
      rw [← hB1, List.length_eq_zero.mp hlen]
      rfl
    · simp only [hlen, if_false]
      exact hB1
  refine ⟨?_, ?_, ?_, ?_, ?_⟩
  · intro s hne
    simp only [removeFromSyllabus, hA]
    simp [Ne.symm hne]
  · intro c hne
    have hcc : ¬ chapter = c := Ne.symm hne
    rw [hC c]
    simp only [hcc, if_false, chapterItems, hs]
  · intro hkept
    have hk : ¬ (items.filter (fun i => i.id != itemId)).length = 0 := by
      rw [List.length_eq_zero]; exact hkept
    rw [hC chapter]
    simp only [if_true, hk, if_false]
  · intro hkept
    have hk : (items.filter (fun i => i.id != itemId)).length = 0 := by
      rw [List.length_eq_zero]; exact hkept
    constructor
    · rw [hC chapter]
      simp only [if_true, hk]
    · intro hall
      simp only [removeFromSyllabus, if_true, hk, eraseKey_eq_nil chapters chapter hall,
        List.length_nil, lookupKey_eraseKey]
  · intro batchId type deleteDocOk db old hold
    have hd : ∀ db1 : Db, db1.batches = db.batches →
        (updateSyllabus db1 batchId
          (removeFromSyllabus syllabus subject chapter chapters items itemId)).batches batchId
          = some (removeFromSyllabus syllabus subject chapter chapters items itemId) := by
      intro db1 h1
      exact (updateSyllabus_written db1 batchId _ old (by rw [h1]; exact hold)).1
    simp only [handleDelete, hs, hc, Bool.not_true, Bool.false_eq_true, if_false, if_true]
    split
    · exact hd _ rfl
    · exact hd _ rfl

/-- C28, witness: `handleDelete_frame` at the sample syllabus, whose only item
is deleted. -/
theorem handleDelete_frame_witness :
    chapterItems (removeFromSyllabus sampleSyllabus "Maths" "Algebra" [("Algebra", [sampleItem])]
        [sampleItem] "id-1") "Maths" "Algebra" = none :=
  ((handleDelete_frame sampleSyllabus "Maths" "Algebra" "id-1" [("Algebra", [sampleItem])]
    [sampleItem] rfl rfl).2.2.2.1 (by decide)).1

/-! ## Theorems: the two fence strippers -/

theorem startsWithChars_ticks4 (cs : List Char) (h : 4 ≤ leadTicks cs) :
    startsWithChars ticks4 cs = true := by
  have e : ticks4 = [tick, tick, tick, tick] := by decide
  rw [e]
  rcases cs with _ | ⟨a, _ | ⟨b, _ | ⟨c, _ | ⟨d, rest⟩⟩⟩⟩
  · simp [leadTicks] at h
  · by_cases ha : a = tick <;> simp [leadTicks, ha] at h
  · by_cases ha : a = tick <;> by_cases hb : b = tick <;> simp [leadTicks, ha, hb] at h
  · by_cases ha : a = tick <;> by_cases hb : b = tick <;> by_cases hc : c = tick <;>
      simp [leadTicks, ha, hb, hc] at h
  · by_cases ha : a = tick <;> by_cases hb : b = tick <;> by_cases hc : c = tick <;>
      by_cases hd : d = tick <;>
      first
        | (simp [leadTicks, ha, hb, hc, hd] at h; done)
        | simp [startsWithChars, ha, hb, hc, hd]

theorem no4_leadTicks (cs : List Char) (h : includesChars ticks4 cs = false) :
    leadTicks cs ≤ 3 := by
  by_contra hlt
  have h4 := startsWithChars_ticks4 cs (by omega)
  cases cs with
  | nil => simp [leadTicks] at hlt
  | cons c cs => simp [includesChars, h4] at h

theorem no4_tail (c : Char) (cs : List Char) (h : includesChars ticks4 (c :: cs) = false) :
    includesChars ticks4 cs = false := by
  simp only [includesChars, Bool.or_eq_false_iff] at h
  exact h.2

theorem no4_drop (k : Nat) : ∀ cs : List Char, includesChars ticks4 cs = false →
    includesChars ticks4 (cs.drop k) = false := by
  induction k with
  | zero => intro cs h; exact h
  | succ k ih =>
    intro cs h
    cases cs with
    | nil => exact h
    | cons c cs => exact ih cs (no4_tail c cs h)

theorem removeAllFrom_step_match (pat : List Char) (c : Char) (l : List Char)
    (h : startsWithChars pat (c :: l) = true) :
    removeAllFrom pat 0 (c :: l) = removeAllFrom pat 0 (l.drop (pat.length - 1)) := by
  rw [← removeAllFrom_skip]
  simp only [removeAllFrom, h, if_true]

theorem removeFencesFrom_step_json (c : Char) (l : List Char)
    (h : startsWithChars fenceJson (c :: l) = true) :
    removeFencesFrom 0 (c :: l) = removeFencesFrom 0 (l.drop 6) := by
  rw [← removeFencesFrom_skip]
  simp only [removeFencesFrom, h, if_true]

theorem removeFencesFrom_step_fence (c : Char) (l : List Char)
    (h1 : startsWithChars fenceJson (c :: l) = false)
    (h2 : startsWithChars fence (c :: l) = true) :
    removeFencesFrom 0 (c :: l) = removeFencesFrom 0 (l.drop 2) := by
  rw [← removeFencesFrom_skip]
  simp only [removeFencesFrom, h1, h2, Bool.false_eq_true, if_false, if_true]

theorem fenceJson_length : fenceJson.length - 1 = 6 := by decide

theorem fence_length : fence.length - 1 = 2 := by decide

theorem leadTicks_cons_le (c : Char) (a b : List Char) (h : leadTicks a ≤ leadTicks b) :
    leadTicks (c :: a) ≤ leadTicks (c :: b) := by
  by_cases hc : c = tick
  · simp only [leadTicks, hc, if_true]; omega
  · simp [leadTicks, hc]

theorem not_fenceJson_of_not_fence (cs : List Char) (h : startsWithChars fence cs = false) :
    startsWithChars fenceJson cs = false := by
  cases hs : startsWithChars fenceJson cs with
  | false => rfl
  | true =>
    rw [startsWithChars_fenceJson_fence cs hs] at h
    exact absurd h (by decide)

theorem not_fence_of_lt (cs : List Char) (h : leadTicks cs < 3) :
    startsWithChars fence cs = false := by
  cases hs : startsWithChars fence cs with
  | false => rfl
  | true =>
    have := (startsWithChars_fence_iff cs).mp hs
    omega

/-- Removing the tagged fences from a text without four backticks in a row
does not lengthen the run of backticks at its head. -/
theorem leadTicks_removeAllFrom_le : ∀ (n : Nat) (t : List Char), t.length ≤ n →
    includesChars ticks4 t = false →
    leadTicks (removeAllFrom fenceJson 0 t) ≤ leadTicks t := by
  intro n
  induction n with
  | zero =>
    intro t hn _
    have : t = [] := List.length_eq_zero.mp (by omega)
    subst this
    simp [removeAllFrom]
  | succ n ih =>
    intro t hn h4
    cases t with
    | nil => simp [removeAllFrom]
    | cons c cs =>
      simp only [List.length_cons] at hn
      by_cases hm : startsWithChars fenceJson (c :: cs) = true
      · rw [removeAllFrom_step_match _ _ _ hm, fenceJson_length]
        have hd := no4_drop 6 cs (no4_tail c cs h4)
        have h1 := ih (cs.drop 6) (by simp only [List.length_drop]; omega) hd
        have h2 := no4_leadTicks _ hd
        have h3 := (startsWithChars_fence_iff _).mp (startsWithChars_fenceJson_fence _ hm)
        omega
      · have hm1 : startsWithChars fenceJson (c :: cs) = false := by
          cases hs : startsWithChars fenceJson (c :: cs) with
          | false => rfl
          | true => exact absurd hs hm
        rw [removeAllFrom_step_keep _ _ _ hm1]
        exact leadTicks_cons_le c _ _ (ih cs (by omega) (no4_tail c cs h4))

/-- On a text without four backticks in a row, removing the tagged fences and
then the plain ones leaves what one pass over both leaves. -/
theorem two_pass_eq_single : ∀ (n : Nat) (t : List Char), t.length ≤ n →
    includesChars ticks4 t = false →
    removeAllFrom fence 0 (removeAllFrom fenceJson 0 t) = removeFencesFrom 0 t := by
  intro n
  induction n with
  | zero =>
    intro t hn _
    have : t = [] := List.length_eq_zero.mp (by omega)
    subst this
    rfl
  | succ n ih =>
    intro t hn h4
    cases t with
    | nil => rfl
    | cons c cs =>
      simp only [List.length_cons] at hn
      have h4t := no4_tail c cs h4
      by_cases hm : startsWithChars fenceJson (c :: cs) = true
      · rw [removeAllFrom_step_match _ _ _ hm, fenceJson_length,
          removeFencesFrom_step_json _ _ hm]
        exact ih (cs.drop 6) (by simp only [List.length_drop]; omega) (no4_drop 6 cs h4t)
      · have hm1 : startsWithChars fenceJson (c :: cs) = false := by
          cases hs : startsWithChars fenceJson (c :: cs) with
          | false => rfl
          | true => exact absurd hs hm
        rw [removeAllFrom_step_keep _ _ _ hm1]
        by_cases hf : startsWithChars fence (c :: cs) = true
        · rw [removeFencesFrom_step_fence _ _ hm1 hf]
          obtain ⟨u, hu⟩ := (startsWithChars_iff _ _).mp hf
          rw [fence_eq] at hu
          simp only [List.cons_append, List.nil_append, List.cons.injEq] at hu
          obtain ⟨hc, hcs⟩ := hu
          subst hc
          subst hcs
          have h3 := no4_leadTicks _ h4
          have hu0 : leadTicks u = 0 := by
            simp only [leadTicks, if_true] at h3
            omega
          have k1 : startsWithChars fenceJson (tick :: tick :: u) = false := by
            apply not_fenceJson_of_not_fence
            apply not_fence_of_lt
            simp only [leadTicks, if_true]
            omega
          have k2 : startsWithChars fenceJson (tick :: u) = false := by
            apply not_fenceJson_of_not_fence
            apply not_fence_of_lt
            simp only [leadTicks, if_true]
            omega
          rw [removeAllFrom_step_keep _ _ _ k1, removeAllFrom_step_keep _ _ _ k2]
          have k3 : startsWithChars fence
              (tick :: tick :: tick :: removeAllFrom fenceJson 0 u) = true := by
            rw [startsWithChars_fence_iff]
            simp only [leadTicks, if_true]
            omega
          rw [removeAllFrom_step_match _ _ _ k3, fence_length]
          simp only [List.drop_succ_cons, List.drop_zero]
          exact ih u (by simp only [List.length_cons] at hn; omega)
            (no4_tail _ _ (no4_tail _ _ h4t))
        · have hf1 : startsWithChars fence (c :: cs) = false := by
            cases hs : startsWithChars fence (c :: cs) with
            | false => rfl
            | true => exact absurd hs hf
          rw [removeFencesFrom_step_keep _ _ hm1 hf1]
          have hlt : leadTicks (c :: cs) < 3 := by
            by_contra hge
            have := (startsWithChars_fence_iff (c :: cs)).mpr (by omega)
            rw [this] at hf1
            exact absurd hf1 (by decide)
          have hle := leadTicks_cons_le c _ _ (leadTicks_removeAllFrom_le cs.length cs (le_refl _) h4t)
          have k4 : startsWithChars fence (c :: removeAllFrom fenceJson 0 cs) = false :=
            not_fence_of_lt _ (by omega)
          rw [removeAllFrom_step_keep _ _ _ k4, ih cs (by omega) h4t]

/-- C30, counterexample. On the reply made of four backticks followed by
`json` the two strippers disagree: the two-pass strip of `geminiService`
removes the tagged fence and leaves one backtick, the single-regex strip of
`QuizSection` removes the first three backticks and leaves a backtick followed
by `json`. -/
theorem fence_strippers_disagree :
    geminiCleanJson "````json" = "`" ∧ quizCleanJson "````json" = "`json" ∧
      geminiCleanJson "````json" ≠ quizCleanJson "````json" := by
  decide

/-- C30, amended. The two fence-stripping implementations agree on every AI
reply text that does not contain four backticks in a row: the single-regex
strip of `QuizSection` and the two-pass strip of `geminiService` produce the
same cleaned text. -/
theorem fence_strippers_agree (text : String) (h : strIncludes text "````" = false) :
    geminiCleanJson text = quizCleanJson text := by
  have h4 : includesChars ticks4 text.data = false := h
  simp only [geminiCleanJson, quizCleanJson, two_pass_eq_single text.data.length text.data
    (le_refl _) h4]

/-- C30, witness: `fence_strippers_agree` at a fenced reply. -/
theorem fence_strippers_agree_witness :
    geminiCleanJson (wrapInFence plainQuizJson) = quizCleanJson (wrapInFence plainQuizJson) :=
  fence_strippers_agree (wrapInFence plainQuizJson) (by decide)

/-! ## Lemmas: `JSON.parse` reads back what `JSON.stringify` writes for strings -/

theorem unitsToChars_toNat : ∀ l : List Char, unitsToChars (l.map Char.toNat) = l := by
  intro l
  unfold unitsToChars
  induction l with
  | nil => rfl
  | cons c l ih =>
    have hv : c.toNat < 55296 ∨ (57343 < c.toNat ∧ c.toNat < 1114112) := c.valid
    have h1 : ¬ (55296 ≤ c.toNat ∧ c.toNat ≤ 56319) := by omega
    have h2 : ¬ (55296 ≤ c.toNat ∧ c.toNat ≤ 57343) := by omega
    simp only [List.map_cons, unitsToCharsFrom, h1, if_false, unitChar, h2, Char.ofNat_toNat, ih]

theorem hex4_hexDigit : ∀ n, n < 32 →
    hex4 '0' '0' (hexDigit (n / 16)) (hexDigit (n % 16)) = some n := by
  decide

theorem parseStringBody_quoted_char (c : Char) (X : List Char) (acc : List Nat) :
    parseStringBody (quoteJsonChar c ++ X) acc = parseStringBody X (c.toNat :: acc) := by
  unfold quoteJsonChar
  by_cases h1 : c = quoteChar
  · rw [if_pos h1, h1]
    exact (parseStringBody_escape quoteChar X acc (by decide)).trans rfl
  rw [if_neg h1]
  by_cases h2 : c = backslash
  · rw [if_pos h2, h2]
    exact (parseStringBody_escape backslash X acc (by decide)).trans rfl
  rw [if_neg h2]
  by_cases h3 : c.toNat = 8
  · rw [if_pos h3, h3]
    exact (parseStringBody_escape 'b' X acc (by decide)).trans rfl
  rw [if_neg h3]
  by_cases h4 : c.toNat = 12
  · rw [if_pos h4, h4]
    exact (parseStringBody_escape 'f' X acc (by decide)).trans rfl
  rw [if_neg h4]
  by_cases h5 : c.toNat = 10
  · rw [if_pos h5, h5]
    exact (parseStringBody_escape 'n' X acc (by decide)).trans rfl
  rw [if_neg h5]
  by_cases h6 : c.toNat = 13
  · rw [if_pos h6, h6]
    exact (parseStringBody_escape 'r' X acc (by decide)).trans rfl
  rw [if_neg h6]
  by_cases h7 : c.toNat = 9
  · rw [if_pos h7, h7]
    exact (parseStringBody_escape 't' X acc (by decide)).trans rfl
  rw [if_neg h7]
  by_cases h8 : c.toNat < 32
  · rw [if_pos h8]
    have h9 := parseStringBody_unicode '0' '0' (hexDigit (c.toNat / 16))
      (hexDigit (c.toNat % 16)) X acc
    rw [hex4_hexDigit _ h8] at h9
    exact h9
  · rw [if_neg h8]
    have h9 := parseStringBody_plain c X acc h1 h2
    rw [if_neg h8] at h9
    exact h9

theorem parseStringBody_quoted : ∀ (s : List Char) (acc : List Nat) (rest : List Char),
    parseStringBody (s.flatMap quoteJsonChar ++ quoteChar :: rest) acc
      = some (String.mk (unitsToChars (acc.reverse ++ s.map Char.toNat)), rest) := by
  intro s
  induction s with
  | nil =>
    intro acc rest
    simp only [List.flatMap_nil, List.nil_append, List.map_nil, List.append_nil]
    exact parseStringBody_quote rest acc
  | cons c s ih =>
    intro acc rest
    rw [List.flatMap_cons, List.append_assoc, parseStringBody_quoted_char, ih]
    simp only [List.reverse_cons, List.append_assoc, List.singleton_append, List.map_cons]

theorem parseStringBody_quoteJson (s : String) (rest : List Char) :
    parseStringBody (s.data.flatMap quoteJsonChar ++ quoteChar :: rest) [] = some (s, rest) := by
  rw [parseStringBody_quoted]
  simp only [List.reverse_nil, List.nil_append, unitsToChars_toNat]

theorem parseValue_quoteJson (f : Nat) (s : String) (rest : List Char) :
    parseValue (f + 1) (quoteChar :: (s.data.flatMap quoteJsonChar ++ quoteChar :: rest))
      = Parsed.ok (JVal.str s) rest :=
  step_value_string f _ s rest (parseStringBody_quoteJson s rest)

theorem quoteJson_append (s : String) (rest : List Char) :
    quoteJson s ++ rest = quoteChar :: (s.data.flatMap quoteJsonChar ++ quoteChar :: rest) := by
  simp [quoteJson, List.append_assoc]

theorem parseValue_noteJson (g : Nat) (title notesContent date : String) :
    parseValue (g + 5) (noteJson title notesContent date).data
      = Parsed.ok (JVal.obj [("title", JVal.str title), ("content", JVal.str notesContent),
          ("date", JVal.str date)]) [] := by
  have hdata : (noteJson title notesContent date).data
      = '{' :: (quoteJson "title" ++ (':' :: (quoteJson title ++ (',' ::
          (quoteJson "content" ++ (':' :: (quoteJson notesContent ++ (',' ::
          (quoteJson "date" ++ (':' :: (quoteJson date ++ ['}']))))))))))) := by
    simp [noteJson, List.append_assoc]
  rw [hdata]
  simp only [quoteJson_append]
  have hq : isJsonWs quoteChar = false := by decide
  have hcolon : ∀ u : List Char, skipWs (':' :: u) = ':' :: u :=
    fun u => skipWs_of_head ':' u (by decide)
  have hcomma : ∀ u : List Char, skipWs (',' :: u) = ',' :: u :=
    fun u => skipWs_of_head ',' u (by decide)
  have hclose : ∀ u : List Char, skipWs ('}' :: u) = '}' :: u :=
    fun u => skipWs_of_head '}' u (by decide)
  have m3 := step_members_last (g + 1) _
    [("content", JVal.str notesContent), ("title", JVal.str title)] "date" _ _
    (JVal.str date) _ []
    (parseStringBody_quoteJson "date" _) (hcolon _) (parseValue_quoteJson g date _) (hclose _)
  have m2 := step_members_more (g + 2) _ [("title", JVal.str title)] "content" _ _
    (JVal.str notesContent) _ _ _ _
    (parseStringBody_quoteJson "content" _) (hcolon _) (parseValue_quoteJson (g + 1) _ _)
    (hcomma _) m3
  have m1 := step_members_more (g + 3) _ [] "title" _ _ (JVal.str title) _ _ _ _
    (parseStringBody_quoteJson "title" _) (hcolon _) (parseValue_quoteJson (g + 2) _ _)
    (hcomma _) m2
  refine step_value_obj (g + 4) _ _ _ ?_ ?_
  · intro r h
    rw [skipWs_of_head _ _ hq] at h
    simp only [List.cons.injEq] at h
    exact absurd h.1 (by decide)
  · rw [skipWs_of_head _ _ hq]
    exact m1

/-- The text that `handleExportPDF` stores parses back to the note. -/
theorem jsonParse_noteJson (title notesContent date : String) :
    jsonParse (noteJson title notesContent date)
      = some (JVal.obj [("title", JVal.str title), ("content", JVal.str notesContent),
          ("date", JVal.str date)]) := by
  have hlen : 2 ≤ (noteJson title notesContent date).length := by
    simp only [noteJson, String.length, List.length_cons, List.length_append, List.length_nil]
    omega
  obtain ⟨g, hg⟩ : ∃ g, 2 * (noteJson title notesContent date).length + 2 = g + 5 :=
    ⟨2 * (noteJson title notesContent date).length + 2 - 5, by omega⟩
  unfold jsonParse
  rw [hg, parseValue_noteJson]
  rfl

/-! ## Lemmas: local storage -/

theorem setKey_keys {α : Type} (m : List (String × α)) (k : String) (v : α) :
    (setKey m k v).map Prod.fst
      = if k ∈ m.map Prod.fst then m.map Prod.fst else m.map Prod.fst ++ [k] := by
  induction m with
  | nil => simp [setKey]
  | cons e rest ih =>
    obtain ⟨k1, v1⟩ := e
    by_cases h : k1 = k
    · subst h
      simp [setKey]
    · have h2 : ¬ k = k1 := fun hh => h hh.symm
      simp only [setKey, h, if_false, List.map_cons, ih, List.mem_cons, h2, false_or]
      split <;> simp

theorem setKey_nodup {α : Type} (m : List (String × α)) (k : String) (v : α)
    (h : (m.map Prod.fst).Nodup) : ((setKey m k v).map Prod.fst).Nodup := by
  rw [setKey_keys]
  split
  · exact h
  · rename_i hk
    exact List.Nodup.append h (List.nodup_singleton k) (by simpa using hk)

theorem setKey_mem_keys {α : Type} (m : List (String × α)) (k : String) (v : α) :
    k ∈ (setKey m k v).map Prod.fst := by
  rw [setKey_keys]
  split
  · assumption
  · simp

theorem eraseKey_not_mem_keys {α : Type} (m : List (String × α)) (k : String) :
    k ∉ (eraseKey m k).map Prod.fst := by
  intro h
  obtain ⟨e, he, hk⟩ := List.mem_map.mp h
  simp only [eraseKey, List.mem_filter, bne_iff_ne, ne_eq] at he
  exact he.2 hk

theorem replaceFirst_tag (u : List Char) :
    replaceFirst offlineTag.data (offlineTag.data ++ u) = u := by
  have hs : startsWithChars offlineTag.data (offlineTag.data ++ u) = true :=
    (startsWithChars_iff _ _).mpr (List.prefix_append _ _)
  have hc : offlineTag.data ++ u = 'o' :: ("ffline_note_".data ++ u) := rfl
  have step : ∀ c l, startsWithChars offlineTag.data (c :: l) = true →
      replaceFirst offlineTag.data (c :: l) = (c :: l).drop offlineTag.data.length := by
    intro c l h
    simp only [replaceFirst, h, if_true]
  rw [hc] at hs
  rw [hc, step _ _ hs]
  rfl

/-- An item that `loadDownloads` builds for a key carries the rest of the key
after the tag as its id. -/
theorem downloadOf_key (ls : LocalStorage) (key : String) (item : DownloadItem)
    (h : downloadOf ls key = some item) : key = offlineTag ++ item.id := by
  unfold downloadOf at h
  split at h
  · rename_i hs
    obtain ⟨u, hu⟩ := (startsWithChars_iff _ _).mp hs
    split at h
    · simp only [Option.some.injEq] at h
      subst h
      simp only
      rw [← hu, replaceFirst_tag]
      apply String.ext
      rw [String.data_append, hu]
    · simp at h
  · simp at h

theorem downloadOf_stored (ls : LocalStorage) (videoId title notesContent date : String) :
    downloadOf (setKey ls (offlineTag ++ videoId) (noteJson title notesContent date))
        (offlineTag ++ videoId)
      = some { data := JVal.obj [("title", JVal.str title), ("content", JVal.str notesContent),
                 ("date", JVal.str date)],
               id := videoId } := by
  have hs : startsWith (offlineTag ++ videoId) offlineTag = true := by
    simp only [startsWith, String.data_append]
    exact (startsWithChars_iff _ _).mpr (List.prefix_append _ _)
  simp only [downloadOf, hs, if_true, lookupKey_setKey, Option.getD_some, jsonParse_noteJson,
    String.data_append, replaceFirst_tag]

theorem filterMap_filter_single {α β : Type} (g : α → Option β) (p : β → Bool) (a : α)
    (y0 : β) (hg : g a = some y0) (hp : p y0 = true) :
    ∀ l : List α, l.Nodup → a ∈ l →
      (∀ x ∈ l, x ≠ a → ∀ y, g x = some y → p y = false) →
      (l.filterMap g).filter p = [y0] := by
  have hnone : ∀ l : List α, (∀ x ∈ l, ∀ y, g x = some y → p y = false) →
      (l.filterMap g).filter p = [] := by
    intro l hl
    rw [List.filter_eq_nil_iff]
    intro y hy
    obtain ⟨x, hx, hxy⟩ := List.mem_filterMap.mp hy
    simp [hl x hx y hxy]
  intro l
  induction l with
  | nil => intro _ h; simp at h
  | cons x xs ih =>
    intro hnd hmem hother
    rw [List.nodup_cons] at hnd
    by_cases hxa : x = a
    · subst hxa
      rw [List.filterMap_cons, hg]
      simp only [List.filter_cons, hp, if_true]
      rw [hnone xs]
      intro z hz y hzy
      exact hother z (List.mem_cons_of_mem _ hz) (fun h => hnd.1 (h ▸ hz)) y hzy
    · have hin : a ∈ xs := by
        rcases List.mem_cons.mp hmem with h | h
        · exact absurd h.symm hxa
        · exact h
      have ih1 := ih hnd.2 hin (fun z hz => hother z (List.mem_cons_of_mem _ hz))
      rw [List.filterMap_cons]
      cases hgx : g x with
      | none => exact ih1
      | some y =>
        have := hother x (List.mem_cons_self _ _) hxa y hgx
        simp only [List.filter_cons, this, Bool.false_eq_true, if_false]
        exact ih1

/-! ## Theorems: the offline-note round trip -/

/-- C23: offline-note round trip. For every local-storage state (a list of
entries in which each key occurs once), video id v, title t and non-empty notes
content c, after `handleExportPDF` stores the note under the key
`offline_note_<v>` (the call of `setItem` going through), the list of
`loadDownloads` contains exactly one item with id v, and that item has title t
and content c; after `handleDelete(v)` of `Downloads` no item with id v is
listed, neither in the `downloads` state nor by a later `loadDownloads`. -/
theorem offline_note_round_trip (ls : LocalStorage) (v t c date : String)
    (hkeys : (ls.map Prod.fst).Nodup) (hc : c ≠ "") :
    (loadDownloads (handleExportPDF c t v date true ls)).filter (fun item => item.id = v)
      = [{ data := JVal.obj [("title", JVal.str t), ("content", JVal.str c),
             ("date", JVal.str date)], id := v }] ∧
    (∀ item ∈ loadDownloads (handleExportPDF c t v date true ls), item.id = v →
      itemProp item "title" = some (JVal.str t) ∧
      itemProp item "content" = some (JVal.str c)) ∧
    (∀ item ∈ (Downloads.handleDelete v (handleExportPDF c t v date true ls,
        loadDownloads (handleExportPDF c t v date true ls))).2, item.id ≠ v) ∧
    (∀ item ∈ loadDownloads (Downloads.handleDelete v (handleExportPDF c t v date true ls,
        loadDownloads (handleExportPDF c t v date true ls))).1, item.id ≠ v) := by
  have hls : handleExportPDF c t v date true ls
      = setKey ls (offlineTag ++ v) (noteJson t c date) := by
    simp [handleExportPDF, hc]
  rw [hls]
  have hsingle : (loadDownloads (setKey ls (offlineTag ++ v) (noteJson t c date))).filter
      (fun item => item.id = v)
      = [{ data := JVal.obj [("title", JVal.str t), ("content", JVal.str c),
             ("date", JVal.str date)], id := v }] := by
    unfold loadDownloads
    refine filterMap_filter_single _ _ (offlineTag ++ v) _ (downloadOf_stored ls v t c date)
      (by simp) _ (setKey_nodup ls _ _ hkeys) (setKey_mem_keys ls _ _) ?_
    intro key _ hne item hitem
    have hk := downloadOf_key _ _ _ hitem
    simp only [decide_eq_false_iff_not]
    intro hid
    rw [hid] at hk
    exact hne hk
  refine ⟨hsingle, ?_, ?_, ?_⟩
  · intro item hmem hid
    have hm : item ∈ (loadDownloads (setKey ls (offlineTag ++ v) (noteJson t c date))).filter
        (fun item => item.id = v) := by
      rw [List.mem_filter]
      exact ⟨hmem, by simp [hid]⟩
    rw [hsingle, List.mem_singleton] at hm
    subst hm
    exact ⟨rfl, rfl⟩
  · intro item hmem
    simp only [Downloads.handleDelete, List.mem_filter, bne_iff_ne, ne_eq] at hmem
    exact hmem.2
  · intro item hmem hid
    simp only [Downloads.handleDelete, loadDownloads] at hmem
    obtain ⟨key, hkey, hitem⟩ := List.mem_filterMap.mp hmem
    have hk := downloadOf_key _ _ _ hitem
    rw [hid] at hk
    rw [hk] at hkey
    exact eraseKey_not_mem_keys _ _ hkey

/-- C23, witness: `offline_note_round_trip` at a storage that holds an
unrelated entry and an older note. -/
theorem offline_note_round_trip_witness :
    (loadDownloads (handleExportPDF "# Notes" "Intro" "v1" "2024-05-01T10:00:00.000Z" true
        sampleStorage)).filter (fun item => item.id = "v1")
      = [{ data := JVal.obj [("title", JVal.str "Intro"), ("content", JVal.str "# Notes"),
             ("date", JVal.str "2024-05-01T10:00:00.000Z")], id := "v1" }] :=
  (offline_note_round_trip sampleStorage "v1" "Intro" "# Notes" "2024-05-01T10:00:00.000Z"
    (by decide) (by decide)).1

/-! ## Lemmas: the recursion of the normaliser follows the nesting -/

theorem jdepthList_le (n : Nat) (ih : ∀ v, jsize v ≤ n → jdepth v ≤ jsize v) :
    ∀ xs : List JVal, jsizeList xs ≤ n → jdepthList xs ≤ jsizeList xs := by
  intro xs
  induction xs with
  | nil => intro _; simp [jdepthList, jsizeList]
  | cons x xs ihx =>
    intro h
    simp only [jsizeList] at h
    have h1 := ih x (by omega)
    have h2 := ihx (by omega)
    simp only [jdepthList, jsizeList]
    omega

theorem jdepthMembers_le (n : Nat) (ih : ∀ v, jsize v ≤ n → jdepth v ≤ jsize v) :
    ∀ kvs : List (String × JVal), jsizeMembers kvs ≤ n →
      jdepthMembers kvs ≤ jsizeMembers kvs := by
  intro kvs
  induction kvs with
  | nil => intro _; simp [jdepthMembers, jsizeMembers]
  | cons kv kvs ihx =>
    obtain ⟨k, v⟩ := kv
    intro h
    simp only [jsizeMembers] at h
    have h1 := ih v (by omega)
    have h2 := ihx (by omega)
    simp only [jdepthMembers, jsizeMembers]
    omega

theorem jdepth_le_jsize_aux (n : Nat) : ∀ v, jsize v ≤ n → jdepth v ≤ jsize v := by
  induction n with
  | zero =>
    intro v h
    have := jsize_pos v
    omega
  | succ n ih =>
    intro v h
    cases v with
    | null => simp [jdepth, jsize]
    | bool b => simp [jdepth, jsize]
    | num neg mant exp => simp [jdepth, jsize]
    | str s => simp [jdepth, jsize]
    | arr xs =>
      simp only [jsize] at h
      have := jdepthList_le n ih xs (by omega)
      simp only [jdepth, jsize]
      omega
    | obj kvs =>
      simp only [jsize] at h
      have := jdepthMembers_le n ih kvs (by omega)
      simp only [jdepth, jsize]
      omega

theorem jdepth_le_jsize (v : JVal) : jdepth v ≤ jsize v :=
  jdepth_le_jsize_aux (jsize v) v (le_refl _)

theorem getProp_depth (kvs : List (String × JVal)) (k : String) (v : JVal)
    (h : getProp kvs k = some v) : jdepth v ≤ jdepthMembers kvs := by
  induction kvs with
  | nil => simp [getProp] at h
  | cons kv kvs ih =>
    obtain ⟨k1, v1⟩ := kv
    unfold getProp at h
    simp only [jdepthMembers]
    split at h
    · rename_i w hw
      simp only [Option.some.injEq] at h
      subst h
      have := ih hw
      omega
    · split at h
      · simp only [Option.some.injEq] at h
        subst h
        omega
      · simp at h

theorem truthyProp_depth (kvs : List (String × JVal)) (k : String) (v : JVal)
    (h : truthyProp kvs k = some v) : jdepth v ≤ jdepthMembers kvs := by
  unfold truthyProp at h
  split at h
  · rename_i w hw
    split at h
    · simp only [Option.some.injEq] at h
      subst h
      exact getProp_depth _ _ _ hw
    · simp at h
  · simp at h

theorem extractFuel_depth_aux (n : Nat) :
    ∀ (f : Nat) (d : JVal), f ≤ n → jdepth d ≤ f → extractFuel f d = extractNoteContent d := by
  induction n with
  | zero =>
    intro f d hf hd
    have : 1 ≤ jdepth d := by cases d <;> simp [jdepth]
    omega
  | succ n ih =>
    intro f d hf hd
    cases f with
    | zero =>
      have : 1 ≤ jdepth d := by cases d <;> simp [jdepth]
      omega
    | succ f' =>
      obtain ⟨m, hm⟩ : ∃ m, jsize d = m + 1 := ⟨jsize d - 1, by have := jsize_pos d; omega⟩
      have key : ∀ v, jdepth v ≤ f' → jsize v ≤ m → extractFuel f' v = extractFuel m v := by
        intro v hv1 hv2
        rw [ih f' v (by omega) hv1, (extractFuel_adequate m v hv2).1]
      unfold extractNoteContent
      rw [hm]
      cases d with
      | null => simp [extractFuel, truthy]
      | bool b => cases b <;> simp [extractFuel, truthy]
      | num neg mant exp => simp [extractFuel]
      | str s =>
        simp only [jsize, Nat.add_right_cancel_iff] at hm
        simp only [jdepth] at hd
        simp only [extractFuel]
        split
        · rfl
        · split
          · split
            · rename_i parsed hp
              split
              · have h1 := jsonParse_size _ _ hp
                have h2 := trim_length_le s
                have h3 := jdepth_le_jsize parsed
                exact key parsed (by omega) (by omega)
              · rfl
            · rfl
          · rfl
      | arr xs =>
        simp only [jsize, Nat.add_right_cancel_iff] at hm
        simp only [jdepth] at hd
        cases xs with
        | nil => simp [extractFuel]
        | cons x0 xs0 =>
          simp only [jsizeList] at hm
          simp only [jdepthList] at hd
          simp only [extractFuel, truthy, Bool.not_true, Bool.false_eq_true, if_false]
          exact key x0 (by omega) (by omega)
      | obj kvs =>
        simp only [jsize, Nat.add_right_cancel_iff] at hm
        simp only [jdepth] at hd
        simp only [extractFuel]
        split
        · rfl
        · split
          · rfl
          · split
            · rfl
            · split
              · rfl
              · split
                · rename_i v hv
                  have h1 := truthyProp_size _ _ _ hv
                  have h2 := truthyProp_depth _ _ _ hv
                  exact key v (by omega) (by omega)
                · split
                  · rename_i v hv
                    have h1 := truthyProp_size _ _ _ hv
                    have h2 := truthyProp_depth _ _ _ hv
                    exact key v (by omega) (by omega)
                  · rfl

/-- The recursion of `extractNoteContent` never goes deeper than the nesting of
its argument. -/
theorem extractFuel_depth (f : Nat) (d : JVal) (h : jdepth d ≤ f) :
    extractFuel f d = extractNoteContent d :=
  extractFuel_depth_aux f f d (le_refl _) h

/-- C25: `extractNoteContent` is total, with depth bounded by the nesting of
the data. For every value (a string, also one that holds JSON text nested
inside JSON text, a list, a keyed structure, any other scalar) the recursion
returns a string, and it does so within every depth bound that is at least the
nesting depth `jdepth` of the value: one level per level of lists and keyed
structures, and for a string at most its length. -/
theorem extractNoteContent_total (d : JVal) :
    ∃ s : String, extractNoteContent d = some s ∧
      ∀ f, jdepth d ≤ f → extractFuel f d = some s := by
  have h := (extractFuel_adequate (jsize d) d (le_refl _)).2
  cases hs : extractNoteContent d with
  | none => rw [hs] at h; simp at h
  | some s =>
    refine ⟨s, rfl, ?_⟩
    intro f hf
    rw [extractFuel_depth f d hf, hs]

end Abpre
